import Mathlib

/-!
# extract_fasta_multi_exon: a shallow embedding and its verified properties

The C program `extract_fasta_multi_exon.c` reads a list of interval requests, sorts
them, and streams a FASTA file, printing for every source sequence the requested
sub-sequences.  This file embeds the program's functions as Lean definitions and
proves properties of them.

Modelling conventions

* A C string is a `List Char` (one `Char` per byte, no NUL inside a string).
* A C `int` is an `Int`.  The quantities the program computes (`left + right`,
  `count`, `index`) stay far below `2 ^ 31` for tables and sequences that fit
  in memory, so no wrap-around is modelled for them.  The numbers of the interval
  list come from `atoi`, which is modelled with the 32-bit result glibc gives.
  Where the program divides or takes a remainder the operands are non-negative,
  so C's truncating `/` and `%` agree with Lean's.
* `stdout` is the list of characters written so far.  `exit(EXIT_FAILURE)` flushes
  `stdout`, so a failing run still has the output written before the failure.
* A loop whose trip count is not a counted `for` carries a fuel argument; running
  out of fuel is a result of its own (`none`), never a made-up return value.
-/

namespace ExtractFasta

set_option maxRecDepth 100000

/-! ## Constants (lines 58-66) -/

/-- `#define PRINT_CUTOFF 80`. -/
abbrev PRINT_CUTOFF : Int := 80

/-- `#define MAXLINELEN 500000`. -/
abbrev MAXLINELEN : Nat := 500000

/-- `#define MAXPIECES 150`. -/
abbrev MAXPIECES : Int := 150

/-- `#define UNKNOWN -2`. -/
abbrev UNKNOWN : Int := -2

/-- `#define PLUS 1`. -/
abbrev PLUS : Int := 1

/-- `#define MINUS 2`. -/
abbrev MINUS : Int := 2

/-- The delimiter set `WHITE_SPACE`, the characters of `" \n\r\t\v"`. -/
def is_white_space (c : Char) : Bool :=
  c = ' ' || c = '\n' || c = '\r' || c = '\t' || c = Char.ofNat 11

/-! ## The interval record (lines 68-78) -/

/-- The C struct `interval_record`.  The two fixed-size arrays are lists holding the
slots that have been written. -/
structure interval_record where
  name : List Char
  npieces : Int
  start : Int
  end_ : Int
  pstartA : List Int
  pendA : List Int
  strand : Int
  opttok : Option (List Char)
  deriving DecidableEq, Inhabited

/-! ## libc: strcmp -/

/-- The libc function `strcmp`: the difference of the first pair of bytes that differ,
the end of a string counting as a byte below every character. -/
def strcmp : List Char → List Char → Int
  | [], [] => 0
  | [], _ :: _ => -1
  | _ :: _, [] => 1
  | a :: as, b :: bs => if a = b then strcmp as bs else (a.toNat : Int) - (b.toNat : Int)

/-! ## find_index (lines 326-354) -/

/-- The backward scan of lines 341-345.  The argument is `index + 1` for the C variable
`index` at the loop test, so `0` stands for `index = -1`; the value is the `index + 1`
the C code returns.  `none`: a read outside the table. -/
def scan_back (interval_data : List interval_record) (name : List Char) : Nat → Option Int
  | 0 => some 0
  | k + 1 =>
    match interval_data[k]? with
    | none => none
    | some e =>
      if strcmp name e.name = 0 then scan_back interval_data name k
      else some ((k : Int) + 1)

/-- The `while (left <= right)` loop of lines 335-351.  `none`: the loop has not
returned within the fuel, or it read outside the table. -/
def find_index_loop (interval_data : List interval_record) (name : List Char) :
    Nat → Int → Int → Option Int
  | 0, _, _ => none
  | fuel + 1, left, right =>
    if left ≤ right then
      let index := (left + right) / 2
      if index < 0 then none
      else
        match interval_data[index.toNat]? with
        | none => none
        | some e =>
          let temp := strcmp name e.name
          if temp = 0 then scan_back interval_data name index.toNat
          else if temp < 0 then find_index_loop interval_data name fuel left (index - 1)
          else find_index_loop interval_data name fuel (index + 1) right
    else some UNKNOWN

/-- The function `find_index`: `interval_count` is the length of the table.  The fuel
`interval_count + 1` is more than the loop uses on any table, sorted or not
(`find_index_loop_returns`). -/
def find_index (interval_data : List interval_record) (name : List Char) : Option Int :=
  find_index_loop interval_data name (interval_data.length + 1) 0
    ((interval_data.length : Int) - 1)

/-- A table is sorted by name when `strcmp` never finds an earlier name above a later one. -/
def SortedByName (interval_data : List interval_record) : Prop :=
  interval_data.Pairwise (fun a b => strcmp a.name b.name ≤ 0)

instance (interval_data : List interval_record) : Decidable (SortedByName interval_data) := by
  unfold SortedByName; infer_instance

/-- The index `k` is the lowest index of the table whose name is `q`. -/
def IsFirstMatch (t : List interval_record) (q : List Char) (k : Nat) : Prop :=
  (∃ e, t[k]? = some e ∧ e.name = q) ∧ ∀ j e, j < k → t[j]? = some e → e.name ≠ q

/-! ## Outcomes -/

/-- The reasons for which the program stops before its end: one constructor for each
`exit(EXIT_FAILURE)` of `read_intervals` and `print_fasta`, with the values its message
prints, and two for what the model does not follow: a read of `given_fasta[temp]`
outside the characters of the string, and a loop that has not returned. -/
inductive Failure where
  | no_contig (line : Nat)
  | less_than_one_piece (interval : Nat)
  | max_pieces_exceeded (interval : Nat) (np : Int)
  | no_interval_start (piece interval : Nat)
  | start_below_one (name : List Char)
  | no_interval_end (piece interval : Nat)
  | end_below_one (name : List Char)
  | start_after_end (interval piece : Nat) (pstart pend : Int)
  | not_after_previous (interval piece : Nat)
  | no_interval_strand (interval : Nat)
  | extra_token (interval : Nat)
  | no_sequence (name : List Char)
  | unknown_multipiece (name : List Char)
  | unknown_start_only (name : List Char)
  | end_exceeds (end_ interval_length : Int) (name : List Char)
  | outside_read (temp : Int)
  | no_return
  deriving DecidableEq

/-- How a part of the program ends: it returns a value, or the process stops. -/
inductive Status (α : Type) where
  | returned (value : α)
  | stopped (why : Failure)
  deriving DecidableEq

/-- What a part of the program has done: the text it wrote to `stdout`, and how it ended. -/
structure Run (α : Type) where
  out : List Char
  res : Status α
  deriving DecidableEq

/-- Sequencing: the second part runs only when the first returned; the texts add up. -/
def Run.andThen {α β : Type} (r : Run α) (f : α → Run β) : Run β :=
  match r.res with
  | .returned a => ⟨r.out ++ (f a).out, (f a).res⟩
  | .stopped why => ⟨r.out, .stopped why⟩

/-! ## print_fasta (lines 451-565) -/

/-- The conversion `%d` of `printf`. -/
def fmt_d (n : Int) : List Char :=
  if n < 0 then '-' :: Nat.toDigits 10 n.natAbs else Nat.toDigits 10 n.toNat

/-- The read `a[p]` of one of the arrays `pstartA`, `pendA`.  A slot that was never
written reads as 0; every entry built by `read_intervals` has its `npieces` slots
written. -/
def slot (a : List Int) (p : Nat) : Int := a.getD p 0

/-- Lines 478-496: an interval whose first start is `UNKNOWN` is set to the whole
sequence (after two sanity checks), any other interval has its end checked against the
length of the sequence. -/
def check_interval (e : interval_record) (interval_length : Int) : Status interval_record :=
  if slot e.pstartA 0 = UNKNOWN then
    if e.npieces ≠ 1 then .stopped (.unknown_multipiece e.name)
    else if slot e.pendA 0 ≠ UNKNOWN then .stopped (.unknown_start_only e.name)
    else .returned { e with pstartA := e.pstartA.set 0 1, pendA := e.pendA.set 0 interval_length }
  else if e.end_ > interval_length then
    .stopped (.end_exceeds e.end_ interval_length e.name)
  else .returned e

/-- Lines 501-505: the text `printf("%s%d_%s%d:", ...)` writes for piece `p`. -/
def defline_piece (e : interval_record) (interval_length : Int) (p : Nat) : List Char :=
  (if slot e.pstartA p = 1 then ['<'] else []) ++ fmt_d (slot e.pstartA p) ++ ['_'] ++
  (if slot e.pendA p = interval_length then ['>'] else []) ++ fmt_d (slot e.pendA p) ++ [':']

/-- The text `printf(":%s\n", opttok)` writes for the pointer `opttok`; for a NULL
pointer the C library writes `(null)`. -/
def fmt_opttok (opttok : Option (List Char)) : List Char :=
  match opttok with
  | some tok => [':'] ++ tok ++ ['\n']
  | none => [':'] ++ "(null)".toList ++ ['\n']

/-- Lines 498-518: the output defline of the entry `e`.  The test of line 513 looks at
the `opttok` of the entry at `given_index`, passed here as `given_opttok`. -/
def print_defline (e : interval_record) (given_opttok : Option (List Char))
    (interval_length : Int) : List Char :=
  ['>'] ++ e.name ++ [':'] ++
  (List.range e.npieces.toNat).flatMap (defline_piece e interval_length) ++
  (if e.strand = PLUS then ['+'] else ['-']) ++
  (if given_opttok ≠ none then fmt_opttok e.opttok else ['\n'])

/-- The `switch` of lines 546-556. -/
def complement (c : Char) : Char :=
  if c = 'A' then 'T' else if c = 'C' then 'G' else if c = 'G' then 'C'
  else if c = 'T' then 'A' else if c = 'a' then 't' else if c = 'c' then 'g'
  else if c = 'g' then 'c' else if c = 't' then 'a' else 'N'

/-- The newline of lines 535-536 and 557-558, written when `count` reaches a multiple
of `PRINT_CUTOFF`. -/
def cutoff_newline (count : Int) : List Char :=
  if count % PRINT_CUTOFF = 0 then ['\n'] else []

/-- Lines 531-537, `for (temp = start; temp <= end; temp++)`: the first argument is the
number of iterations left, `end - temp + 1`.  Returns the new `count`. -/
def plus_loop (given_fasta : List Char) : Nat → Int → Int → Run Int
  | 0, _, count => ⟨[], .returned count⟩
  | n + 1, temp, count =>
    if temp < 0 then ⟨[], .stopped (.outside_read temp)⟩
    else
      match given_fasta[temp.toNat]? with
      | none => ⟨[], .stopped (.outside_read temp)⟩
      | some c =>
        let r := plus_loop given_fasta n (temp + 1) (count + 1)
        ⟨c :: cutoff_newline (count + 1) ++ r.out, r.res⟩

/-- Lines 543-559, `for (temp = end; temp >= start; temp--)`: the first argument is the
number of iterations left, `temp - start + 1`.  Returns the new `count`. -/
def minus_loop (given_fasta : List Char) : Nat → Int → Int → Run Int
  | 0, _, count => ⟨[], .returned count⟩
  | n + 1, temp, count =>
    if temp < 0 then ⟨[], .stopped (.outside_read temp)⟩
    else
      match given_fasta[temp.toNat]? with
      | none => ⟨[], .stopped (.outside_read temp)⟩
      | some c =>
        let r := minus_loop given_fasta n (temp - 1) (count + 1)
        ⟨complement c :: cutoff_newline (count + 1) ++ r.out, r.res⟩

/-- Lines 522-562: the body of the loop over pieces, for piece counter `p`. -/
def print_piece (e : interval_record) (given_fasta : List Char) (p : Nat) (count : Int) :
    Run Int :=
  let np := e.npieces
  let pp : Int := if e.strand = PLUS then (p : Int) else (np - 1) - p
  let start := slot e.pstartA pp.toNat - 1
  let end_ := slot e.pendA pp.toNat - 1
  (if e.strand = PLUS then plus_loop given_fasta (end_ - start + 1).toNat start count
   else minus_loop given_fasta (end_ - start + 1).toNat end_ count).andThen fun count =>
    if (p : Int) = np - 1 ∧ count % PRINT_CUTOFF ≠ 0 then ⟨['\n'], .returned count⟩
    else ⟨[], .returned count⟩

/-- Lines 520-563: `for (p = 0; p < np; p++)` over the list of values `p` takes. -/
def pieces_loop (e : interval_record) (given_fasta : List Char) : List Nat → Int → Run Int
  | [], count => ⟨[], .returned count⟩
  | p :: ps, count =>
    (print_piece e given_fasta p count).andThen fun count => pieces_loop e given_fasta ps count

/-- Lines 520-563: the sequence lines of the entry `e`. -/
def print_sequence (e : interval_record) (given_fasta : List Char) : Run Int :=
  pieces_loop e given_fasta (List.range e.npieces.toNat) 0

/-- Lines 475-563: the body of the loop over `index`, for the entry `e` at `index`;
`given_opttok` is the `opttok` of the entry at `given_index`.  Returns the entry as the
body leaves it in the table. -/
def print_record (e : interval_record) (given_opttok : Option (List Char))
    (given_fasta : List Char) : Run interval_record :=
  match check_interval e given_fasta.length with
  | .stopped why => ⟨[], .stopped why⟩
  | .returned e1 =>
    (⟨print_defline e1 given_opttok given_fasta.length, .returned ()⟩ : Run Unit).andThen fun _ =>
      (print_sequence e1 given_fasta).andThen fun _ => ⟨[], .returned e1⟩

/-- Lines 470-564: the loop over `index`.  The first argument is
`interval_count - index`, so `0` is the failed test `index < interval_count`. -/
def print_fasta_loop (given_index : Nat) (given_fasta : List Char) :
    Nat → List interval_record → Run (List interval_record)
  | 0, interval_data => ⟨[], .returned interval_data⟩
  | k + 1, interval_data =>
    let index := interval_data.length - (k + 1)
    match interval_data[index]?, interval_data[given_index]? with
    | some e, some g =>
      if strcmp e.name g.name = 0 then
        (print_record e g.opttok given_fasta).andThen fun e1 =>
          print_fasta_loop given_index given_fasta k (interval_data.set index e1)
      else ⟨[], .returned interval_data⟩
    | _, _ => ⟨[], .returned interval_data⟩

/-- The function `print_fasta`; `given_fasta` is `none` for the NULL pointer.  Returns the
table as the call leaves it. -/
def print_fasta (interval_data : List interval_record) (given_index : Nat)
    (given_fasta : Option (List Char)) (_given_defline : List Char) :
    Run (List interval_record) :=
  match given_fasta with
  | none =>
    ⟨[], .stopped (.no_sequence ((interval_data.getD given_index default).name))⟩
  | some fasta =>
    print_fasta_loop given_index fasta (interval_data.length - given_index) interval_data


/-! ## libc: fgets, strtok, atoi, qsort -/

/-- The strings the successive calls `fgets(buffer, n, file)` return for a file with
the given content: each ends after a newline, after `n - 1` characters, or at the end
of the file.  The second argument is the current string, reversed. -/
def fgets_all (n : Nat) : List Char → List Char → List (List Char)
  | [], acc => if acc = [] then [] else [acc.reverse]
  | c :: cs, acc =>
    if c = '\n' ∨ acc.length + 2 ≥ n then (c :: acc).reverse :: fgets_all n cs []
    else fgets_all n cs (c :: acc)

/-- The tokens the calls `strtok(line, WHITE_SPACE)`, `strtok(NULL, WHITE_SPACE)`, ...
return, in order.  The second argument is the current token, reversed. -/
def strtok_all : List Char → List Char → List (List Char)
  | [], acc => if acc = [] then [] else [acc.reverse]
  | c :: cs, acc =>
    if is_white_space c then
      (if acc = [] then strtok_all cs [] else acc.reverse :: strtok_all cs [])
    else strtok_all cs (c :: acc)

/-- The libc function `isspace` in the C locale: space, `\t`, `\n`, `\v`, `\f`, `\r`.
The form feed is not in `WHITE_SPACE`, so `strtok` can leave it at the head of a token. -/
def isspace (c : Char) : Bool :=
  c = ' ' || c = '\t' || c = '\n' || c = Char.ofNat 11 || c = Char.ofNat 12 || c = '\r'

/-- The digits of `atoi`: the value of the leading decimal digits. -/
def atoi_digits : List Char → Nat → Nat
  | [], acc => acc
  | c :: cs, acc => if c.isDigit then atoi_digits cs (acc * 10 + (c.toNat - 48)) else acc

/-- The number `strtol(nptr, NULL, 10)` reads, before it is fitted into a `long`: the
leading `isspace` characters are skipped, then comes an optional sign, then decimal
digits up to the first other character; 0 when there is no digit. -/
def strtol_number (nptr : List Char) : Int :=
  match nptr.dropWhile isspace with
  | [] => 0
  | c :: cs =>
    if c = '-' then -((atoi_digits cs 0 : Nat) : Int)
    else if c = '+' then ((atoi_digits cs 0 : Nat) : Int)
    else ((atoi_digits (c :: cs) 0 : Nat) : Int)

/-- `LONG_MAX` of a 64-bit `long`. -/
abbrev LONG_MAX : Int := 9223372036854775807

/-- `LONG_MIN` of a 64-bit `long`. -/
abbrev LONG_MIN : Int := -9223372036854775808

/-- The libc function `atoi`.  A number inside the range of `int` is returned as it is.
Outside that range C leaves the value open; the model follows glibc, where `atoi` is
`(int) strtol(nptr, NULL, 10)`: `strtol` answers `LONG_MAX` or `LONG_MIN` for a number
outside `long`, and the conversion to a 32-bit `int` keeps the low 32 bits. -/
def atoi (nptr : List Char) : Int :=
  let number := strtol_number nptr
  let value := if number > LONG_MAX then LONG_MAX else if number < LONG_MIN then LONG_MIN
    else number
  (value + 2147483648) % 4294967296 - 2147483648

/-- Insertion of one element into a list sorted by the comparison function. -/
def qsort_insert {α : Type} (compar : α → α → Int) (x : α) : List α → List α
  | [] => [x]
  | y :: ys => if compar x y ≤ 0 then x :: y :: ys else y :: qsort_insert compar x ys

/-- The libc function `qsort`, as an insertion sort; elements that compare equal, whose
order C leaves open, keep their input order. -/
def qsort {α : Type} (compar : α → α → Int) (base : List α) : List α :=
  base.foldr (qsort_insert compar) []

/-! ## read_intervals (lines 120-293) -/

/-- Lines 215-259: the loop over the pieces of one line.  The first argument is the
number of iterations left, `np - p`; `tokens` are the tokens not yet read; `interval` is
`interval_count + 1`.  Returns the two arrays and the tokens left. -/
def read_pieces (name : List Char) (interval : Nat) (np : Int) :
    Nat → Nat → List (List Char) → List Int → List Int →
      Status (List Int × List Int × List (List Char))
  | 0, _, tokens, pstartA, pendA => .returned (pstartA, pendA, tokens)
  | k + 1, p, tokens, pstartA, pendA =>
    match tokens with
    | [] => .stopped (.no_interval_start (p + 1) interval)
    | token :: tokens =>
      let pstart := atoi token
      if np > 1 ∧ pstart < 1 then .stopped (.start_below_one name)
      else
        match tokens with
        | [] => .stopped (.no_interval_end (p + 1) interval)
        | token :: tokens =>
          let pend := atoi token
          if pend < 1 then .stopped (.end_below_one name)
          else if pstart > pend then .stopped (.start_after_end interval (p + 1) pstart pend)
          else if p > 0 ∧ slot pendA (p - 1) ≥ pstart then
            .stopped (.not_after_previous interval (p + 1))
          else read_pieces name interval np k (p + 1) tokens (pstartA ++ [pstart]) (pendA ++ [pend])

/-- Lines 172-289: the record read from one line of the interval list. -/
def read_interval_line (interval_count : Nat) (descriptions : List Char) :
    Status interval_record :=
  match strtok_all descriptions [] with
  | [] => .stopped (.no_contig (interval_count + 1))
  | name :: tokens =>
    match tokens with
    | [] =>
      .returned { name := name, npieces := 1, start := UNKNOWN, end_ := UNKNOWN,
                  pstartA := [UNKNOWN], pendA := [UNKNOWN], strand := PLUS, opttok := none }
    | token :: tokens =>
      let np := atoi token
      if np < 1 then .stopped (.less_than_one_piece (interval_count + 1))
      else if np > MAXPIECES then .stopped (.max_pieces_exceeded (interval_count + 1) np)
      else
        match read_pieces name (interval_count + 1) np np.toNat 0 tokens [] [] with
        | .stopped why => .stopped why
        | .returned (pstartA, pendA, tokens) =>
          match tokens with
          | [] => .stopped (.no_interval_strand (interval_count + 1))
          | token :: tokens =>
            let strand := if strcmp token ['+'] = 0 then PLUS else MINUS
            let rec_ : interval_record :=
              { name := name, npieces := np, start := slot pstartA 0,
                end_ := slot pendA (np - 1).toNat, pstartA := pstartA, pendA := pendA,
                strand := strand, opttok := none }
            match tokens with
            | [] => .returned rec_
            | [token] => .returned { rec_ with opttok := some token }
            | _ :: _ :: _ => .stopped (.extra_token (interval_count + 1))

/-- Lines 169-291: the loop over the lines, `interval_data` growing by one record a line. -/
def read_intervals_loop : List (List Char) → List interval_record →
    Status (List interval_record)
  | [], interval_data => .returned interval_data
  | descriptions :: rest, interval_data =>
    match read_interval_line interval_data.length descriptions with
    | .stopped why => .stopped why
    | .returned e => read_intervals_loop rest (interval_data ++ [e])

/-- The function `read_intervals` on the content of the interval list file: the table
`interval_data` (its length is `interval_count`). -/
def read_intervals (file : List Char) : Status (List interval_record) :=
  read_intervals_loop (fgets_all MAXLINELEN file []) []

/-! ## compare_entries (lines 295-324) -/

/-- The function `compare_entries`. -/
def compare_entries (first second : interval_record) : Int :=
  let value := strcmp first.name second.name
  if value ≠ 0 then value
  else if first.start < second.start then -1
  else if first.start > second.start then 1
  else if first.end_ < second.end_ then -1
  else if first.end_ > second.end_ then 1
  else if first.strand < second.strand then -1
  else if first.strand > second.strand then 1
  else 0

/-! ## process_fasta (lines 356-449) -/

/-- The variables of `process_fasta` that live across lines, with the global table:
`fasta` is `none` for the NULL pointer, and `current_length` is its length. -/
structure scan_state where
  interval_data : List interval_record
  interval_index : Int
  fasta : Option (List Char)
  defline : List Char
  deriving DecidableEq

/-- Lines 389-439: the body of the loop over the lines of the FASTA file. -/
def process_line (s : scan_state) (descriptions : List Char) : Run scan_state :=
  match strtok_all descriptions [] with
  | [] => ⟨[], .returned s⟩
  | name :: _ =>
    if name.head? = some '>' then
      (if s.interval_index ≠ UNKNOWN then
        (print_fasta s.interval_data s.interval_index.toNat s.fasta s.defline).andThen
          fun interval_data =>
            ⟨[], .returned { s with interval_data := interval_data,
                                    fasta := s.fasta.map (fun _ => []) }⟩
       else ⟨[], .returned s⟩).andThen fun s =>
        match find_index s.interval_data name.tail with
        | none => ⟨[], .stopped .no_return⟩
        | some index =>
          ⟨[], .returned { s with interval_index := index, defline := descriptions }⟩
    else if s.interval_index ≠ UNKNOWN then
      ⟨[], .returned { s with fasta := some (s.fasta.getD [] ++ descriptions.dropLast) }⟩
    else ⟨[], .returned s⟩

/-- Lines 387-440: the loop over the lines. -/
def process_lines : List (List Char) → scan_state → Run scan_state
  | [], s => ⟨[], .returned s⟩
  | descriptions :: rest, s => (process_line s descriptions).andThen (process_lines rest)

/-- The function `process_fasta` on the content of the FASTA file.  Returns the table as
the pass leaves it. -/
def process_fasta (interval_data : List interval_record) (file : List Char) :
    Run (List interval_record) :=
  (process_lines (fgets_all MAXLINELEN file [])
      { interval_data := interval_data, interval_index := UNKNOWN, fasta := none,
        defline := [] }).andThen fun s =>
    if s.interval_index ≠ UNKNOWN then
      print_fasta s.interval_data s.interval_index.toNat s.fasta s.defline
    else ⟨[], .returned s.interval_data⟩

/-! ## main (lines 94-118) -/

/-- The function `main` on the contents of the interval list and of the FASTA file. -/
def main (interval_list fa_file : List Char) : Run Unit :=
  match read_intervals interval_list with
  | .stopped why => ⟨[], .stopped why⟩
  | .returned interval_data =>
    if interval_data.length > 0 then
      (process_fasta (qsort compare_entries interval_data) fa_file).andThen
        fun _ => ⟨[], .returned ()⟩
    else ⟨[], .returned ()⟩


/-! ## Notions used in the statements -/

/-- The 1-based inclusive slice `body[s..e]`. -/
def slice (body : List Char) (s e : Int) : List Char :=
  (body.drop (s - 1).toNat).take (e - s + 1).toNat

/-- The pieces of a request, cut from the body and joined in the order of the request. -/
def plus_sequence (e : interval_record) (body : List Char) : List Char :=
  (List.range e.npieces.toNat).flatMap fun p => slice body (slot e.pstartA p) (slot e.pendA p)

/-- The complement of a base: A and T, C and G change places, in either case; any other
character becomes N. -/
def base_complement : Char → Char
  | 'A' => 'T'
  | 'T' => 'A'
  | 'C' => 'G'
  | 'G' => 'C'
  | 'a' => 't'
  | 't' => 'a'
  | 'c' => 'g'
  | 'g' => 'c'
  | _ => 'N'

/-- The reverse-complement of a sequence: reverse it, then complement every base. -/
def reverse_complement (s : List Char) : List Char :=
  s.reverse.map base_complement

/-- The sequence a request stands for: its pieces joined, reverse-complemented unless the
strand is PLUS. -/
def assembled (e : interval_record) (body : List Char) : List Char :=
  if e.strand = PLUS then plus_sequence e body else reverse_complement (plus_sequence e body)

/-- The characters `cs` as the sequence loops write them when `count` characters went
before: a newline follows every character that brings the count to a multiple of
`PRINT_CUTOFF`. -/
def wrap_from (count : Int) : List Char → List Char
  | [] => []
  | c :: cs => c :: cutoff_newline (count + 1) ++ wrap_from (count + 1) cs

/-- The sequence lines of a whole record: wrapped from column 0, and a closing newline
unless the last line is full (or there is no character at all). -/
def wrap_lines (cs : List Char) : List Char :=
  wrap_from 0 cs ++ (if (cs.length : Int) % PRINT_CUTOFF ≠ 0 then ['\n'] else [])

/-- Every piece of the entry lies inside a sequence of the given length. -/
def PiecesInRange (e : interval_record) (interval_length : Int) : Prop :=
  ∀ p, p < e.npieces.toNat → 1 ≤ slot e.pstartA p ∧ slot e.pendA p ≤ interval_length

/-- A small sorted table: two requests for `seqA`, between one for `a` and one for `b`. -/
def example_table : List interval_record :=
  [ { name := "a".toList, npieces := 1, start := 1, end_ := 2, pstartA := [1], pendA := [2],
      strand := PLUS, opttok := none },
    { name := "seqA".toList, npieces := 1, start := UNKNOWN, end_ := UNKNOWN,
      pstartA := [UNKNOWN], pendA := [UNKNOWN], strand := PLUS, opttok := none },
    { name := "seqA".toList, npieces := 2, start := 2, end_ := 7, pstartA := [2, 6],
      pendA := [3, 7], strand := MINUS, opttok := some "x".toList },
    { name := "z".toList, npieces := 1, start := 1, end_ := 1, pstartA := [1], pendA := [1],
      strand := PLUS, opttok := none } ]


/-- The characters the loop over pieces writes at piece counter `p`, line-wrap newlines
apart: for PLUS the slice of piece `p`; otherwise the slice of piece `np - 1 - p`, read
backwards and complemented. -/
def piece_chars (e : interval_record) (body : List Char) (p : Nat) : List Char :=
  if e.strand = PLUS then slice body (slot e.pstartA p) (slot e.pendA p)
  else
    ((slice body (slot e.pstartA (e.npieces.toNat - 1 - p))
      (slot e.pendA (e.npieces.toNat - 1 - p))).reverse).map complement


/-- The request is not out of range for a sequence of the given length: it asks for the
whole sequence (first start and end `UNKNOWN`, one piece), or its span end and all its
pieces lie inside the sequence. -/
def InRange (e : interval_record) (interval_length : Int) : Prop :=
  (slot e.pstartA 0 = UNKNOWN ∧ e.npieces = 1 ∧ slot e.pendA 0 = UNKNOWN) ∨
  (slot e.pstartA 0 ≠ UNKNOWN ∧ e.end_ ≤ interval_length ∧ PiecesInRange e interval_length)

instance (e : interval_record) (interval_length : Int) :
    Decidable (PiecesInRange e interval_length) := by
  unfold PiecesInRange; infer_instance

instance (e : interval_record) (interval_length : Int) :
    Decidable (InRange e interval_length) := by
  unfold InRange; infer_instance


/-- The pieces of the entry satisfy `1 ≤ s_1 ≤ e_1 < s_2 ≤ e_2 < ... ≤ e_n ≤ length`. -/
def StrictlyOrdered (e : interval_record) (interval_length : Int) : Prop :=
  1 ≤ slot e.pstartA 0 ∧
  (∀ p, p < e.npieces.toNat → slot e.pstartA p ≤ slot e.pendA p) ∧
  (∀ p, p < e.npieces.toNat - 1 → slot e.pendA p < slot e.pstartA (p + 1)) ∧
  slot e.pendA (e.npieces.toNat - 1) ≤ interval_length

instance (e : interval_record) (interval_length : Int) :
    Decidable (StrictlyOrdered e interval_length) := by
  unfold StrictlyOrdered; infer_instance

/-- A source sequence of 100 characters whose characters 10 to 20 are `A` and 30 to 40
are `C`. -/
def seqA_body : List Char :=
  List.replicate 9 'G' ++ List.replicate 11 'A' ++ List.replicate 9 'T' ++
  List.replicate 11 'C' ++ List.replicate 60 'G'

/-- The entry `read_intervals` builds from the line `seqA 2 10 20 30 40 +`. -/
def seqA_entry : interval_record :=
  { name := "seqA".toList, npieces := 2, start := 10, end_ := 40, pstartA := [10, 30],
    pendA := [20, 40], strand := PLUS, opttok := none }


/-- A source sequence of 200 characters, 100 `A` then 100 `C`. -/
def long_body : List Char := List.replicate 100 'A' ++ List.replicate 100 'C'

/-- A request for the pieces 61..100 and 101..160 of `long`: 100 characters in all. -/
def long_entry : interval_record :=
  { name := "long".toList, npieces := 2, start := 61, end_ := 160, pstartA := [61, 101],
    pendA := [100, 160], strand := PLUS, opttok := none }


/-- The entry `read_intervals` builds from the whole-sequence line `seqB`. -/
def seqB_entry : interval_record :=
  { name := "seqB".toList, npieces := 1, start := UNKNOWN, end_ := UNKNOWN,
    pstartA := [UNKNOWN], pendA := [UNKNOWN], strand := PLUS, opttok := none }


/-- What the loop of `read_pieces` has checked of the slots written so far: every piece
has `start ≤ end` and `end ≥ 1`, `start ≥ 1` when the line has more than one piece, and
every piece starts after the end of the piece before it. -/
def PiecesValid (np : Int) (pstartA pendA : List Int) : Prop :=
  (∀ i, i < pstartA.length →
    slot pstartA i ≤ slot pendA i ∧ 1 ≤ slot pendA i ∧ (1 < np → 1 ≤ slot pstartA i)) ∧
  (∀ i, i + 1 < pstartA.length → slot pendA i < slot pstartA (i + 1))


/-- The record `read_intervals` builds from the line `s 1 -2 9 +`: one piece whose start
is the number -2, the value of `UNKNOWN`. -/
def sentinel_entry : interval_record :=
  { name := "s".toList, npieces := 1, start := -2, end_ := 9, pstartA := [-2], pendA := [9],
    strand := PLUS, opttok := none }


/-- The record `read_intervals` builds from the whole-sequence line `s`. -/
def s_entry : interval_record :=
  { name := "s".toList, npieces := 1, start := UNKNOWN, end_ := UNKNOWN,
    pstartA := [UNKNOWN], pendA := [UNKNOWN], strand := PLUS, opttok := none }


/-- The record `read_intervals` builds from the single-piece line `s 1 0 5 +`, whose start
is 0. -/
def zero_start_entry : interval_record :=
  { name := "s".toList, npieces := 1, start := 0, end_ := 5, pstartA := [0], pendA := [5],
    strand := PLUS, opttok := none }


/-- The text is made of complete output records only: it is the concatenation of what
`print_fasta` wrote for some entries (each with the suffix test value and the body of its
call) whose rendering ran to its end. -/
def CompleteRecords (out : List Char) : Prop :=
  ∃ rs : List (interval_record × Option (List Char) × List Char),
    (∀ r ∈ rs, ∃ e1, (print_record r.1 r.2.1 r.2.2).res = .returned e1) ∧
    out = rs.flatMap (fun r => (print_record r.1 r.2.1 r.2.2).out)

/-- The part of the program returned, or stopped with the out-of-range error. -/
def ReturnedOrEndExceeds {α : Type} (res : Status α) : Prop :=
  (∃ a, res = .returned a) ∨ ∃ e len name, res = .stopped (.end_exceeds e len name)


/-- The bytewise lexicographic order of two strings: the first is a proper beginning of
the second, or at the first place where they differ its byte is the smaller. -/
def bytes_lt : List Char → List Char → Prop
  | [], [] => False
  | [], _ :: _ => True
  | _ :: _, [] => False
  | a :: as, b :: bs => a.toNat < b.toNat ∨ (a = b ∧ bytes_lt as bs)

/-- The key `(name, span_start, span_end, strand)` of `a` is lexicographically below that
of `b`; names in bytewise order, and PLUS (1) before MINUS (2). -/
def key_lt (a b : interval_record) : Prop :=
  bytes_lt a.name b.name ∨
  (a.name = b.name ∧
    (a.start < b.start ∨
      (a.start = b.start ∧
        (a.end_ < b.end_ ∨ (a.end_ = b.end_ ∧ a.strand < b.strand)))))

/-- The keys `(name, span_start, span_end, strand)` of `a` and `b` are equal. -/
def key_eq (a b : interval_record) : Prop :=
  a.name = b.name ∧ a.start = b.start ∧ a.end_ = b.end_ ∧ a.strand = b.strand


/-- The characters the double complement gives back unchanged. -/
def base_letters : List Char := ['A', 'C', 'G', 'T', 'a', 'c', 'g', 't', 'N']

/-- A Minus-strand request for the single position 1. -/
def x_entry : interval_record :=
  { name := "s".toList, npieces := 1, start := 1, end_ := 1, pstartA := [1], pendA := [1],
    strand := MINUS, opttok := none }


/-- The record `read_intervals` builds from a line `s 1 2 3 <strand token>`, with the
strand it stores. -/
def strand_entry (strand : Int) : interval_record :=
  { name := "s".toList, npieces := 1, start := 2, end_ := 3, pstartA := [2], pendA := [3],
    strand := strand, opttok := none }


/-! ## find_index, one iteration at a time -/

/-- What one pass through the body of the `while (left <= right)` loop does: it leaves
the function with a value (`none` for a read outside the table), or it goes back to the
loop test with new bounds. -/
inductive loop_step where
  | returned (value : Option Int)
  | next (left right : Int)
  deriving DecidableEq

/-- The body of the `while (left <= right)` loop, lines 337-350, entered with the
bounds `left` and `right`. -/
def find_index_body (interval_data : List interval_record) (name : List Char)
    (left right : Int) : loop_step :=
  let index := (left + right) / 2
  if index < 0 then .returned none
  else
    match interval_data[index.toNat]? with
    | none => .returned none
    | some e =>
      let temp := strcmp name e.name
      if temp = 0 then .returned (scan_back interval_data name index.toNat)
      else if temp < 0 then .next left (index - 1)
      else .next (index + 1) right

/-- The backward scan of lines 342-345 on the C variable `index` itself: the argument is
the value of `index` at the loop test, after the `index--` of line 341.  `none`: the
scan has not returned within the fuel, or it read outside the table. -/
def scan_back_loop (interval_data : List interval_record) (name : List Char) :
    Nat → Int → Option Int
  | 0, _ => none
  | fuel + 1, index =>
    if 0 ≤ index then
      match interval_data[index.toNat]? with
      | none => none
      | some e =>
        if strcmp name e.name = 0 then scan_back_loop interval_data name fuel (index - 1)
        else some (index + 1)
    else some (index + 1)

/-- A table that is not sorted by name: `b`, `a`, `b`, `a`. -/
def unsorted_table : List interval_record :=
  [ { name := "b".toList, npieces := 1, start := 1, end_ := 2, pstartA := [1], pendA := [2],
      strand := PLUS, opttok := none },
    { name := "a".toList, npieces := 1, start := 1, end_ := 2, pstartA := [1], pendA := [2],
      strand := PLUS, opttok := none },
    { name := "b".toList, npieces := 1, start := 1, end_ := 2, pstartA := [1], pendA := [2],
      strand := PLUS, opttok := none },
    { name := "a".toList, npieces := 1, start := 1, end_ := 2, pstartA := [1], pendA := [2],
      strand := PLUS, opttok := none } ]

/-! ## The passes through the loop of print_fasta that a run makes -/

/-- One pass through the body of the loop of `print_fasta` (lines 475-563): the entry at
`index` as the table holds it when the pass starts, the `opttok` of the entry at
`given_index`, and the sequence `given_fasta`. -/
abbrev record_call : Type := interval_record × Option (List Char) × List Char

/-- What the pass does: the text it writes and how it ends. -/
def run_call (c : record_call) : Run interval_record := print_record c.1 c.2.1 c.2.2

/-- The passes made after a part of the program: those of the continuation when the part
returned, none when it stopped the process. -/
def calls_after {α : Type} (res : Status α) (f : α → List record_call) : List record_call :=
  match res with
  | .returned a => f a
  | .stopped _ => []

/-- The passes `print_fasta_loop` makes, in order, the one that stops the process (if
any) being the last; the control flow is that of `print_fasta_loop`. -/
def print_fasta_loop_calls (given_index : Nat) (given_fasta : List Char) :
    Nat → List interval_record → List record_call
  | 0, _ => []
  | k + 1, interval_data =>
    let index := interval_data.length - (k + 1)
    match interval_data[index]?, interval_data[given_index]? with
    | some e, some g =>
      if strcmp e.name g.name = 0 then
        [(e, g.opttok, given_fasta)] ++
          calls_after (print_record e g.opttok given_fasta).res fun e1 =>
            print_fasta_loop_calls given_index given_fasta k (interval_data.set index e1)
      else []
    | _, _ => []

/-- The passes a call of `print_fasta` makes. -/
def print_fasta_calls (interval_data : List interval_record) (given_index : Nat)
    (given_fasta : Option (List Char)) : List record_call :=
  match given_fasta with
  | none => []
  | some fasta =>
    print_fasta_loop_calls given_index fasta (interval_data.length - given_index) interval_data

/-- The passes made while `process_line` handles one line of the FASTA file: those of the
call of `print_fasta` of line 402. -/
def process_line_calls (s : scan_state) (descriptions : List Char) : List record_call :=
  match strtok_all descriptions [] with
  | [] => []
  | name :: _ =>
    if name.head? = some '>' then
      (if s.interval_index ≠ UNKNOWN then
        print_fasta_calls s.interval_data s.interval_index.toNat s.fasta
       else [])
    else []

/-- The passes made over the lines of the FASTA file. -/
def process_lines_calls : List (List Char) → scan_state → List record_call
  | [], _ => []
  | descriptions :: rest, s =>
    process_line_calls s descriptions ++
      calls_after (process_line s descriptions).res (process_lines_calls rest)

/-- The passes `process_fasta` makes: those of the lines, then those of the call of
`print_fasta` of line 443. -/
def process_fasta_calls (interval_data : List interval_record) (file : List Char) :
    List record_call :=
  process_lines_calls (fgets_all MAXLINELEN file [])
      { interval_data := interval_data, interval_index := UNKNOWN, fasta := none,
        defline := [] } ++
    calls_after (process_lines (fgets_all MAXLINELEN file [])
      { interval_data := interval_data, interval_index := UNKNOWN, fasta := none,
        defline := [] }).res fun s =>
      if s.interval_index ≠ UNKNOWN then
        print_fasta_calls s.interval_data s.interval_index.toNat s.fasta
      else []

/-- The passes through the loop of `print_fasta` that the run of `main` makes, in order. -/
def main_calls (interval_list fa_file : List Char) : List record_call :=
  match read_intervals interval_list with
  | .stopped _ => []
  | .returned interval_data =>
    if interval_data.length > 0 then
      process_fasta_calls (qsort compare_entries interval_data) fa_file
    else []

/-- The passes `calls` account for the part `r` of the program: its text is what they
wrote, when it returned they all returned, and when it stopped with the out-of-range
error the last of them stopped with that error and the others returned. -/
def Traced {α : Type} (calls : List record_call) (r : Run α) : Prop :=
  r.out = calls.flatMap (fun c => (run_call c).out) ∧
  ((∃ a, r.res = .returned a) → ∀ c ∈ calls, ∃ e1, (run_call c).res = .returned e1) ∧
  (∀ e len name, r.res = .stopped (.end_exceeds e len name) →
    ∃ rs c, calls = rs ++ [c] ∧ (∀ d ∈ rs, ∃ e1, (run_call d).res = .returned e1) ∧
      (run_call c).res = .stopped (.end_exceeds e len name))

/-- The entry of the request `a 1 1 2 +`. -/
def a_entry : interval_record :=
  { name := "a".toList, npieces := 1, start := 1, end_ := 2, pstartA := [1], pendA := [2],
    strand := PLUS, opttok := none }

/-- The entry of the request `b 1 1 9 +`. -/
def b_entry : interval_record :=
  { name := "b".toList, npieces := 1, start := 1, end_ := 9, pstartA := [1], pendA := [9],
    strand := PLUS, opttok := none }

/-- The entry of the request `b 1 1 2 +`. -/
def b_short_entry : interval_record :=
  { name := "b".toList, npieces := 1, start := 1, end_ := 2, pstartA := [1], pendA := [2],
    strand := PLUS, opttok := none }

/-! # Lemmas and theorems -/

/-! ## Lemmas on strcmp -/

theorem strcmp_self (a : List Char) : strcmp a a = 0 := by
  induction a with
  | nil => rfl
  | cons x xs ih => simp [strcmp, ih]

theorem strcmp_eq_zero {a b : List Char} : strcmp a b = 0 ↔ a = b := by
  constructor
  · intro h
    induction a generalizing b with
    | nil =>
      cases b with
      | nil => rfl
      | cons y ys => simp [strcmp] at h
    | cons x xs ih =>
      cases b with
      | nil => simp [strcmp] at h
      | cons y ys =>
        simp only [strcmp] at h
        by_cases hxy : x = y
        · simp only [hxy, if_true] at h
          rw [hxy, ih h]
        · simp only [hxy, if_false] at h
          exfalso
          apply hxy
          apply Char.ext
          apply UInt32.ext
          have : (x.toNat : Int) = y.toNat := by omega
          exact_mod_cast this
  · rintro rfl
    exact strcmp_self a


theorem char_toNat_ne {a b : Char} (h : a ≠ b) : (a.toNat : Int) ≠ (b.toNat : Int) := by
  intro e
  apply h
  apply Char.ext
  apply UInt32.ext
  exact_mod_cast e

theorem strcmp_antisymm (a b : List Char) : strcmp a b < 0 ↔ 0 < strcmp b a := by
  induction a generalizing b with
  | nil => cases b <;> simp [strcmp]
  | cons x xs ih =>
    cases b with
    | nil => simp [strcmp]
    | cons y ys =>
      simp only [strcmp]
      by_cases hxy : x = y
      · subst hxy; simpa using ih ys
      · have hyx : ¬ y = x := fun e => hxy e.symm
        simp only [hxy, hyx, if_false]
        omega

theorem strcmp_lt_of_lt_of_le {a b c : List Char} (h1 : strcmp a b < 0) (h2 : strcmp b c ≤ 0) :
    strcmp a c < 0 := by
  induction a generalizing b c with
  | nil =>
    cases b with
    | nil => simp [strcmp] at h1
    | cons y ys =>
      cases c with
      | nil => simp [strcmp] at h2
      | cons z zs => simp [strcmp]
  | cons x xs ih =>
    cases b with
    | nil => simp [strcmp] at h1
    | cons y ys =>
      cases c with
      | nil => simp [strcmp] at h2
      | cons z zs =>
        simp only [strcmp] at h1 h2 ⊢
        by_cases hxy : x = y
        · subst hxy
          simp only [if_true] at h1
          by_cases hxz : x = z
          · subst hxz
            simp only [if_true] at h2 ⊢
            exact ih h1 h2
          · simp only [hxz, if_false] at h2 ⊢
            have := char_toNat_ne hxz
            omega
        · simp only [hxy, if_false] at h1
          by_cases hyz : y = z
          · subst hyz
            simp only [hxy, if_false]
            exact h1
          · simp only [hyz, if_false] at h2
            by_cases hxz : x = z
            · subst hxz; omega
            · simp only [hxz, if_false]; omega

theorem strcmp_lt_of_le_of_lt {a b c : List Char} (h1 : strcmp a b ≤ 0) (h2 : strcmp b c < 0) :
    strcmp a c < 0 := by
  rcases lt_or_eq_of_le h1 with h | h
  · exact strcmp_lt_of_lt_of_le h (le_of_lt h2)
  · rw [strcmp_eq_zero.mp h]; exact h2

theorem strcmp_le_trans {a b c : List Char} (h1 : strcmp a b ≤ 0) (h2 : strcmp b c ≤ 0) :
    strcmp a c ≤ 0 := by
  rcases lt_or_eq_of_le h1 with h | h
  · exact le_of_lt (strcmp_lt_of_lt_of_le h h2)
  · rw [strcmp_eq_zero.mp h]; exact h2

theorem strcmp_le_antisymm {a b : List Char} (h1 : strcmp a b ≤ 0) (h2 : strcmp b a ≤ 0) :
    a = b := by
  rcases lt_or_eq_of_le h1 with h | h
  · have := (strcmp_antisymm a b).mp h
    omega
  · exact strcmp_eq_zero.mp h


/-! ## find_index: correctness on a sorted table -/

theorem sorted_le {t : List interval_record} (hs : SortedByName t) {i j : Nat}
    (hij : i ≤ j) (hj : j < t.length) :
    strcmp (t[i]).name (t[j]).name ≤ 0 := by
  rcases Nat.lt_or_eq_of_le hij with h | h
  · exact (List.pairwise_iff_getElem.mp hs) i j (by omega) hj h
  · subst h; rw [strcmp_self]

theorem scan_back_spec (t : List interval_record) (q : List Char) :
    ∀ k : Nat, k ≤ t.length →
      ∃ r : Nat, scan_back t q k = some (r : Int) ∧ r ≤ k ∧
        (∀ j (hj : j < t.length), r ≤ j → j < k → (t[j]).name = q) ∧
        (∀ (hr : r - 1 < t.length), 0 < r → (t[r - 1]).name ≠ q) := by
  intro k
  induction k with
  | zero =>
    intro _
    exact ⟨0, rfl, le_refl _, fun j _ h1 h2 => by omega, fun _ h => by omega⟩
  | succ k ih =>
    intro hk
    have hk2 : k < t.length := by omega
    simp only [scan_back, List.getElem?_eq_getElem hk2]
    by_cases hq : strcmp q (t[k]).name = 0
    · simp only [hq, if_true]
      obtain ⟨r, h1, h2, h3, h4⟩ := ih (by omega)
      refine ⟨r, h1, by omega, ?_, h4⟩
      intro j hj hrj hjk
      rcases Nat.lt_or_eq_of_le (Nat.lt_succ_iff.mp hjk) with h | h
      · exact h3 j hj hrj h
      · subst h; exact (strcmp_eq_zero.mp hq).symm
    · simp only [hq, if_false]
      refine ⟨k + 1, by simp, le_refl _, fun j _ h1 h2 => by omega, ?_⟩
      intro hr _
      simp only [Nat.add_sub_cancel]
      intro e
      exact hq (strcmp_eq_zero.mpr e.symm)

theorem find_index_loop_spec (t : List interval_record) (q : List Char)
    (hs : SortedByName t) :
    ∀ (fuel : Nat) (left right : Int), 0 ≤ left → right < t.length →
      0 < fuel → right - left + 1 < fuel →
      (∀ j (hj : j < t.length), (t[j]).name = q → left ≤ j ∧ (j : Int) ≤ right) →
      (∃ k : Nat, find_index_loop t q fuel left right = some (k : Int) ∧ IsFirstMatch t q k) ∨
      (find_index_loop t q fuel left right = some UNKNOWN ∧ ∀ e ∈ t, e.name ≠ q) := by
  intro fuel
  induction fuel with
  | zero => intro left right h0 h1 hf h2; omega
  | succ fuel ih =>
    intro left right h0 h1 _ h2 hin
    simp only [find_index_loop]
    by_cases hlr : left ≤ right
    · simp only [hlr, if_true]
      have hi0 : 0 ≤ (left + right) / 2 := by omega
      have hi1 : left ≤ (left + right) / 2 := by omega
      have hi2 : (left + right) / 2 ≤ right := by omega
      obtain ⟨m, hm⟩ : ∃ m : Nat, (left + right) / 2 = (m : Int) :=
        ⟨((left + right) / 2).toNat, by omega⟩
      have hmlt : m < t.length := by omega
      simp only [hm, Int.toNat_ofNat, List.getElem?_eq_getElem hmlt]
      have hneg : ¬ ((m : Int) < 0) := by omega
      simp only [hneg, if_false]
      by_cases hq : strcmp q (t[m]).name = 0
      · simp only [hq, if_true]
        left
        obtain ⟨r, h1', h2', h3', h4'⟩ := scan_back_spec t q m (by omega)
        refine ⟨r, h1', ?_, ?_⟩
        · have hr : r < t.length := by omega
          refine ⟨t[r], List.getElem?_eq_getElem hr, ?_⟩
          rcases Nat.lt_or_eq_of_le h2' with h | h
          · exact h3' r hr (le_refl _) h
          · subst h; exact (strcmp_eq_zero.mp hq).symm
        · intro j e hj hje he
          have hr : r < t.length := by omega
          have hjl : j < t.length := by omega
          have hr1 : r - 1 < t.length := by omega
          rw [List.getElem?_eq_getElem hjl] at hje
          cases hje
          have hrq : (t[r]).name = q := by
            rcases Nat.lt_or_eq_of_le h2' with h | h
            · exact h3' r hr (le_refl _) h
            · subst h; exact (strcmp_eq_zero.mp hq).symm
          have a1 : strcmp (t[j]).name (t[r - 1]).name ≤ 0 :=
            sorted_le hs (by omega) hr1
          have a2 : strcmp (t[r - 1]).name (t[r]).name ≤ 0 :=
            sorted_le hs (by omega) hr
          rw [he] at a1
          rw [hrq] at a2
          exact h4' hr1 (by omega) (strcmp_le_antisymm a2 a1)
      · simp only [hq, if_false]
        by_cases hneg2 : strcmp q (t[m]).name < 0
        · simp only [hneg2, if_true]
          apply ih left ((m : Int) - 1) h0 (by omega) (by omega) (by omega)
          intro j hj hjq
          obtain ⟨b1, b2⟩ := hin j hj hjq
          refine ⟨b1, ?_⟩
          by_contra hcon
          have hmj : m ≤ j := by omega
          have a1 : strcmp (t[m]).name (t[j]).name ≤ 0 := sorted_le hs hmj hj
          have a2 := strcmp_lt_of_lt_of_le hneg2 a1
          rw [hjq, strcmp_self] at a2
          omega
        · simp only [hneg2, if_false]
          have hpos : 0 < strcmp q (t[m]).name := by omega
          have hlt : strcmp (t[m]).name q < 0 := (strcmp_antisymm _ _).mpr hpos
          apply ih ((m : Int) + 1) right (by omega) h1 (by omega) (by omega)
          intro j hj hjq
          obtain ⟨b1, b2⟩ := hin j hj hjq
          refine ⟨?_, b2⟩
          by_contra hcon
          have hjm : j ≤ m := by omega
          have a1 : strcmp (t[j]).name (t[m]).name ≤ 0 := sorted_le hs hjm hmlt
          have a2 := strcmp_lt_of_le_of_lt a1 hlt
          rw [hjq, strcmp_self] at a2
          omega
    · simp only [hlr, if_false]
      right
      refine ⟨trivial, ?_⟩
      intro e he heq
      obtain ⟨j, hj, hje⟩ := List.getElem_of_mem he
      have := hin j hj (by rw [hje]; exact heq)
      omega

/-- On a sorted table `find_index` returns the lowest matching index, or `UNKNOWN` when
the name is absent. -/
theorem find_index_first_match (t : List interval_record) (q : List Char)
    (hs : SortedByName t) :
    ((∃ e ∈ t, e.name = q) →
      ∃ k : Nat, find_index t q = some (k : Int) ∧ IsFirstMatch t q k) ∧
    ((∀ e ∈ t, e.name ≠ q) → find_index t q = some UNKNOWN) := by
  have key := find_index_loop_spec t q hs (t.length + 1) 0 ((t.length : Int) - 1)
    (le_refl _) (by omega) (by omega) (by push_cast; omega)
    (fun j hj _ => ⟨by omega, by omega⟩)
  constructor
  · rintro ⟨e, he, heq⟩
    rcases key with h | ⟨_, h⟩
    · exact h
    · exact absurd heq (h e he)
  · intro hno
    rcases key with ⟨k, _, ⟨e, hke, heq⟩, _⟩ | ⟨h, _⟩
    · exact absurd heq (hno e (List.getElem?_mem hke))
    · exact h

/-- Claim C1: on a table sorted ascending by name, `find_index` returns the lowest index
whose name equals the query when an entry has that name, and `UNKNOWN` when none has. -/
theorem find_index_sorted (t : List interval_record) (q : List Char) (hs : SortedByName t) :
    ((∃ e ∈ t, e.name = q) →
      ∃ k : Nat, find_index t q = some (k : Int) ∧
        (∃ e, t[k]? = some e ∧ e.name = q) ∧ ∀ j e, j < k → t[j]? = some e → e.name ≠ q) ∧
    ((∀ e ∈ t, e.name ≠ q) → find_index t q = some UNKNOWN) :=
  find_index_first_match t q hs

/-- Witness of claim C1 on `example_table`, where `seqA` is first found at index 1. -/
theorem find_index_sorted_witness :
    SortedByName example_table ∧ find_index example_table "seqA".toList = some 1 ∧
    (((∃ e ∈ example_table, e.name = "seqA".toList) →
      ∃ k : Nat, find_index example_table "seqA".toList = some (k : Int) ∧
        IsFirstMatch example_table "seqA".toList k) ∧
    ((∀ e ∈ example_table, e.name ≠ "seqA".toList) →
      find_index example_table "seqA".toList = some UNKNOWN)) :=
  ⟨by decide, by decide, find_index_sorted example_table "seqA".toList (by decide)⟩

theorem complement_eq (c : Char) : complement c = base_complement c := by
  by_cases hA : c = 'A'
  · subst hA; rfl
  by_cases hC : c = 'C'
  · subst hC; rfl
  by_cases hG : c = 'G'
  · subst hG; rfl
  by_cases hT : c = 'T'
  · subst hT; rfl
  by_cases ha : c = 'a'
  · subst ha; rfl
  by_cases hc : c = 'c'
  · subst hc; rfl
  by_cases hg : c = 'g'
  · subst hg; rfl
  by_cases ht : c = 't'
  · subst ht; rfl
  simp only [complement, hA, hC, hG, hT, ha, hc, hg, ht, if_false]
  unfold base_complement
  split <;> first | rfl | contradiction

theorem wrap_from_append (a b : List Char) (count : Int) :
    wrap_from count (a ++ b) = wrap_from count a ++ wrap_from (count + a.length) b := by
  induction a generalizing count with
  | nil => simp [wrap_from]
  | cons x xs ih =>
    have e : count + ((x :: xs).length : Int) = count + 1 + (xs.length : Int) := by
      simp only [List.length_cons]; push_cast; ring
    rw [e]
    simp only [List.cons_append, wrap_from, List.append_eq, ih, List.append_assoc]

theorem plus_loop_eq (body : List Char) :
    ∀ (n : Nat) (temp : Int) (count : Int), 0 ≤ temp → temp + n ≤ body.length →
      plus_loop body n temp count =
        ⟨wrap_from count ((body.drop temp.toNat).take n), .returned (count + n)⟩ := by
  intro n
  induction n with
  | zero => intro temp count _ _; simp [plus_loop, wrap_from]
  | succ n ih =>
    intro temp count h0 h1
    obtain ⟨m, rfl⟩ : ∃ m : Nat, temp = (m : Int) := ⟨temp.toNat, by omega⟩
    have hm : m < body.length := by omega
    have hneg : ¬ ((m : Int) < 0) := by omega
    simp only [plus_loop, hneg, if_false, Int.toNat_ofNat, List.getElem?_eq_getElem hm]
    rw [ih ((m : Int) + 1) (count + 1) (by omega) (by push_cast at h1 ⊢; omega)]
    have e1 : ((m : Int) + 1).toNat = m + 1 := by omega
    rw [e1, List.drop_eq_getElem_cons hm]
    simp only [List.take_succ_cons, wrap_from]
    congr 2
    push_cast; ring

theorem minus_loop_eq (body : List Char) :
    ∀ (n : Nat) (temp : Int) (count : Int), (n : Int) ≤ temp + 1 → temp < body.length →
      minus_loop body n temp count =
        ⟨wrap_from count ((((body.drop (temp + 1 - n).toNat).take n).reverse).map complement),
          .returned (count + n)⟩ := by
  intro n
  induction n with
  | zero => intro temp count _ _; simp [minus_loop, wrap_from]
  | succ n ih =>
    intro temp count h0 h1
    obtain ⟨m, rfl⟩ : ∃ m : Nat, temp = (m : Int) := ⟨temp.toNat, by omega⟩
    have hm : m < body.length := by omega
    have hneg : ¬ ((m : Int) < 0) := by omega
    simp only [minus_loop, hneg, if_false, Int.toNat_ofNat, List.getElem?_eq_getElem hm]
    rw [ih ((m : Int) - 1) (count + 1) (by push_cast at h0 ⊢; omega) (by omega)]
    have e1 : ((m : Int) - 1 + 1 - (n : Int)).toNat = m - n := by omega
    have e2 : ((m : Int) + 1 - ((n + 1 : Nat) : Int)).toNat = m - n := by push_cast; omega
    rw [e1, e2, List.take_succ]
    have e3 : (List.drop (m - n) body)[n]? = some body[m] := by
      rw [List.getElem?_drop]
      have : m - n + n = m := by push_cast at h0; omega
      rw [this, List.getElem?_eq_getElem hm]
    rw [e3]
    simp only [Option.toList, List.reverse_append, List.reverse_cons, List.reverse_nil,
      List.nil_append, List.singleton_append, List.map_cons, wrap_from]
    congr 2
    push_cast; ring

theorem length_slice (body : List Char) (s e : Int) (h1 : 1 ≤ s) (h2 : e ≤ body.length) :
    (slice body s e).length = (e - s + 1).toNat := by
  simp only [slice, List.length_take, List.length_drop]
  omega

theorem andThen_newline (X : List Char) (c : Int) (P : Int → Prop) [DecidablePred P] :
    (⟨X, .returned c⟩ : Run Int).andThen
      (fun count => if P count then ⟨['\n'], .returned count⟩ else ⟨[], .returned count⟩) =
    ⟨X ++ (if P c then ['\n'] else []), .returned c⟩ := by
  simp only [Run.andThen]
  by_cases h : P c
  · simp only [h, if_true]
  · simp only [h, if_false]

theorem print_piece_eq (e : interval_record) (body : List Char) (p : Nat) (count : Int)
    (hr : PiecesInRange e body.length) (hp : p < e.npieces.toNat) :
    print_piece e body p count =
      ⟨wrap_from count (piece_chars e body p) ++
        (if (p : Int) = e.npieces - 1 ∧
            (count + (piece_chars e body p).length) % PRINT_CUTOFF ≠ 0 then ['\n'] else []),
        .returned (count + (piece_chars e body p).length)⟩ := by
  by_cases hs : e.strand = PLUS
  · obtain ⟨h1, h2⟩ := hr p hp
    have hl := length_slice body _ _ h1 h2
    simp only [print_piece, hs, if_true, piece_chars, Int.toNat_ofNat]
    by_cases hn : (slot e.pendA p - 1 - (slot e.pstartA p - 1) + 1).toNat = 0
    · have hn2 : (slot e.pendA p - slot e.pstartA p + 1).toNat = 0 := by omega
      have hnil : slice body (slot e.pstartA p) (slot e.pendA p) = [] := by
        simp [slice, hn2]
      simp only [hn, plus_loop, hnil, wrap_from, List.length_nil, Nat.cast_zero, add_zero,
        List.nil_append]
      exact andThen_newline [] count (fun c => (p : Int) = e.npieces - 1 ∧ c % PRINT_CUTOFF ≠ 0)
    · rw [plus_loop_eq body _ _ count (by omega) (by omega)]
      have e1 : (slot e.pendA p - 1 - (slot e.pstartA p - 1) + 1).toNat =
          (slot e.pendA p - slot e.pstartA p + 1).toNat := by omega
      rw [e1]
      have e2 : (List.take (slot e.pendA p - slot e.pstartA p + 1).toNat
          (List.drop (slot e.pstartA p - 1).toNat body)) =
          slice body (slot e.pstartA p) (slot e.pendA p) := rfl
      rw [e2, hl]
      exact andThen_newline _ _ (fun c => (p : Int) = e.npieces - 1 ∧ c % PRINT_CUTOFF ≠ 0)
  · have hp2 : e.npieces.toNat - 1 - p < e.npieces.toNat := by omega
    obtain ⟨h1, h2⟩ := hr _ hp2
    have hl := length_slice body _ _ h1 h2
    have hpp : (e.npieces - 1 - (p : Int)).toNat = e.npieces.toNat - 1 - p := by omega
    simp only [print_piece, hs, if_false, piece_chars, hpp]
    generalize e.npieces.toNat - 1 - p = q at *
    by_cases hn : (slot e.pendA q - 1 - (slot e.pstartA q - 1) + 1).toNat = 0
    · have hn2 : (slot e.pendA q - slot e.pstartA q + 1).toNat = 0 := by omega
      have hnil : slice body (slot e.pstartA q) (slot e.pendA q) = [] := by
        simp [slice, hn2]
      simp only [hn, minus_loop, hnil, wrap_from, List.length_nil, Nat.cast_zero, add_zero,
        List.nil_append, List.reverse_nil, List.map_nil]
      exact andThen_newline [] count (fun c => (p : Int) = e.npieces - 1 ∧ c % PRINT_CUTOFF ≠ 0)
    · rw [minus_loop_eq body _ _ count (by omega) (by omega)]
      have e1 : (slot e.pendA q - 1 - (slot e.pstartA q - 1) + 1).toNat =
          (slot e.pendA q - slot e.pstartA q + 1).toNat := by omega
      have e3 : (slot e.pendA q - 1 + 1 -
          (((slot e.pendA q - slot e.pstartA q + 1).toNat : Nat) : Int)).toNat =
          (slot e.pstartA q - 1).toNat := by omega
      rw [e1, e3]
      have e2 : (List.take (slot e.pendA q - slot e.pstartA q + 1).toNat
          (List.drop (slot e.pstartA q - 1).toNat body)) =
          slice body (slot e.pstartA q) (slot e.pendA q) := rfl
      rw [e2]
      simp only [List.length_map, List.length_reverse, hl]
      exact andThen_newline _ _ (fun c => (p : Int) = e.npieces - 1 ∧ c % PRINT_CUTOFF ≠ 0)

theorem andThen_assoc {α β γ : Type} (r : Run α) (f : α → Run β) (g : β → Run γ) :
    (r.andThen f).andThen g = r.andThen (fun a => (f a).andThen g) := by
  obtain ⟨out, res⟩ := r
  cases res with
  | stopped why => simp [Run.andThen]
  | returned a =>
    simp only [Run.andThen]
    cases h : (f a).res with
    | stopped why => simp
    | returned b => simp [List.append_assoc]

theorem pieces_loop_append (e : interval_record) (body : List Char) (ps qs : List Nat)
    (count : Int) :
    pieces_loop e body (ps ++ qs) count =
      (pieces_loop e body ps count).andThen (pieces_loop e body qs) := by
  induction ps generalizing count with
  | nil => simp [pieces_loop, Run.andThen]
  | cons p ps ih =>
    simp only [List.cons_append, pieces_loop, andThen_assoc]
    congr 1
    funext c
    exact ih c

theorem pieces_loop_inner (e : interval_record) (body : List Char)
    (hr : PiecesInRange e body.length) :
    ∀ (ps : List Nat) (count : Int),
      (∀ p ∈ ps, p < e.npieces.toNat ∧ (p : Int) ≠ e.npieces - 1) →
      pieces_loop e body ps count =
        ⟨wrap_from count (ps.flatMap (piece_chars e body)),
          .returned (count + (ps.flatMap (piece_chars e body)).length)⟩ := by
  intro ps
  induction ps with
  | nil => intro count _; simp [pieces_loop, wrap_from]
  | cons p ps ih =>
    intro count h
    obtain ⟨h1, h2⟩ := h p (List.mem_cons_self _ _)
    simp only [pieces_loop]
    rw [print_piece_eq e body p count hr h1]
    simp only [h2, false_and, if_false, List.append_nil, Run.andThen]
    rw [ih _ (fun q hq => h q (List.mem_cons_of_mem _ hq))]
    simp only [List.flatMap_cons, wrap_from_append, List.length_append]
    congr 2
    push_cast; ring

theorem print_sequence_eq (e : interval_record) (body : List Char)
    (hr : PiecesInRange e body.length) :
    print_sequence e body =
      ⟨wrap_lines ((List.range e.npieces.toNat).flatMap (piece_chars e body)),
        .returned (((List.range e.npieces.toNat).flatMap (piece_chars e body)).length : Nat)⟩ := by
  unfold print_sequence
  cases hn : e.npieces.toNat with
  | zero => simp [pieces_loop, wrap_lines, wrap_from]
  | succ n =>
    have hlast : ((n : Nat) : Int) = e.npieces - 1 := by omega
    rw [List.range_succ, pieces_loop_append,
      pieces_loop_inner e body hr (List.range n) 0
        (fun p hp => by rw [List.mem_range] at hp; omega)]
    simp only [pieces_loop, Run.andThen]
    rw [print_piece_eq e body n _ hr (by omega)]
    simp only [hlast, true_and, List.flatMap_append, List.flatMap_cons, List.flatMap_nil,
      List.append_nil, wrap_lines, wrap_from_append, List.length_append, zero_add,
      List.append_assoc, Nat.cast_add]

theorem flatMap_reverse_range {α : Type} (g : Nat → List α) :
    ∀ n : Nat, (List.range n).flatMap (fun p => (g (n - 1 - p)).reverse) =
      ((List.range n).flatMap g).reverse := by
  intro n
  induction n with
  | zero => simp
  | succ n ih =>
    conv_lhs => rw [List.range_succ_eq_map]
    conv_rhs => rw [List.range_succ]
    simp only [List.flatMap_cons, List.flatMap_map, Function.comp_def,
      List.flatMap_append, List.flatMap_nil, List.append_nil, List.reverse_append]
    rw [← ih]
    congr 1
    apply List.flatMap_congr
    intro p _
    congr 2
    omega

theorem piece_chars_eq_assembled (e : interval_record) (body : List Char) :
    (List.range e.npieces.toNat).flatMap (piece_chars e body) = assembled e body := by
  by_cases hs : e.strand = PLUS
  · simp only [assembled, hs, if_true, plus_sequence]
    apply List.flatMap_congr
    intro p _
    simp only [piece_chars, hs, if_true]
  · simp only [assembled, hs, if_false, reverse_complement, plus_sequence]
    rw [← flatMap_reverse_range]
    simp only [List.map_flatMap]
    apply List.flatMap_congr
    intro p _
    simp only [piece_chars, hs, if_false]
    apply List.map_congr_left
    intro c _
    exact complement_eq c

/-- The sequence lines of an entry whose pieces lie inside the body are the assembled
sequence, wrapped. -/
theorem print_sequence_assembled (e : interval_record) (body : List Char)
    (hr : PiecesInRange e body.length) :
    print_sequence e body =
      ⟨wrap_lines (assembled e body), .returned ((assembled e body).length : Nat)⟩ := by
  rw [print_sequence_eq e body hr, piece_chars_eq_assembled]

theorem slot_set_zero (a : List Int) (v : Int) (h : slot a 0 ≠ 0) : slot (a.set 0 v) 0 = v := by
  cases a with
  | nil => simp [slot] at h
  | cons x xs => simp [slot]

theorem check_interval_inRange (e : interval_record) (len : Int) (h : InRange e len) :
    ∃ e1, check_interval e len = .returned e1 ∧ e1.name = e.name ∧ e1.opttok = e.opttok ∧
      PiecesInRange e1 len := by
  rcases h with ⟨h1, h2, h3⟩ | ⟨h1, h2, h3⟩
  · refine ⟨{ e with pstartA := e.pstartA.set 0 1, pendA := e.pendA.set 0 len }, ?_, rfl, rfl, ?_⟩
    · simp [check_interval, h1, h2, h3]
    · intro p hp
      have hp0 : p = 0 := by
        have : e.npieces.toNat = 1 := by rw [h2]; rfl
        simp only at hp
        omega
      subst hp0
      simp only
      rw [slot_set_zero _ _ (by rw [h1]; decide), slot_set_zero _ _ (by rw [h3]; decide)]
      exact ⟨le_refl _, le_refl _⟩
  · refine ⟨e, ?_, rfl, rfl, h3⟩
    have : ¬ (e.end_ > len) := by omega
    simp [check_interval, h1, this]

theorem print_record_of_check (e e1 : interval_record) (o : Option (List Char))
    (body : List Char) (hc : check_interval e body.length = .returned e1)
    (hr : PiecesInRange e1 body.length) :
    print_record e o body =
      ⟨print_defline e1 o body.length ++ wrap_lines (assembled e1 body), .returned e1⟩ := by
  simp only [print_record, hc, print_sequence_assembled e1 body hr, Run.andThen,
    List.append_nil]

theorem print_record_inRange (e : interval_record) (o : Option (List Char))
    (body : List Char) (h : InRange e body.length) :
    ∃ e1, print_record e o body =
        ⟨print_defline e1 o body.length ++ wrap_lines (assembled e1 body), .returned e1⟩ ∧
      e1.name = e.name ∧ e1.opttok = e.opttok ∧ check_interval e body.length = .returned e1 := by
  obtain ⟨e1, h1, h2, h3, h4⟩ := check_interval_inRange e body.length h
  exact ⟨e1, print_record_of_check e e1 o body h1 h4, h2, h3, h1⟩

theorem print_fasta_loop_spec (q : List Char) (o : Option (List Char)) (body : List Char)
    (gi : Nat) :
    ∀ (n : Nat) (T : List interval_record), n ≤ T.length → gi ≤ T.length - n →
      (∃ g, T[gi]? = some g ∧ g.name = q ∧ g.opttok = o) →
      (∀ e ∈ T.drop (T.length - n), e.name = q → InRange e body.length) →
      ∃ T1, print_fasta_loop gi body n T =
        ⟨((T.drop (T.length - n)).takeWhile (fun e => decide (e.name = q))).flatMap
            (fun e => (print_record e o body).out), .returned T1⟩ := by
  intro n
  induction n with
  | zero =>
    intro T _ _ _ _
    exact ⟨T, by simp [print_fasta_loop]⟩
  | succ n ih =>
    intro T hn hgi hg hr
    obtain ⟨g, hg1, hg2, hg3⟩ := hg
    have hidx : T.length - (n + 1) < T.length := by omega
    simp only [print_fasta_loop, List.getElem?_eq_getElem hidx, hg1]
    rw [List.drop_eq_getElem_cons hidx]
    by_cases hname : (T[T.length - (n + 1)]).name = q
    · have hz : strcmp (T[T.length - (n + 1)]).name g.name = 0 := by
        rw [hname, hg2, strcmp_self]
      have hin : InRange (T[T.length - (n + 1)]) body.length := by
        apply hr _ _ hname
        rw [List.drop_eq_getElem_cons hidx]
        exact List.mem_cons_self _ _
      obtain ⟨e1, h1, h2, h3, _⟩ := print_record_inRange _ o body hin
      have hstep : T.length - (n + 1) + 1 = T.length - n := by omega
      obtain ⟨T1, hT1⟩ := ih (T.set (T.length - (n + 1)) e1)
        (by rw [List.length_set]; omega) (by rw [List.length_set]; omega)
        (by
          by_cases hgi2 : gi = T.length - (n + 1)
          · refine ⟨e1, ?_, ?_, ?_⟩
            · rw [hgi2, List.getElem?_set]; simp [hidx]
            · rw [h2, hname]
            · rw [h3]
              rw [hgi2, List.getElem?_eq_getElem hidx] at hg1
              cases hg1
              exact hg3
          · refine ⟨g, ?_, hg2, hg3⟩
            rw [List.getElem?_set_ne (fun h => hgi2 h.symm)]
            exact hg1)
        (by
          intro e he
          rw [List.length_set, List.drop_set_of_lt _ _ (by omega)] at he
          apply hr
          rw [List.drop_eq_getElem_cons hidx, hstep]
          exact List.mem_cons_of_mem _ he)
      rw [List.length_set, List.drop_set_of_lt _ _ (by omega)] at hT1
      have hz2 : strcmp q g.name = 0 := by rw [hg2, strcmp_self]
      refine ⟨T1, ?_⟩
      simp only [hz, hz2, if_true, hg3, h1, Run.andThen, hT1, hstep, hname, decide_True,
        List.takeWhile_cons_of_pos, List.flatMap_cons]
    · have hz : ¬ strcmp (T[T.length - (n + 1)]).name g.name = 0 := by
        rw [strcmp_eq_zero, hg2]; exact hname
      refine ⟨T, ?_⟩
      simp only [hz, if_false, List.takeWhile_cons, hname, decide_False, Bool.false_eq_true,
        List.flatMap_nil]

theorem filter_eq_takeWhile_of_ge (q : List Char) :
    ∀ D : List interval_record, SortedByName D → (∀ e ∈ D, strcmp q e.name ≤ 0) →
      D.filter (fun e => decide (e.name = q)) = D.takeWhile (fun e => decide (e.name = q)) := by
  intro D
  induction D with
  | nil => intro _ _; rfl
  | cons x xs ih =>
    intro hs hge
    obtain ⟨hx, hxs⟩ := List.pairwise_cons.mp hs
    by_cases hname : x.name = q
    · simp only [List.filter_cons, List.takeWhile_cons, hname, decide_True, if_true]
      rw [ih hxs (fun e he => hge e (List.mem_cons_of_mem _ he))]
    · have hlt : strcmp q x.name < 0 := by
        have h1 := hge x (List.mem_cons_self _ _)
        have h2 : strcmp q x.name ≠ 0 := fun h => hname (strcmp_eq_zero.mp h).symm
        omega
      have hnone : ∀ y ∈ xs, ¬ (decide (y.name = q) = true) := by
        intro y hy hyq
        have hyq2 : y.name = q := of_decide_eq_true hyq
        have := strcmp_lt_of_lt_of_le hlt (hx y hy)
        rw [hyq2, strcmp_self] at this
        omega
      simp only [List.filter_cons, List.takeWhile_cons, hname, decide_False,
        Bool.false_eq_true, if_false]
      exact List.filter_eq_nil_iff.mpr hnone

theorem filter_eq_takeWhile_drop (t : List interval_record) (q : List Char) (k : Nat)
    (hs : SortedByName t) (hk : IsFirstMatch t q k) :
    t.filter (fun e => decide (e.name = q)) =
      (t.drop k).takeWhile (fun e => decide (e.name = q)) := by
  obtain ⟨⟨g, hg, hgq⟩, hlow⟩ := hk
  have hklt : k < t.length := by
    by_contra hcon
    rw [List.getElem?_eq_none (by omega)] at hg
    cases hg
  have hgk : t[k] = g := by
    rw [List.getElem?_eq_getElem hklt] at hg
    exact Option.some.inj hg
  conv_lhs => rw [← List.take_append_drop k t]
  rw [List.filter_append]
  have h1 : (t.take k).filter (fun e => decide (e.name = q)) = [] := by
    apply List.filter_eq_nil_iff.mpr
    intro e he heq
    obtain ⟨j, hj⟩ := List.getElem?_of_mem he
    have hjk : j < k := by
      by_contra hcon
      rw [List.getElem?_eq_none (by rw [List.length_take]; omega)] at hj
      cases hj
    rw [List.getElem?_take_of_lt hjk] at hj
    exact hlow j e hjk hj (of_decide_eq_true heq)
  rw [h1, List.nil_append]
  apply filter_eq_takeWhile_of_ge
  · exact List.Pairwise.sublist (List.drop_sublist k t) hs
  · intro e he
    obtain ⟨j, hj⟩ := List.getElem?_of_mem he
    rw [List.getElem?_drop] at hj
    have hjl : k + j < t.length := by
      by_contra hcon
      rw [List.getElem?_eq_none (by omega)] at hj
      cases hj
    rw [List.getElem?_eq_getElem hjl] at hj
    have := sorted_le hs (Nat.le_add_right k j) hjl
    rw [hgk, hgq, Option.some.inj hj] at this
    exact this

/-- Claim C2: on a sorted table, for a source name that occurs in it and a body on which no
request for that name is out of range, `print_fasta` started at `find_index` of the name
writes the records of exactly the entries with that name, one each, in table order, and
returns. -/
theorem print_fasta_renders_matches (t : List interval_record) (q body defline : List Char)
    (hs : SortedByName t) (hq : ∃ e ∈ t, e.name = q)
    (hr : ∀ e ∈ t, e.name = q → InRange e body.length) :
    ∃ (k : Nat) (g : interval_record) (t1 : List interval_record),
      find_index t q = some (k : Int) ∧ t[k]? = some g ∧
      print_fasta t k (some body) defline =
        ⟨(t.filter (fun e => decide (e.name = q))).flatMap
            (fun e => (print_record e g.opttok body).out), .returned t1⟩ := by
  obtain ⟨k, hfind, hfirst⟩ := (find_index_first_match t q hs).1 hq
  have hfirst2 := hfirst
  obtain ⟨⟨g, hg, hgq⟩, _⟩ := hfirst2
  have hklt : k < t.length := by
    by_contra hcon
    rw [List.getElem?_eq_none (by omega)] at hg
    cases hg
  have hsub : t.length - (t.length - k) = k := by omega
  obtain ⟨t1, ht1⟩ := print_fasta_loop_spec q g.opttok body k (t.length - k) t
    (by omega) (by omega) ⟨g, hg, hgq, rfl⟩
    (fun e he heq => hr e (List.mem_of_mem_drop he) heq)
  rw [hsub] at ht1
  refine ⟨k, g, t1, hfind, hg, ?_⟩
  simp only [print_fasta]
  rw [ht1, filter_eq_takeWhile_drop t q k hs hfirst]

/-- Witness of claim C2 on `example_table`: the two `seqA` requests against a body of 10
characters. -/
theorem print_fasta_renders_matches_witness :
    SortedByName example_table ∧
    (∃ e ∈ example_table, e.name = "seqA".toList) ∧
    (∀ e ∈ example_table, e.name = "seqA".toList →
      InRange e ("ACGTACGTAC".toList.length : Int)) ∧
    (print_fasta example_table 1 (some "ACGTACGTAC".toList) []).out =
      ">seqA:<1_>10:+\nACGTACGTAC\n>seqA:2_3:6_7:-\nCGCG\n".toList ∧
    ∃ (k : Nat) (g : interval_record) (t1 : List interval_record),
      find_index example_table "seqA".toList = some (k : Int) ∧ example_table[k]? = some g ∧
      print_fasta example_table k (some "ACGTACGTAC".toList) [] =
        ⟨(example_table.filter (fun e => decide (e.name = "seqA".toList))).flatMap
            (fun e => (print_record e g.opttok "ACGTACGTAC".toList).out), .returned t1⟩ :=
  ⟨by decide, by decide, by decide, by decide,
    print_fasta_renders_matches example_table "seqA".toList "ACGTACGTAC".toList []
      (by decide) (by decide) (by decide)⟩

theorem strictlyOrdered_mono (e : interval_record) (len : Int) (ho : StrictlyOrdered e len) :
    ∀ q p, p ≤ q → q < e.npieces.toNat →
      slot e.pstartA p ≤ slot e.pstartA q ∧ slot e.pendA p ≤ slot e.pendA q := by
  obtain ⟨_, h2, h3, _⟩ := ho
  intro q
  induction q with
  | zero =>
    intro p hp _
    have : p = 0 := by omega
    subst this
    exact ⟨le_refl _, le_refl _⟩
  | succ q ih =>
    intro p hp hq
    rcases Nat.lt_or_eq_of_le hp with h | h
    · obtain ⟨a1, a2⟩ := ih p (by omega) (by omega)
      have b1 := h3 q (by omega)
      have b2 := h2 (q + 1) hq
      have b3 := h2 q (by omega)
      constructor <;> omega
    · subst h
      exact ⟨le_refl _, le_refl _⟩

theorem strictlyOrdered_inRange (e : interval_record) (len : Int)
    (ho : StrictlyOrdered e len) : PiecesInRange e len := by
  intro p hp
  have h1 := (strictlyOrdered_mono e len ho p 0 (Nat.zero_le _) hp).1
  have h2 := (strictlyOrdered_mono e len ho (e.npieces.toNat - 1) p (by omega) (by omega)).2
  obtain ⟨a1, _, _, a4⟩ := ho
  constructor <;> omega

theorem filter_cutoff_newline (count : Int) :
    (cutoff_newline count).filter (fun c => decide (c ≠ '\n')) = [] := by
  unfold cutoff_newline
  split <;> simp

theorem filter_wrap_from (cs : List Char) :
    ∀ count : Int, (wrap_from count cs).filter (fun c => decide (c ≠ '\n')) =
      cs.filter (fun c => decide (c ≠ '\n')) := by
  induction cs with
  | nil => intro _; rfl
  | cons c cs ih =>
    intro count
    simp only [wrap_from, List.filter_cons, List.filter_append, filter_cutoff_newline,
      List.nil_append, ih]
    split <;> rfl

theorem filter_wrap_lines (cs : List Char) :
    (wrap_lines cs).filter (fun c => decide (c ≠ '\n')) =
      cs.filter (fun c => decide (c ≠ '\n')) := by
  unfold wrap_lines
  rw [List.filter_append, filter_wrap_from]
  split <;> simp

theorem filter_of_no_newline (cs : List Char) (h : '\n' ∉ cs) :
    cs.filter (fun c => decide (c ≠ '\n')) = cs := by
  apply List.filter_eq_self.mpr
  intro c hc
  simp only [decide_eq_true_eq]
  intro e
  exact h (e ▸ hc)

theorem mem_slice {body : List Char} {s e : Int} {c : Char} (h : c ∈ slice body s e) :
    c ∈ body :=
  List.mem_of_mem_drop (List.mem_of_mem_take h)

theorem mem_plus_sequence {e : interval_record} {body : List Char} {c : Char}
    (h : c ∈ plus_sequence e body) : c ∈ body := by
  simp only [plus_sequence, List.mem_flatMap] at h
  obtain ⟨p, _, hp⟩ := h
  exact mem_slice hp

theorem base_complement_ne_newline (c : Char) : base_complement c ≠ '\n' := by
  rw [← complement_eq]
  unfold complement
  repeat' split
  all_goals decide

theorem newline_not_mem_reverse_complement (s : List Char) : '\n' ∉ reverse_complement s := by
  simp only [reverse_complement, List.mem_map, not_exists, not_and]
  intro c _ h
  exact base_complement_ne_newline c h

/-- Claim C3: for a Plus-strand request whose pieces satisfy `1 ≤ s_1 ≤ e_1 < s_2 ≤ ... ≤ e_n ≤
len(body)`, `print_fasta` writes the defline and then the slices `body[s_1..e_1] ++ ... ++
body[s_n..e_n]`, in piece order, with line-wrap newlines added; without those newlines the
sequence characters are exactly that concatenation. -/
theorem plus_strand_slices (e : interval_record) (o : Option (List Char)) (body : List Char)
    (hplus : e.strand = PLUS) (hend : e.end_ = slot e.pendA (e.npieces.toNat - 1))
    (ho : StrictlyOrdered e body.length) :
    print_record e o body =
      ⟨print_defline e o body.length ++ wrap_lines (plus_sequence e body), .returned e⟩ ∧
    (print_sequence e body).out = wrap_lines (plus_sequence e body) ∧
    ('\n' ∉ body →
      (print_sequence e body).out.filter (fun c => decide (c ≠ '\n')) = plus_sequence e body) := by
  have hr := strictlyOrdered_inRange e _ ho
  have hasm : assembled e body = plus_sequence e body := by simp [assembled, hplus]
  have hc : check_interval e body.length = .returned e := by
    obtain ⟨a1, _, _, a4⟩ := ho
    have n1 : ¬ (slot e.pstartA 0 = UNKNOWN) := by
      intro h; rw [h] at a1; exact absurd a1 (by decide)
    have n2 : ¬ (e.end_ > (body.length : Int)) := by rw [hend]; omega
    simp [check_interval, n1, n2]
  refine ⟨?_, ?_, ?_⟩
  · rw [print_record_of_check e e o body hc hr, hasm]
  · rw [print_sequence_assembled e body hr, hasm]
  · intro hnl
    rw [print_sequence_assembled e body hr, hasm]
    simp only
    rw [filter_wrap_lines]
    exact filter_of_no_newline _ (fun h => hnl (mem_plus_sequence h))

/-- Witness of claim C3: pieces 10..20 and 30..40 of `seqA` give `AAAAAAAAAAACCCCCCCCCCC`. -/
theorem plus_strand_slices_witness :
    (seqA_entry.strand = PLUS ∧
      seqA_entry.end_ = slot seqA_entry.pendA (seqA_entry.npieces.toNat - 1) ∧
      StrictlyOrdered seqA_entry seqA_body.length) ∧
    plus_sequence seqA_entry seqA_body = "AAAAAAAAAAACCCCCCCCCCC".toList ∧
    (print_record seqA_entry none seqA_body).out =
      ">seqA:10_20:30_40:+\nAAAAAAAAAAACCCCCCCCCCC\n".toList ∧
    (print_record seqA_entry none seqA_body =
      ⟨print_defline seqA_entry none seqA_body.length ++
        wrap_lines (plus_sequence seqA_entry seqA_body), .returned seqA_entry⟩ ∧
    (print_sequence seqA_entry seqA_body).out = wrap_lines (plus_sequence seqA_entry seqA_body) ∧
    ('\n' ∉ seqA_body →
      (print_sequence seqA_entry seqA_body).out.filter (fun c => decide (c ≠ '\n')) =
        plus_sequence seqA_entry seqA_body)) :=
  ⟨by decide, by decide, by decide,
    plus_strand_slices seqA_entry none seqA_body (by decide) (by decide) (by decide)⟩

/-- Claim C4: for in-range strictly ordered pieces, the sequence characters written for the
Minus-strand request are the reverse-complement of those written for the Plus-strand
request with the same pieces. -/
theorem minus_strand_reverse_complement (e : interval_record) (body : List Char)
    (ho : StrictlyOrdered e body.length) :
    (print_sequence { e with strand := PLUS } body).out = wrap_lines (plus_sequence e body) ∧
    (print_sequence { e with strand := MINUS } body).out =
      wrap_lines (reverse_complement (plus_sequence e body)) ∧
    (∃ L : Nat, (print_sequence { e with strand := PLUS } body).res = .returned (L : Int) ∧
      (print_sequence { e with strand := MINUS } body).res = .returned (L : Int)) ∧
    ('\n' ∉ body →
      (print_sequence { e with strand := MINUS } body).out.filter (fun c => decide (c ≠ '\n')) =
        reverse_complement
          ((print_sequence { e with strand := PLUS } body).out.filter
            (fun c => decide (c ≠ '\n')))) := by
  have hp : PiecesInRange { e with strand := PLUS } body.length :=
    strictlyOrdered_inRange e _ ho
  have hm : PiecesInRange { e with strand := MINUS } body.length :=
    strictlyOrdered_inRange e _ ho
  have ap : assembled { e with strand := PLUS } body = plus_sequence e body := by
    simp [assembled, plus_sequence]
  have am : assembled { e with strand := MINUS } body =
      reverse_complement (plus_sequence e body) := by
    simp [assembled, plus_sequence, PLUS, MINUS]
  rw [print_sequence_assembled _ body hp, print_sequence_assembled _ body hm, ap, am]
  refine ⟨rfl, rfl, ⟨(plus_sequence e body).length, rfl, ?_⟩, ?_⟩
  · simp [reverse_complement]
  · intro hnl
    simp only
    rw [filter_wrap_lines, filter_wrap_lines,
      filter_of_no_newline _ (newline_not_mem_reverse_complement _),
      filter_of_no_newline _ (fun h => hnl (mem_plus_sequence h))]

/-- Witness of claim C4: pieces 10..20 (`A`) and 30..40 (`C`) of `seqA` on the Minus strand give
`GGGGGGGGGGGTTTTTTTTTTT`. -/
theorem minus_strand_reverse_complement_witness :
    StrictlyOrdered seqA_entry seqA_body.length ∧
    (print_sequence { seqA_entry with strand := MINUS } seqA_body).out =
      "GGGGGGGGGGGTTTTTTTTTTT\n".toList ∧
    ((print_sequence { seqA_entry with strand := PLUS } seqA_body).out =
      wrap_lines (plus_sequence seqA_entry seqA_body) ∧
    (print_sequence { seqA_entry with strand := MINUS } seqA_body).out =
      wrap_lines (reverse_complement (plus_sequence seqA_entry seqA_body)) ∧
    (∃ L : Nat,
      (print_sequence { seqA_entry with strand := PLUS } seqA_body).res = .returned (L : Int) ∧
      (print_sequence { seqA_entry with strand := MINUS } seqA_body).res =
        .returned (L : Int)) ∧
    ('\n' ∉ seqA_body →
      (print_sequence { seqA_entry with strand := MINUS } seqA_body).out.filter
          (fun c => decide (c ≠ '\n')) =
        reverse_complement
          ((print_sequence { seqA_entry with strand := PLUS } seqA_body).out.filter
            (fun c => decide (c ≠ '\n'))))) :=
  ⟨by decide, by decide, minus_strand_reverse_complement seqA_entry seqA_body (by decide)⟩

theorem wrap_from_short (cs : List Char) :
    ∀ count : Int, count % 80 + cs.length < 80 → wrap_from count cs = cs := by
  induction cs with
  | nil => intro _ _; rfl
  | cons c cs ih =>
    intro count h
    simp only [List.length_cons, Nat.cast_add, Nat.cast_one] at h
    have hc : cutoff_newline (count + 1) = [] := by
      have : ¬ ((count + 1) % 80 = 0) := by omega
      simp [cutoff_newline, this]
    simp only [wrap_from, hc, List.nil_append]
    rw [ih (count + 1) (by omega)]
    rfl

theorem wrap_from_period (cs : List Char) :
    ∀ count : Int, wrap_from (count + 80) cs = wrap_from count cs := by
  induction cs with
  | nil => intro _; rfl
  | cons c cs ih =>
    intro count
    have hc : cutoff_newline (count + 80 + 1) = cutoff_newline (count + 1) := by
      have : (count + 80 + 1) % 80 = (count + 1) % 80 := by omega
      simp [cutoff_newline, this]
    have e : count + 80 + 1 = count + 1 + 80 := by ring
    simp only [wrap_from, hc]
    rw [e, ih (count + 1)]

theorem wrap_from_full (cs : List Char) (h : cs.length = 80) :
    wrap_from 0 cs = cs ++ ['\n'] := by
  have hne : cs ≠ [] := by intro e; rw [e] at h; simp at h
  obtain ⟨a, c, rfl⟩ : ∃ a c, cs = a ++ [c] :=
    ⟨cs.dropLast, cs.getLast hne, (List.dropLast_append_getLast hne).symm⟩
  have ha : a.length = 79 := by simpa using h
  rw [wrap_from_append, wrap_from_short a 0 (by rw [ha]; decide), ha]
  simp [wrap_from, cutoff_newline]

theorem wrap_lines_shape :
    ∀ (n : Nat) (S : List Char), S.length = n →
      ∃ lines : List (List Char),
        wrap_lines S = (lines.map (fun l => l ++ ['\n'])).flatten ∧
        lines.flatten = S ∧
        lines.length = n / 80 + (if n % 80 = 0 then 0 else 1) ∧
        ∀ (i : Nat) (hi : i < lines.length),
          (lines[i]).length = if i < n / 80 then 80 else n % 80 := by
  intro n
  induction n using Nat.strong_induction_on with
  | _ n ih =>
    intro S hS
    by_cases hlt : n < 80
    · by_cases h0 : n = 0
      · subst h0
        have : S = [] := List.length_eq_zero.mp hS
        subst this
        exact ⟨[], by simp [wrap_lines, wrap_from], rfl, by simp, fun i hi => by simp at hi⟩
      · refine ⟨[S], ?_, by simp, ?_, ?_⟩
        · have hw : wrap_from 0 S = S := wrap_from_short S 0 (by rw [hS]; omega)
          have hm : ¬ ((S.length : Int) % PRINT_CUTOFF = 0) := by
            rw [hS]; simp only [PRINT_CUTOFF]; omega
          simp [wrap_lines, hw, hm]
        · have h1 : n / 80 = 0 := by omega
          have h2 : ¬ (n % 80 = 0) := by omega
          simp [h1, h2]
        · intro i hi
          have hi0 : i = 0 := by simpa using hi
          subst hi0
          have h1 : n / 80 = 0 := by omega
          simp [h1, hS]
          omega
    · have hA : (S.take 80).length = 80 := by rw [List.length_take]; omega
      have hB : (S.drop 80).length = n - 80 := by rw [List.length_drop]; omega
      obtain ⟨lines, l1, l2, l3, l4⟩ := ih (n - 80) (by omega) (S.drop 80) hB
      refine ⟨S.take 80 :: lines, ?_, ?_, ?_, ?_⟩
      · have hsplit : S = S.take 80 ++ S.drop 80 := (List.take_append_drop 80 S).symm
        have hw : wrap_lines S = S.take 80 ++ ['\n'] ++ wrap_lines (S.drop 80) := by
          conv_lhs => rw [hsplit]
          unfold wrap_lines
          rw [wrap_from_append, wrap_from_full _ hA, hA]
          have e0 : ((0 : Int) + ((80 : Nat) : Int)) = 0 + 80 := by norm_num
          rw [e0, wrap_from_period]
          have hc : (((S.take 80 ++ S.drop 80).length : Int) % PRINT_CUTOFF ≠ 0) ↔
              (((S.drop 80).length : Int) % PRINT_CUTOFF ≠ 0) := by
            rw [List.length_append, hA]; simp only [PRINT_CUTOFF]; push_cast; omega
          simp only [hc, List.append_assoc]
        rw [hw, l1]
        simp
      · simp [l2]
      · rw [List.length_cons, l3]
        have h1 : n / 80 = (n - 80) / 80 + 1 := by omega
        have h2 : n % 80 = (n - 80) % 80 := by omega
        rw [h1, h2]
        omega
      · intro i hi
        have h1 : n / 80 = (n - 80) / 80 + 1 := by omega
        have h2 : n % 80 = (n - 80) % 80 := by omega
        cases i with
        | zero => simp [hA, h1]
        | succ i =>
          simp only [List.getElem_cons_succ]
          rw [l4 i (by simpa using hi), h1, h2]
          simp

/-- Claim C5: the sequence text written for a request whose assembled sequence has `L`
characters consists of `L / 80` lines of 80 characters, then one line of `L % 80`
characters when `L % 80 ≠ 0`; every line ends in a newline, and the lines joined are the
assembled sequence, so the column count runs on across piece boundaries. -/
theorem sequence_lines_wrapped (e : interval_record) (body : List Char)
    (hr : PiecesInRange e body.length) :
    ∃ lines : List (List Char),
      (print_sequence e body).out = (lines.map (fun l => l ++ ['\n'])).flatten ∧
      lines.flatten = assembled e body ∧
      lines.length = (assembled e body).length / 80 +
        (if (assembled e body).length % 80 = 0 then 0 else 1) ∧
      ∀ (i : Nat) (hi : i < lines.length),
        (lines[i]).length =
          if i < (assembled e body).length / 80 then 80 else (assembled e body).length % 80 := by
  rw [print_sequence_assembled e body hr]
  exact wrap_lines_shape _ (assembled e body) rfl

/-- Witness of claim C5: 100 characters from two pieces are written as one line of 80, which
runs across the piece boundary at 40, and one line of 20. -/
theorem sequence_lines_wrapped_witness :
    PiecesInRange long_entry long_body.length ∧
    (print_sequence long_entry long_body).out =
      List.replicate 40 'A' ++ List.replicate 40 'C' ++ ['\n'] ++ List.replicate 20 'C' ++
        ['\n'] ∧
    ∃ lines : List (List Char),
      (print_sequence long_entry long_body).out = (lines.map (fun l => l ++ ['\n'])).flatten ∧
      lines.flatten = assembled long_entry long_body ∧
      lines.length = (assembled long_entry long_body).length / 80 +
        (if (assembled long_entry long_body).length % 80 = 0 then 0 else 1) ∧
      ∀ (i : Nat) (hi : i < lines.length),
        (lines[i]).length =
          if i < (assembled long_entry long_body).length / 80 then 80
          else (assembled long_entry long_body).length % 80 :=
  ⟨by decide, by decide, sequence_lines_wrapped long_entry long_body (by decide)⟩

theorem digitChar_isDigit (d : Nat) (h : d < 10) : (Nat.digitChar d).isDigit = true := by
  interval_cases d <;> rfl

theorem toDigitsCore_isDigit :
    ∀ (fuel n : Nat) (ds : List Char), (∀ c ∈ ds, c.isDigit = true) →
      ∀ c ∈ Nat.toDigitsCore 10 fuel n ds, c.isDigit = true := by
  intro fuel
  induction fuel with
  | zero => intro n ds h c hc; simpa [Nat.toDigitsCore] using h c hc
  | succ fuel ih =>
    intro n ds h c hc
    simp only [Nat.toDigitsCore] at hc
    have hd : (Nat.digitChar (n % 10)).isDigit = true :=
      digitChar_isDigit _ (Nat.mod_lt _ (by decide))
    have hds : ∀ c ∈ Nat.digitChar (n % 10) :: ds, c.isDigit = true := by
      intro c hc
      rcases List.mem_cons.mp hc with h1 | h1
      · rw [h1]; exact hd
      · exact h c h1
    split at hc
    · exact hds c hc
    · exact ih _ _ hds c hc

theorem fmt_d_chars (n : Int) : ∀ c ∈ fmt_d n, c = '-' ∨ c.isDigit = true := by
  intro c hc
  unfold fmt_d at hc
  split at hc
  · rcases List.mem_cons.mp hc with h | h
    · exact Or.inl h
    · exact Or.inr (toDigitsCore_isDigit _ _ [] (fun _ h => by simp at h) c h)
  · exact Or.inr (toDigitsCore_isDigit _ _ [] (fun _ h => by simp at h) c hc)

theorem lt_not_mem_fmt_d (n : Int) : '<' ∉ fmt_d n := by
  intro h
  rcases fmt_d_chars n _ h with h1 | h1
  · exact absurd h1 (by decide)
  · exact absurd h1 (by decide)

theorem gt_not_mem_fmt_d (n : Int) : '>' ∉ fmt_d n := by
  intro h
  rcases fmt_d_chars n _ h with h1 | h1
  · exact absurd h1 (by decide)
  · exact absurd h1 (by decide)

theorem defline_piece_markers (e : interval_record) (len : Int) (p : Nat) :
    ∃ lead trail : List Char,
      defline_piece e len p =
        lead ++ fmt_d (slot e.pstartA p) ++ ['_'] ++ trail ++ fmt_d (slot e.pendA p) ++ [':'] ∧
      (lead = ['<'] ∨ lead = []) ∧ (trail = ['>'] ∨ trail = []) ∧
      (lead = ['<'] ↔ slot e.pstartA p = 1) ∧ (trail = ['>'] ↔ slot e.pendA p = len) ∧
      ('<' ∈ defline_piece e len p ↔ slot e.pstartA p = 1) ∧
      ('>' ∈ defline_piece e len p ↔ slot e.pendA p = len) := by
  refine ⟨if slot e.pstartA p = 1 then ['<'] else [],
    if slot e.pendA p = len then ['>'] else [], rfl, ?_, ?_, ?_, ?_, ?_, ?_⟩
  · by_cases h : slot e.pstartA p = 1 <;> simp [h]
  · by_cases h : slot e.pendA p = len <;> simp [h]
  · by_cases h : slot e.pstartA p = 1 <;> simp [h]
  · by_cases h : slot e.pendA p = len <;> simp [h]
  · by_cases h : slot e.pstartA p = 1 <;> by_cases h2 : slot e.pendA p = len <;>
      simp [defline_piece, h, h2, lt_not_mem_fmt_d]
  · by_cases h : slot e.pstartA p = 1 <;> by_cases h2 : slot e.pendA p = len <;>
      simp [defline_piece, h, h2, gt_not_mem_fmt_d]

/-- Claim C6: in the defline of every rendered request, the field of each piece shows the
leading `<` (first, before the start number) exactly when the piece's start is 1, and the
`>` of the end (after the `_`, before the end number) exactly when the piece's end is the
length of the body. -/
theorem defline_boundary_markers (e e1 : interval_record) (o : Option (List Char))
    (body : List Char) (hc : check_interval e body.length = .returned e1) :
    ∃ (fields : List (List Char)) (tail : List Char),
      (print_record e o body).out = ['>'] ++ e1.name ++ [':'] ++ fields.flatten ++ tail ∧
      fields.length = e1.npieces.toNat ∧
      ∀ (p : Nat) (hp : p < fields.length),
        ∃ lead trail : List Char,
          fields[p] = lead ++ fmt_d (slot e1.pstartA p) ++ ['_'] ++ trail ++
            fmt_d (slot e1.pendA p) ++ [':'] ∧
          (lead = ['<'] ∨ lead = []) ∧ (trail = ['>'] ∨ trail = []) ∧
          (lead = ['<'] ↔ slot e1.pstartA p = 1) ∧
          (trail = ['>'] ↔ slot e1.pendA p = (body.length : Int)) ∧
          ('<' ∈ fields[p] ↔ slot e1.pstartA p = 1) ∧
          ('>' ∈ fields[p] ↔ slot e1.pendA p = (body.length : Int)) := by
  refine ⟨(List.range e1.npieces.toNat).map (defline_piece e1 body.length),
    (if e1.strand = PLUS then ['+'] else ['-']) ++
      (if o ≠ none then fmt_opttok e1.opttok else ['\n']) ++
      ((print_sequence e1 body).andThen fun _ => (⟨[], .returned e1⟩ : Run interval_record)).out,
    ?_, by simp, ?_⟩
  · simp only [print_record, hc, Run.andThen, print_defline, List.flatMap_def,
      List.append_assoc]
  · intro p hp
    simp only [List.getElem_map, List.getElem_range]
    exact defline_piece_markers e1 body.length p

/-- Witness of claim C6: the whole-sequence request `seqB` on the body `ACGTN` has both markers. -/
theorem defline_boundary_markers_witness :
    check_interval seqB_entry ("ACGTN".toList.length : Int) =
      .returned { seqB_entry with pstartA := [1], pendA := [5] } ∧
    (print_record seqB_entry none "ACGTN".toList).out = ">seqB:<1_>5:+\nACGTN\n".toList ∧
    ∃ (fields : List (List Char)) (tail : List Char),
      (print_record seqB_entry none "ACGTN".toList).out =
        ['>'] ++ ({ seqB_entry with pstartA := [1], pendA := [5] } : interval_record).name ++
          [':'] ++ fields.flatten ++ tail ∧
      fields.length =
        ({ seqB_entry with pstartA := [1], pendA := [5] } : interval_record).npieces.toNat ∧
      ∀ (p : Nat) (hp : p < fields.length),
        ∃ lead trail : List Char,
          fields[p] = lead ++
            fmt_d (slot ({ seqB_entry with pstartA := [1], pendA := [5] } :
              interval_record).pstartA p) ++ ['_'] ++ trail ++
            fmt_d (slot ({ seqB_entry with pstartA := [1], pendA := [5] } :
              interval_record).pendA p) ++ [':'] ∧
          (lead = ['<'] ∨ lead = []) ∧ (trail = ['>'] ∨ trail = []) ∧
          (lead = ['<'] ↔
            slot ({ seqB_entry with pstartA := [1], pendA := [5] } :
              interval_record).pstartA p = 1) ∧
          (trail = ['>'] ↔
            slot ({ seqB_entry with pstartA := [1], pendA := [5] } :
              interval_record).pendA p = ("ACGTN".toList.length : Int)) ∧
          ('<' ∈ fields[p] ↔
            slot ({ seqB_entry with pstartA := [1], pendA := [5] } :
              interval_record).pstartA p = 1) ∧
          ('>' ∈ fields[p] ↔
            slot ({ seqB_entry with pstartA := [1], pendA := [5] } :
              interval_record).pendA p = ("ACGTN".toList.length : Int)) :=
  ⟨by decide, by decide,
    defline_boundary_markers seqB_entry { seqB_entry with pstartA := [1], pendA := [5] } none
      "ACGTN".toList (by decide)⟩

/-- Claim C7 fails on the code: with the list `seqA` / `seqA 1 2 3 + x` the second entry
has the suffix token `x`, but its defline is `>seqA:2_3:+` with no `:x`, because line 513
tests the `opttok` of the entry at `given_index` (the first `seqA` entry, which has
none). -/
theorem suffix_test_reads_given_index :
    read_intervals "seqA\nseqA 1 2 3 + x\n".toList =
      .returned
        [ { name := "seqA".toList, npieces := 1, start := UNKNOWN, end_ := UNKNOWN,
            pstartA := [UNKNOWN], pendA := [UNKNOWN], strand := PLUS, opttok := none },
          { name := "seqA".toList, npieces := 1, start := 2, end_ := 3, pstartA := [2],
            pendA := [3], strand := PLUS, opttok := some "x".toList } ] ∧
    main "seqA\nseqA 1 2 3 + x\n".toList ">seqA\nACGT\n".toList =
      ⟨">seqA:<1_>4:+\nACGT\n>seqA:2_3:+\nCG\n".toList, .returned ()⟩ := by
  constructor <;> decide

/-- Claim C8 as stated fails: the first line the run writes, its defline, is not
`>seqB:<1_5>:+`, and the output is not that defline followed by the body. -/
theorem whole_sequence_example_counterexample :
    (main "seqB\n".toList ">seqB\nACGTN\n".toList).out.takeWhile (fun c => decide (c ≠ '\n')) ≠
      ">seqB:<1_5>:+".toList ∧
    (main "seqB\n".toList ">seqB\nACGTN\n".toList).out ≠ ">seqB:<1_5>:+\nACGTN\n".toList := by
  constructor <;> decide

/-- Claim C8, amended: the whole-sequence request line `seqB` against the single FASTA
record `seqB` with body `ACGTN` writes the defline `>seqB:<1_>5:+`, the `>` marker
standing before the end number, and the body `ACGTN`. -/
theorem whole_sequence_example :
    main "seqB\n".toList ">seqB\nACGTN\n".toList =
      ⟨">seqB:<1_>5:+\nACGTN\n".toList, .returned ()⟩ := by
  decide

/-- Claim C9 fails on the code: with the whole-sequence request `s` and two FASTA records
named `s`, the second call of `print_fasta` finds the pieces the first call wrote into
the table and renders the piece 1..4 of the body `ACGTAC`, not the whole body. -/
theorem whole_sequence_resolved_once :
    main "s\n".toList ">s\nACGT\n>s\nACGTAC\n".toList =
      ⟨">s:<1_>4:+\nACGT\n>s:<1_4:+\nACGT\n".toList, .returned ()⟩ ∧
    read_intervals "s\n".toList = .returned [s_entry] ∧
    (print_fasta [s_entry] 0 (some "ACGT".toList) []).res =
      .returned [{ s_entry with pstartA := [1], pendA := [4] }] ∧
    print_fasta [{ s_entry with pstartA := [1], pendA := [4] }] 0 (some "ACGTAC".toList) [] =
      ⟨">s:<1_4:+\nACGT\n".toList, .returned [{ s_entry with pstartA := [1], pendA := [4] }]⟩ := by
  refine ⟨?_, ?_, ?_, ?_⟩ <;> decide

theorem slot_append_lt (a b : List Int) (i : Nat) (h : i < a.length) :
    slot (a ++ b) i = slot a i := by
  simp [slot, List.getElem?_append_left h]

theorem slot_append_length (a : List Int) (x : Int) : slot (a ++ [x]) a.length = x := by
  simp [slot]

theorem piecesValid_append (np : Int) (ps pe : List Int) (s t : Int) (hl : ps.length = pe.length)
    (hv : PiecesValid np ps pe) (h1 : ¬ (np > 1 ∧ s < 1)) (h2 : ¬ (t < 1)) (h3 : ¬ (s > t))
    (h4 : ¬ (ps.length > 0 ∧ slot pe (ps.length - 1) ≥ s)) :
    PiecesValid np (ps ++ [s]) (pe ++ [t]) := by
  obtain ⟨v1, v2⟩ := hv
  constructor
  · intro i hi
    simp only [List.length_append, List.length_singleton] at hi
    rcases Nat.lt_or_eq_of_le (Nat.lt_succ_iff.mp hi) with h | h
    · rw [slot_append_lt _ _ _ h, slot_append_lt _ _ _ (by omega)]
      exact v1 i h
    · subst h
      rw [slot_append_length]
      conv => rw [hl]
      rw [slot_append_length]
      refine ⟨by omega, by omega, fun hnp => ?_⟩
      by_contra hc
      exact h1 ⟨hnp, by omega⟩
  · intro i hi
    simp only [List.length_append, List.length_singleton] at hi
    rcases Nat.lt_or_eq_of_le (Nat.lt_succ_iff.mp hi) with h | h
    · rw [slot_append_lt _ _ _ h, slot_append_lt _ _ _ (by omega)]
      exact v2 i h
    · rw [slot_append_lt _ _ _ (by omega), h, slot_append_length]
      by_contra hc
      apply h4
      refine ⟨by omega, ?_⟩
      have : ps.length - 1 = i := by omega
      rw [this]
      omega

theorem read_pieces_inv (name : List Char) (interval : Nat) (np : Int) :
    ∀ (k p : Nat) (tokens : List (List Char)) (ps pe : List Int)
      (r : List Int × List Int × List (List Char)),
      ps.length = p → pe.length = p → PiecesValid np ps pe →
      read_pieces name interval np k p tokens ps pe = .returned r →
      r.1.length = p + k ∧ r.2.1.length = p + k ∧ PiecesValid np r.1 r.2.1 := by
  intro k
  induction k with
  | zero =>
    intro p tokens ps pe r h1 h2 hv h
    simp only [read_pieces, Status.returned.injEq] at h
    subst h
    exact ⟨h1, h2, hv⟩
  | succ k ih =>
    intro p tokens ps pe r h1 h2 hv h
    cases tokens with
    | nil => simp [read_pieces] at h
    | cons t1 ts =>
      simp only [read_pieces] at h
      by_cases c1 : np > 1 ∧ atoi t1 < 1
      · simp [c1] at h
      · simp only [c1, if_false] at h
        cases ts with
        | nil => simp at h
        | cons t2 ts =>
          simp only at h
          by_cases c2 : atoi t2 < 1
          · simp [c2] at h
          · simp only [c2, if_false] at h
            by_cases c3 : atoi t1 > atoi t2
            · simp [c3] at h
            · simp only [c3, if_false] at h
              by_cases c4 : p > 0 ∧ slot pe (p - 1) ≥ atoi t1
              · simp [c4] at h
              · simp only [c4, if_false] at h
                have := ih (p + 1) ts (ps ++ [atoi t1]) (pe ++ [atoi t2]) r
                  (by simp [h1]) (by simp [h2])
                  (piecesValid_append np ps pe _ _ (by omega) hv c1 c2 c3
                    (by rw [h1]; exact c4)) h
                obtain ⟨a1, a2, a3⟩ := this
                exact ⟨by omega, by omega, a3⟩

/-- Every record `read_intervals` builds from a line is the whole-sequence record, or has
between 1 and `MAXPIECES` pieces, all slots written and checked, `start` the first start
and `end` the last end. -/
theorem read_interval_line_inv (interval_count : Nat) (descriptions : List Char)
    (e : interval_record) (h : read_interval_line interval_count descriptions = .returned e) :
    (e.npieces = 1 ∧ e.start = UNKNOWN ∧ e.end_ = UNKNOWN ∧ e.pstartA = [UNKNOWN] ∧
      e.pendA = [UNKNOWN] ∧ e.strand = PLUS ∧ e.opttok = none) ∨
    (1 ≤ e.npieces ∧ e.npieces ≤ MAXPIECES ∧ e.pstartA.length = e.npieces.toNat ∧
      e.pendA.length = e.npieces.toNat ∧ e.start = slot e.pstartA 0 ∧
      e.end_ = slot e.pendA (e.npieces.toNat - 1) ∧
      PiecesValid e.npieces e.pstartA e.pendA) := by
  unfold read_interval_line at h
  cases hst : strtok_all descriptions [] with
  | nil => rw [hst] at h; simp at h
  | cons name tokens =>
    cases tokens with
    | nil =>
      rw [hst] at h
      simp only [Status.returned.injEq] at h
      subst h
      left
      exact ⟨rfl, rfl, rfl, rfl, rfl, rfl, rfl⟩
    | cons token tokens2 =>
      rw [hst] at h
      simp only at h
      by_cases c1 : atoi token < 1
      · simp [c1] at h
      · simp only [c1, if_false] at h
        by_cases c2 : atoi token > MAXPIECES
        · simp [c2] at h
        · simp only [c2, if_false] at h
          cases hrp : read_pieces name (interval_count + 1) (atoi token) (atoi token).toNat 0
              tokens2 [] [] with
          | stopped why => rw [hrp] at h; simp at h
          | returned r =>
            obtain ⟨ps, pe, toks⟩ := r
            rw [hrp] at h
            have hinv := read_pieces_inv name (interval_count + 1) (atoi token) _ 0 tokens2 [] []
              (ps, pe, toks) rfl rfl
              ⟨fun i hi => by simp at hi, fun i hi => by simp at hi⟩ hrp
            obtain ⟨a1, a2, a3⟩ := hinv
            simp only [zero_add] at a1 a2
            have hsub : (atoi token - 1).toNat = (atoi token).toNat - 1 := by omega
            have b1 : 1 ≤ atoi token := by omega
            have b2 : atoi token ≤ MAXPIECES := by omega
            right
            cases toks with
            | nil => simp at h
            | cons st rest =>
              cases rest with
              | nil =>
                simp only [Status.returned.injEq] at h
                subst h
                exact ⟨b1, b2, a1, a2, rfl, by simp only [hsub], a3⟩
              | cons o rest2 =>
                cases rest2 with
                | nil =>
                  simp only [Status.returned.injEq] at h
                  subst h
                  exact ⟨b1, b2, a1, a2, rfl, by simp only [hsub], a3⟩
                | cons x xs => simp at h

theorem plus_loop_stops (body : List Char) :
    ∀ (n : Nat) (temp count : Int) (w : Failure),
      (plus_loop body n temp count).res = .stopped w → ∃ t, w = .outside_read t := by
  intro n
  induction n with
  | zero => intro temp count w h; simp [plus_loop] at h
  | succ n ih =>
    intro temp count w h
    simp only [plus_loop] at h
    split at h
    · simp only [Status.stopped.injEq] at h; exact ⟨_, h.symm⟩
    · split at h
      · simp only [Status.stopped.injEq] at h; exact ⟨_, h.symm⟩
      · exact ih _ _ w h

theorem minus_loop_stops (body : List Char) :
    ∀ (n : Nat) (temp count : Int) (w : Failure),
      (minus_loop body n temp count).res = .stopped w → ∃ t, w = .outside_read t := by
  intro n
  induction n with
  | zero => intro temp count w h; simp [minus_loop] at h
  | succ n ih =>
    intro temp count w h
    simp only [minus_loop] at h
    split at h
    · simp only [Status.stopped.injEq] at h; exact ⟨_, h.symm⟩
    · split at h
      · simp only [Status.stopped.injEq] at h; exact ⟨_, h.symm⟩
      · exact ih _ _ w h

theorem andThen_stops {α β : Type} (r : Run α) (f : α → Run β) (w : Failure)
    (h : (r.andThen f).res = .stopped w) :
    r.res = .stopped w ∨ ∃ a, r.res = .returned a ∧ (f a).res = .stopped w := by
  unfold Run.andThen at h
  cases hr : r.res with
  | stopped v => rw [hr] at h; simp only [Status.stopped.injEq] at h; left; rw [h]
  | returned a => rw [hr] at h; right; exact ⟨a, rfl, h⟩

theorem print_piece_stops (e : interval_record) (body : List Char) (p : Nat) (count : Int)
    (w : Failure) (h : (print_piece e body p count).res = .stopped w) :
    ∃ t, w = .outside_read t := by
  unfold print_piece at h
  rcases andThen_stops _ _ w h with h1 | ⟨a, _, h2⟩
  · split at h1
    · exact plus_loop_stops body _ _ _ w h1
    · exact minus_loop_stops body _ _ _ w h1
  · split at h2 <;> simp at h2

theorem pieces_loop_stops (e : interval_record) (body : List Char) :
    ∀ (ps : List Nat) (count : Int) (w : Failure),
      (pieces_loop e body ps count).res = .stopped w → ∃ t, w = .outside_read t := by
  intro ps
  induction ps with
  | nil => intro count w h; simp [pieces_loop] at h
  | cons p ps ih =>
    intro count w h
    simp only [pieces_loop] at h
    rcases andThen_stops _ _ w h with h1 | ⟨a, _, h2⟩
    · exact print_piece_stops e body p count w h1
    · exact ih a w h2

theorem print_record_stops (e : interval_record) (o : Option (List Char)) (body : List Char)
    (w : Failure) (h : (print_record e o body).res = .stopped w) :
    check_interval e body.length = .stopped w ∨ ∃ t, w = .outside_read t := by
  unfold print_record at h
  cases hc : check_interval e body.length with
  | stopped v =>
    rw [hc] at h
    simp only [Status.stopped.injEq] at h
    left; rw [h]
  | returned e1 =>
    rw [hc] at h
    right
    rcases andThen_stops _ _ w h with h1 | ⟨_, _, h2⟩
    · simp at h1
    · rcases andThen_stops _ _ w h2 with h3 | ⟨_, _, h4⟩
      · exact pieces_loop_stops e1 body _ _ w h3
      · simp at h4

theorem piecesValid_mono (np : Int) (ps pe : List Int) (hv : PiecesValid np ps pe) :
    ∀ q p, p ≤ q → q < ps.length → slot pe p ≤ slot pe q := by
  obtain ⟨v1, v2⟩ := hv
  intro q
  induction q with
  | zero =>
    intro p hp _
    have : p = 0 := by omega
    subst this
    exact le_refl _
  | succ q ih =>
    intro p hp hq
    rcases Nat.lt_or_eq_of_le hp with h | h
    · have a1 := ih p (by omega) (by omega)
      have a2 := v2 q hq
      have a3 := (v1 (q + 1) hq).1
      omega
    · subst h
      exact le_refl _

/-- Claim C10, amended: for an entry `read_intervals` built from a line, whose first start is
not the number -2 (`UNKNOWN`), and any body: some piece end exceeds the length of the body
exactly when the last piece end does; `print_fasta` stops at the entry with the
out-of-range error exactly in that case, and then it has written nothing for the entry. -/
theorem end_exceeds_iff (interval_count : Nat) (descriptions : List Char)
    (e : interval_record) (o : Option (List Char)) (body : List Char)
    (hline : read_interval_line interval_count descriptions = .returned e)
    (hk : slot e.pstartA 0 ≠ UNKNOWN) :
    ((∃ p, p < e.npieces.toNat ∧ slot e.pendA p > (body.length : Int)) ↔
      slot e.pendA (e.npieces.toNat - 1) > (body.length : Int)) ∧
    ((∃ a b c, (print_record e o body).res = .stopped (.end_exceeds a b c)) ↔
      ∃ p, p < e.npieces.toNat ∧ slot e.pendA p > (body.length : Int)) ∧
    ((∃ p, p < e.npieces.toNat ∧ slot e.pendA p > (body.length : Int)) →
      print_record e o body =
        ⟨[], .stopped (.end_exceeds e.end_ (body.length : Int) e.name)⟩) := by
  rcases read_interval_line_inv interval_count descriptions e hline with
    ⟨_, _, _, h4, _⟩ | ⟨h1, _, h3, _, _, h6, h7⟩
  · exfalso; apply hk; rw [h4]; rfl
  · have hnp : e.npieces.toNat - 1 < e.npieces.toNat := by omega
    have hiff : (∃ p, p < e.npieces.toNat ∧ slot e.pendA p > (body.length : Int)) ↔
        slot e.pendA (e.npieces.toNat - 1) > (body.length : Int) := by
      constructor
      · rintro ⟨p, hp, hgt⟩
        have := piecesValid_mono _ _ _ h7 (e.npieces.toNat - 1) p (by omega) (by omega)
        omega
      · intro h
        exact ⟨_, hnp, h⟩
    have hstop : slot e.pendA (e.npieces.toNat - 1) > (body.length : Int) →
        print_record e o body =
          ⟨[], .stopped (.end_exceeds e.end_ (body.length : Int) e.name)⟩ := by
      intro h
      have hgt : e.end_ > (body.length : Int) := by rw [h6]; exact h
      simp [print_record, check_interval, hk, hgt]
    refine ⟨hiff, ?_, fun h => hstop (hiff.mp h)⟩
    rw [hiff]
    constructor
    · rintro ⟨a, b, c, h⟩
      rcases print_record_stops e o body _ h with hc | ⟨t, ht⟩
      · by_contra hle
        have hle2 : ¬ (e.end_ > (body.length : Int)) := by rw [h6]; exact hle
        simp [check_interval, hk, hle2] at hc
      · cases ht
    · intro h
      exact ⟨_, _, _, by rw [hstop h]⟩

/-- Witness of claim C10: the entry of the line `seqA 2 10 20 30 40 +` on a body of 25
characters stops with the out-of-range error for the end 40. -/
theorem end_exceeds_iff_witness :
    read_interval_line 0 "seqA 2 10 20 30 40 +\n".toList = .returned seqA_entry ∧
    slot seqA_entry.pstartA 0 ≠ UNKNOWN ∧
    print_record seqA_entry none "ACGTACGTACGTACGTACGTACGTA".toList =
      ⟨[], .stopped (.end_exceeds 40 25 "seqA".toList)⟩ ∧
    (((∃ p, p < seqA_entry.npieces.toNat ∧
        slot seqA_entry.pendA p > ("ACGTACGTACGTACGTACGTACGTA".toList.length : Int)) ↔
      slot seqA_entry.pendA (seqA_entry.npieces.toNat - 1) >
        ("ACGTACGTACGTACGTACGTACGTA".toList.length : Int)) ∧
    ((∃ a b c, (print_record seqA_entry none "ACGTACGTACGTACGTACGTACGTA".toList).res =
        .stopped (.end_exceeds a b c)) ↔
      ∃ p, p < seqA_entry.npieces.toNat ∧
        slot seqA_entry.pendA p > ("ACGTACGTACGTACGTACGTACGTA".toList.length : Int)) ∧
    ((∃ p, p < seqA_entry.npieces.toNat ∧
        slot seqA_entry.pendA p > ("ACGTACGTACGTACGTACGTACGTA".toList.length : Int)) →
      print_record seqA_entry none "ACGTACGTACGTACGTACGTACGTA".toList =
        ⟨[], .stopped (.end_exceeds seqA_entry.end_
          ("ACGTACGTACGTACGTACGTACGTA".toList.length : Int) seqA_entry.name)⟩)) :=
  ⟨by decide, by decide, by decide,
    end_exceeds_iff 0 "seqA 2 10 20 30 40 +\n".toList seqA_entry none
      "ACGTACGTACGTACGTACGTACGTA".toList (by decide) (by decide)⟩

/-- Claim C10 as stated fails: the line `s 1 -2 9 +` is accepted, its piece end 9 exceeds the
length 4 of the body `ACGT`, and `print_fasta` stops with the error for an unknown start
whose end is known, not with the out-of-range error. -/
theorem end_exceeds_counterexample :
    read_interval_line 0 "s 1 -2 9 +\n".toList = .returned sentinel_entry ∧
    (∃ p, p < sentinel_entry.npieces.toNat ∧
      slot sentinel_entry.pendA p > ("ACGT".toList.length : Int)) ∧
    print_record sentinel_entry none "ACGT".toList =
      ⟨[], .stopped (.unknown_start_only "s".toList)⟩ ∧
    ¬ (∃ a b c, (print_record sentinel_entry none "ACGT".toList).res =
        .stopped (.end_exceeds a b c)) ∧
    main "s 1 -2 9 +\n".toList ">s\nACGT\n".toList =
      ⟨[], .stopped (.unknown_start_only "s".toList)⟩ := by
  have h : print_record sentinel_entry none "ACGT".toList =
      ⟨[], .stopped (.unknown_start_only "s".toList)⟩ := by decide
  refine ⟨by decide, ⟨0, by decide, by decide⟩, h, ?_, by decide⟩
  rintro ⟨a, b, c, hc⟩
  rw [h] at hc
  cases hc

/-! ## read_intervals: what an accepted line stores -/

theorem read_pieces_tokens (name : List Char) (interval : Nat) (np : Int) :
    ∀ (k p : Nat) (tokens : List (List Char)) (ps pe : List Int)
      (r : List Int × List Int × List (List Char)),
      ps.length = p → pe.length = p →
      read_pieces name interval np k p tokens ps pe = .returned r →
      r.2.2 = tokens.drop (2 * k) ∧ 2 * k ≤ tokens.length ∧
      (∀ i, i < p → slot r.1 i = slot ps i ∧ slot r.2.1 i = slot pe i) ∧
      (∀ i, i < k → slot r.1 (p + i) = atoi (tokens.getD (2 * i) []) ∧
        slot r.2.1 (p + i) = atoi (tokens.getD (2 * i + 1) [])) := by
  intro k
  induction k with
  | zero =>
    intro p tokens ps pe r _ _ h
    simp only [read_pieces, Status.returned.injEq] at h
    subst h
    exact ⟨by simp, by simp, fun i _ => ⟨rfl, rfl⟩, fun i hi => by omega⟩
  | succ k ih =>
    intro p tokens ps pe r h1 h2 h
    cases tokens with
    | nil => simp [read_pieces] at h
    | cons t1 ts =>
      simp only [read_pieces] at h
      by_cases c1 : np > 1 ∧ atoi t1 < 1
      · simp [c1] at h
      · simp only [c1, if_false] at h
        cases ts with
        | nil => simp at h
        | cons t2 ts =>
          simp only at h
          by_cases c2 : atoi t2 < 1
          · simp [c2] at h
          · simp only [c2, if_false] at h
            by_cases c3 : atoi t1 > atoi t2
            · simp [c3] at h
            · simp only [c3, if_false] at h
              by_cases c4 : p > 0 ∧ slot pe (p - 1) ≥ atoi t1
              · simp [c4] at h
              · simp only [c4, if_false] at h
                obtain ⟨a1, a2, a3, a4⟩ := ih (p + 1) ts (ps ++ [atoi t1]) (pe ++ [atoi t2]) r
                  (by simp [h1]) (by simp [h2]) h
                have hp1 := a3 p (by omega)
                rw [← h1] at hp1
                rw [slot_append_length] at hp1
                rw [h1, ← h2] at hp1
                rw [slot_append_length] at hp1
                rw [h2] at hp1
                refine ⟨?_, ?_, ?_, ?_⟩
                · rw [a1]
                  have : 2 * (k + 1) = 2 * k + 1 + 1 := by ring
                  rw [this]
                  rfl
                · simp only [List.length_cons]; omega
                · intro i hi
                  obtain ⟨b1, b2⟩ := a3 i (by omega)
                  rw [b1, b2, slot_append_lt _ _ _ (by omega), slot_append_lt _ _ _ (by omega)]
                  exact ⟨rfl, rfl⟩
                · intro i hi
                  cases i with
                  | zero => simpa using hp1
                  | succ j =>
                    obtain ⟨b1, b2⟩ := a4 j (by omega)
                    have e1 : p + (j + 1) = p + 1 + j := by omega
                    have e2 : 2 * (j + 1) = 2 * j + 1 + 1 := by ring
                    rw [e1, e2, b1, b2]
                    exact ⟨rfl, rfl⟩

/-- An accepted explicit-coordinate line, seen through its tokens `name np s_1 e_1 ...`:
the record holds the name, the piece count `atoi np`, for every piece the values `atoi`
gives for its two tokens, the strand read from the token after the pieces, and the
optional last token. -/
theorem read_interval_line_tokens (interval_count : Nat) (descriptions name np_tok : List Char)
    (toks : List (List Char)) (e : interval_record)
    (htok : strtok_all descriptions [] = name :: np_tok :: toks)
    (h : read_interval_line interval_count descriptions = .returned e) :
    e.name = name ∧ e.npieces = atoi np_tok ∧
    (∀ p, p < e.npieces.toNat →
      slot e.pstartA p = atoi (toks.getD (2 * p) []) ∧
      slot e.pendA p = atoi (toks.getD (2 * p + 1) [])) ∧
    2 * e.npieces.toNat < toks.length ∧ toks.length ≤ 2 * e.npieces.toNat + 2 ∧
    e.strand = (if strcmp (toks.getD (2 * e.npieces.toNat) []) ['+'] = 0 then PLUS else MINUS) ∧
    e.opttok = toks[2 * e.npieces.toNat + 1]? := by
  unfold read_interval_line at h
  rw [htok] at h
  simp only at h
  by_cases c1 : atoi np_tok < 1
  · simp [c1] at h
  · simp only [c1, if_false] at h
    by_cases c2 : atoi np_tok > MAXPIECES
    · simp [c2] at h
    · simp only [c2, if_false] at h
      cases hrp : read_pieces name (interval_count + 1) (atoi np_tok) (atoi np_tok).toNat 0
          toks [] [] with
      | stopped why => rw [hrp] at h; simp at h
      | returned r =>
        obtain ⟨ps, pe, rest⟩ := r
        rw [hrp] at h
        obtain ⟨a1, a2, _, a4⟩ := read_pieces_tokens name (interval_count + 1) (atoi np_tok) _ 0
          toks [] [] (ps, pe, rest) rfl rfl hrp
        simp only [zero_add] at a4
        simp only at a1
        cases rest with
        | nil => simp at h
        | cons st rest1 =>
          have hlen := congrArg List.length a1
          simp only [List.length_cons, List.length_drop] at hlen
          have hst : toks[2 * (atoi np_tok).toNat]? = some st := by
            have := congrArg (fun l => l[0]?) a1
            simp only [List.getElem?_cons_zero, List.getElem?_drop, Nat.add_zero] at this
            exact this.symm
          have hgetD : toks.getD (2 * (atoi np_tok).toNat) [] = st := by
            simp [List.getD_eq_getElem?_getD, hst]
          have hnext : toks[2 * (atoi np_tok).toNat + 1]? = rest1[0]? := by
            have := congrArg (fun l => l[1]?) a1
            simp only [List.getElem?_cons_succ, List.getElem?_drop] at this
            exact this.symm
          cases rest1 with
          | nil =>
            simp only [Status.returned.injEq] at h
            subst h
            simp only [List.length_nil] at hlen
            refine ⟨rfl, rfl, a4, by simp only; omega, by simp only; omega, ?_, ?_⟩
            · simp only [hgetD]
            · simp only [hnext, List.getElem?_nil]
          | cons o rest2 =>
            cases rest2 with
            | nil =>
              simp only [Status.returned.injEq] at h
              subst h
              simp only [List.length_cons, List.length_nil] at hlen
              refine ⟨rfl, rfl, a4, by simp only; omega, by simp only; omega, ?_, ?_⟩
              · simp only [hgetD]
              · simp only [hnext, List.getElem?_cons_zero]
            | cons x xs => simp at h

theorem read_interval_line_explicit (interval_count : Nat) (descriptions name np_tok : List Char)
    (toks : List (List Char)) (e : interval_record)
    (htok : strtok_all descriptions [] = name :: np_tok :: toks)
    (h : read_interval_line interval_count descriptions = .returned e) :
    1 ≤ e.npieces ∧ e.npieces ≤ MAXPIECES ∧ e.pstartA.length = e.npieces.toNat ∧
      e.pendA.length = e.npieces.toNat ∧ e.start = slot e.pstartA 0 ∧
      e.end_ = slot e.pendA (e.npieces.toNat - 1) ∧
      PiecesValid e.npieces e.pstartA e.pendA := by
  unfold read_interval_line at h
  rw [htok] at h
  simp only at h
  by_cases c1 : atoi np_tok < 1
  · simp [c1] at h
  · simp only [c1, if_false] at h
    by_cases c2 : atoi np_tok > MAXPIECES
    · simp [c2] at h
    · simp only [c2, if_false] at h
      cases hrp : read_pieces name (interval_count + 1) (atoi np_tok) (atoi np_tok).toNat 0
          toks [] [] with
      | stopped why => rw [hrp] at h; simp at h
      | returned r =>
        obtain ⟨ps, pe, rest⟩ := r
        rw [hrp] at h
        obtain ⟨a1, a2, a3⟩ := read_pieces_inv name (interval_count + 1) (atoi np_tok) _ 0
          toks [] [] (ps, pe, rest) rfl rfl
          ⟨fun i hi => by simp at hi, fun i hi => by simp at hi⟩ hrp
        simp only [zero_add] at a1 a2
        have hsub : (atoi np_tok - 1).toNat = (atoi np_tok).toNat - 1 := by omega
        have b1 : 1 ≤ atoi np_tok := by omega
        have b2 : atoi np_tok ≤ MAXPIECES := by omega
        cases rest with
        | nil => simp at h
        | cons st rest1 =>
          cases rest1 with
          | nil =>
            simp only [Status.returned.injEq] at h
            subst h
            exact ⟨b1, b2, a1, a2, rfl, by simp only [hsub], a3⟩
          | cons o rest2 =>
            cases rest2 with
            | nil =>
              simp only [Status.returned.injEq] at h
              subst h
              exact ⟨b1, b2, a1, a2, rfl, by simp only [hsub], a3⟩
            | cons x xs => simp at h

theorem accepted_pieces (interval_count : Nat) (descriptions name np_tok : List Char)
    (toks : List (List Char)) (e : interval_record)
    (htok : strtok_all descriptions [] = name :: np_tok :: toks)
    (h : read_interval_line interval_count descriptions = .returned e) :
    e.npieces = atoi np_tok ∧ 1 ≤ e.npieces ∧ e.npieces ≤ MAXPIECES ∧
    e.end_ = slot e.pendA (e.npieces.toNat - 1) ∧
    (∀ p, p < e.npieces.toNat →
      slot e.pstartA p = atoi (toks.getD (2 * p) []) ∧
      slot e.pendA p = atoi (toks.getD (2 * p + 1) []) ∧
      slot e.pstartA p ≤ slot e.pendA p ∧ 1 ≤ slot e.pendA p ∧
      (1 < e.npieces → 1 ≤ slot e.pstartA p)) ∧
    (∀ p, p + 1 < e.npieces.toNat → slot e.pendA p < slot e.pstartA (p + 1)) := by
  obtain ⟨_, t2, t3, _, _, _, _⟩ :=
    read_interval_line_tokens interval_count descriptions name np_tok toks e htok h
  obtain ⟨i1, i2, i3, _, _, i6, v1, v2⟩ :=
    read_interval_line_explicit interval_count descriptions name np_tok toks e htok h
  refine ⟨t2, i1, i2, i6, ?_, ?_⟩
  · intro p hp
    obtain ⟨b1, b2⟩ := t3 p hp
    obtain ⟨c1, c2, c3⟩ := v1 p (by omega)
    exact ⟨b1, b2, c1, c2, c3⟩
  · intro p hp
    exact v2 p (by omega)

theorem status_cases {α : Type} (s : Status α) :
    (∃ a, s = .returned a) ∨ ∃ why, s = .stopped why := by
  cases s with
  | returned a => exact Or.inl ⟨a, rfl⟩
  | stopped why => exact Or.inr ⟨why, rfl⟩

/-- The form feed is not a delimiter of `strtok` but `atoi` skips it: with a form feed
before the 9, the line `s 1 9 5 +` is rejected (9 > 5), the line `s 1 5 9 +` stores the
piece 5..9, and the line `s 2 1 5 7 9 +` with the form feed before the 7 stores the
pieces 1..5 and 7..9. -/
theorem read_interval_line_form_feed :
    atoi [Char.ofNat 12, '9'] = 9 ∧
    read_interval_line 0 ("s 1 ".toList ++ [Char.ofNat 12] ++ "9 5 +\n".toList) =
      .stopped (.start_after_end 1 1 9 5) ∧
    read_interval_line 0 ("s 1 5 ".toList ++ [Char.ofNat 12] ++ "9 +\n".toList) =
      .returned { name := "s".toList, npieces := 1, start := 5, end_ := 9, pstartA := [5],
                  pendA := [9], strand := PLUS, opttok := none } ∧
    read_interval_line 0 ("s 2 1 5 ".toList ++ [Char.ofNat 12] ++ "7 9 +\n".toList) =
      .returned { name := "s".toList, npieces := 2, start := 1, end_ := 9, pstartA := [1, 7],
                  pendA := [5, 9], strand := PLUS, opttok := none } := by
  refine ⟨by decide, by decide, by decide, by decide⟩

/-- Claim C11, amended: every piece an accepted explicit-coordinate line stores has
`start ≤ end` and `end ≥ 1`, and `start ≥ 1` when the line has more than one piece; the
stored values are those of the tokens, and a line with a piece that violates one of
these is rejected. -/
theorem accepted_line_pieces_checked (interval_count : Nat)
    (descriptions name np_tok : List Char) (toks : List (List Char))
    (htok : strtok_all descriptions [] = name :: np_tok :: toks) :
    (∀ e, read_interval_line interval_count descriptions = .returned e →
      1 ≤ e.npieces ∧ e.npieces ≤ MAXPIECES ∧
      ∀ p, p < e.npieces.toNat →
        slot e.pstartA p = atoi (toks.getD (2 * p) []) ∧
        slot e.pendA p = atoi (toks.getD (2 * p + 1) []) ∧
        slot e.pstartA p ≤ slot e.pendA p ∧ 1 ≤ slot e.pendA p ∧
        (1 < e.npieces → 1 ≤ slot e.pstartA p)) ∧
    ((∃ p, p < (atoi np_tok).toNat ∧
        (atoi (toks.getD (2 * p) []) > atoi (toks.getD (2 * p + 1) []) ∨
          atoi (toks.getD (2 * p + 1) []) < 1 ∨
          (1 < atoi np_tok ∧ atoi (toks.getD (2 * p) []) < 1))) →
      ∃ why, read_interval_line interval_count descriptions = .stopped why) := by
  constructor
  · intro e h
    obtain ⟨_, a2, a3, _, a5, _⟩ :=
      accepted_pieces interval_count descriptions name np_tok toks e htok h
    exact ⟨a2, a3, a5⟩
  · rintro ⟨p, hp, hbad⟩
    rcases status_cases (read_interval_line interval_count descriptions) with ⟨e, h⟩ | h
    · exfalso
      obtain ⟨a1, _, _, _, a5, _⟩ :=
        accepted_pieces interval_count descriptions name np_tok toks e htok h
      obtain ⟨b1, b2, b3, b4, b5⟩ := a5 p (by rw [a1]; exact hp)
      rw [b1, b2] at b3
      rw [b2] at b4
      rw [b1, a1] at b5
      rcases hbad with h1 | h1 | ⟨h1, h2⟩
      · omega
      · omega
      · have := b5 h1
        omega
    · exact h

/-- Witness of claim C11: the line `seqA 2 10 20 30 40 +`. -/
theorem accepted_line_pieces_checked_witness :
    strtok_all "seqA 2 10 20 30 40 +\n".toList [] =
      "seqA".toList :: "2".toList ::
        ["10".toList, "20".toList, "30".toList, "40".toList, "+".toList] ∧
    read_interval_line 0 "seqA 2 10 20 30 40 +\n".toList = .returned seqA_entry ∧
    ((∀ e, read_interval_line 0 "seqA 2 10 20 30 40 +\n".toList = .returned e →
      1 ≤ e.npieces ∧ e.npieces ≤ MAXPIECES ∧
      ∀ p, p < e.npieces.toNat →
        slot e.pstartA p =
          atoi (["10".toList, "20".toList, "30".toList, "40".toList, "+".toList].getD
            (2 * p) []) ∧
        slot e.pendA p =
          atoi (["10".toList, "20".toList, "30".toList, "40".toList, "+".toList].getD
            (2 * p + 1) []) ∧
        slot e.pstartA p ≤ slot e.pendA p ∧ 1 ≤ slot e.pendA p ∧
        (1 < e.npieces → 1 ≤ slot e.pstartA p)) ∧
    ((∃ p, p < (atoi "2".toList).toNat ∧
        (atoi (["10".toList, "20".toList, "30".toList, "40".toList, "+".toList].getD
            (2 * p) []) >
          atoi (["10".toList, "20".toList, "30".toList, "40".toList, "+".toList].getD
            (2 * p + 1) []) ∨
          atoi (["10".toList, "20".toList, "30".toList, "40".toList, "+".toList].getD
            (2 * p + 1) []) < 1 ∨
          (1 < atoi "2".toList ∧
            atoi (["10".toList, "20".toList, "30".toList, "40".toList, "+".toList].getD
              (2 * p) []) < 1))) →
      ∃ why, read_interval_line 0 "seqA 2 10 20 30 40 +\n".toList = .stopped why)) :=
  ⟨by decide, by decide,
    accepted_line_pieces_checked 0 "seqA 2 10 20 30 40 +\n".toList "seqA".toList "2".toList
      ["10".toList, "20".toList, "30".toList, "40".toList, "+".toList] (by decide)⟩

/-- Claim C11 as stated fails: the single-piece line `s 1 0 5 +` is accepted and stores a
piece whose start is 0; the run with it ends without an error. -/
theorem single_piece_start_counterexample :
    read_interval_line 0 "s 1 0 5 +\n".toList = .returned zero_start_entry ∧
    slot zero_start_entry.pstartA 0 = 0 ∧ ¬ (1 ≤ slot zero_start_entry.pstartA 0) ∧
    main "s 1 0 5 +\n".toList ">t\nACGT\n".toList = ⟨[], .returned ()⟩ := by
  refine ⟨?_, ?_, ?_, ?_⟩ <;> decide

/-- Claim C12: a line with more than one piece is accepted only if every piece starts
after the end of the piece before it, and is rejected otherwise; the pieces of an accepted
line satisfy `1 ≤ s_1 ≤ e_1 < s_2 ≤ e_2 < ... < s_n ≤ e_n`. -/
theorem multi_piece_strictly_increasing (interval_count : Nat)
    (descriptions name np_tok : List Char) (toks : List (List Char))
    (htok : strtok_all descriptions [] = name :: np_tok :: toks)
    (hmulti : 1 < atoi np_tok) :
    (∀ e, read_interval_line interval_count descriptions = .returned e →
      e.npieces = atoi np_tok ∧
      (∀ p, p < e.npieces.toNat →
        slot e.pstartA p = atoi (toks.getD (2 * p) []) ∧
        slot e.pendA p = atoi (toks.getD (2 * p + 1) [])) ∧
      1 ≤ slot e.pstartA 0 ∧
      (∀ p, p < e.npieces.toNat → slot e.pstartA p ≤ slot e.pendA p) ∧
      (∀ p, p + 1 < e.npieces.toNat → slot e.pendA p < slot e.pstartA (p + 1))) ∧
    ((∃ p, p + 1 < (atoi np_tok).toNat ∧
        atoi (toks.getD (2 * p + 1) []) ≥ atoi (toks.getD (2 * (p + 1)) [])) →
      ∃ why, read_interval_line interval_count descriptions = .stopped why) := by
  constructor
  · intro e h
    obtain ⟨a1, a2, _, _, a5, a6⟩ :=
      accepted_pieces interval_count descriptions name np_tok toks e htok h
    refine ⟨a1, fun p hp => ⟨(a5 p hp).1, (a5 p hp).2.1⟩, ?_, fun p hp => (a5 p hp).2.2.1, a6⟩
    exact (a5 0 (by omega)).2.2.2.2 (by rw [a1]; exact hmulti)
  · rintro ⟨p, hp, hbad⟩
    rcases status_cases (read_interval_line interval_count descriptions) with ⟨e, h⟩ | h
    · exfalso
      obtain ⟨a1, _, _, _, a5, a6⟩ :=
        accepted_pieces interval_count descriptions name np_tok toks e htok h
      have c1 := a6 p (by rw [a1]; exact hp)
      rw [(a5 p (by rw [a1]; omega)).2.1, (a5 (p + 1) (by rw [a1]; exact hp)).1] at c1
      omega
    · exact h

/-- Witness of claim C12: the line `seqA 2 10 20 30 40 +`. -/
theorem multi_piece_strictly_increasing_witness :
    strtok_all "seqA 2 10 20 30 40 +\n".toList [] =
      "seqA".toList :: "2".toList ::
        ["10".toList, "20".toList, "30".toList, "40".toList, "+".toList] ∧
    1 < atoi "2".toList ∧
    read_interval_line 0 "seqA 2 10 30 30 40 +\n".toList =
      .stopped (.not_after_previous 1 2) ∧
    ((∀ e, read_interval_line 0 "seqA 2 10 20 30 40 +\n".toList = .returned e →
      e.npieces = atoi "2".toList ∧
      (∀ p, p < e.npieces.toNat →
        slot e.pstartA p =
          atoi (["10".toList, "20".toList, "30".toList, "40".toList, "+".toList].getD
            (2 * p) []) ∧
        slot e.pendA p =
          atoi (["10".toList, "20".toList, "30".toList, "40".toList, "+".toList].getD
            (2 * p + 1) [])) ∧
      1 ≤ slot e.pstartA 0 ∧
      (∀ p, p < e.npieces.toNat → slot e.pstartA p ≤ slot e.pendA p) ∧
      (∀ p, p + 1 < e.npieces.toNat → slot e.pendA p < slot e.pstartA (p + 1))) ∧
    ((∃ p, p + 1 < (atoi "2".toList).toNat ∧
        atoi (["10".toList, "20".toList, "30".toList, "40".toList, "+".toList].getD
          (2 * p + 1) []) ≥
        atoi (["10".toList, "20".toList, "30".toList, "40".toList, "+".toList].getD
          (2 * (p + 1)) [])) →
      ∃ why, read_interval_line 0 "seqA 2 10 20 30 40 +\n".toList = .stopped why)) :=
  ⟨by decide, by decide, by decide,
    multi_piece_strictly_increasing 0 "seqA 2 10 20 30 40 +\n".toList "seqA".toList
      "2".toList ["10".toList, "20".toList, "30".toList, "40".toList, "+".toList]
      (by decide) (by decide)⟩

theorem read_intervals_loop_stops (line : List Char)
    (hstop : ∀ interval_count, ∃ why, read_interval_line interval_count line = .stopped why) :
    ∀ (lines : List (List Char)) (interval_data : List interval_record), line ∈ lines →
      ∃ why, read_intervals_loop lines interval_data = .stopped why := by
  intro lines
  induction lines with
  | nil => intro _ h; simp at h
  | cons l rest ih =>
    intro interval_data hmem
    simp only [read_intervals_loop]
    rcases status_cases (read_interval_line interval_data.length l) with ⟨e, he⟩ | ⟨why, hw⟩
    · rw [he]
      rcases List.mem_cons.mp hmem with h | h
      · subst h
        obtain ⟨why, hw⟩ := hstop interval_data.length
        rw [hw] at he
        cases he
      · exact ih _ h
    · rw [hw]
      exact ⟨why, rfl⟩

/-- Claim C13: when a line of the interval list has a piece whose start is greater than
its end, the run stops with an error and has written nothing, whatever the FASTA input:
`read_intervals` reads every line of the list before `process_fasta` starts. -/
theorem start_after_end_fails_run (interval_list fa_file line name np_tok : List Char)
    (toks : List (List Char)) (p : Nat)
    (hline : line ∈ fgets_all MAXLINELEN interval_list [])
    (htok : strtok_all line [] = name :: np_tok :: toks)
    (hp : p < (atoi np_tok).toNat)
    (hbad : atoi (toks.getD (2 * p) []) > atoi (toks.getD (2 * p + 1) [])) :
    ∃ why, read_intervals interval_list = .stopped why ∧
      main interval_list fa_file = ⟨[], .stopped why⟩ := by
  have hstop : ∀ interval_count, ∃ why, read_interval_line interval_count line = .stopped why := by
    intro interval_count
    rcases status_cases (read_interval_line interval_count line) with ⟨e, h⟩ | h
    · exfalso
      obtain ⟨a1, _, _, _, a5, _⟩ := accepted_pieces interval_count line name np_tok toks e htok h
      obtain ⟨b1, b2, b3, _, _⟩ := a5 p (by rw [a1]; exact hp)
      rw [b1, b2] at b3
      omega
    · exact h
  obtain ⟨why, hw⟩ := read_intervals_loop_stops line hstop _ [] hline
  have hr : read_intervals interval_list = .stopped why := hw
  refine ⟨why, hr, ?_⟩
  unfold main
  rw [hr]

/-- Witness of claim C13: the list `seqA 1 2 3 +` / `seqC 2 50 40 +` stops at its second
line and writes nothing. -/
theorem start_after_end_fails_run_witness :
    ("seqC 2 50 40 +\n".toList ∈
        fgets_all MAXLINELEN "seqA 1 2 3 +\nseqC 2 50 40 +\n".toList [] ∧
      strtok_all "seqC 2 50 40 +\n".toList [] =
        "seqC".toList :: "2".toList :: ["50".toList, "40".toList, "+".toList] ∧
      0 < (atoi "2".toList).toNat ∧
      atoi (["50".toList, "40".toList, "+".toList].getD (2 * 0) []) >
        atoi (["50".toList, "40".toList, "+".toList].getD (2 * 0 + 1) [])) ∧
    main "seqA 1 2 3 +\nseqC 2 50 40 +\n".toList ">seqA\nACGT\n".toList =
      ⟨[], .stopped (.start_after_end 2 1 50 40)⟩ ∧
    ∃ why, read_intervals "seqA 1 2 3 +\nseqC 2 50 40 +\n".toList = .stopped why ∧
      main "seqA 1 2 3 +\nseqC 2 50 40 +\n".toList ">seqA\nACGT\n".toList =
        ⟨[], .stopped why⟩ :=
  ⟨⟨by decide, by decide, by decide, by decide⟩, by decide,
    start_after_end_fails_run "seqA 1 2 3 +\nseqC 2 50 40 +\n".toList ">seqA\nACGT\n".toList
      "seqC 2 50 40 +\n".toList "seqC".toList "2".toList
      ["50".toList, "40".toList, "+".toList] 0 (by decide) (by decide) (by decide) (by decide)⟩

/-! ## What is on stdout when the run stops with the out-of-range error -/

theorem completeRecords_nil : CompleteRecords [] :=
  ⟨[], fun _ h => by simp at h, rfl⟩

theorem completeRecords_append {a b : List Char} (ha : CompleteRecords a)
    (hb : CompleteRecords b) : CompleteRecords (a ++ b) := by
  obtain ⟨ra, ha1, ha2⟩ := ha
  obtain ⟨rb, hb1, hb2⟩ := hb
  refine ⟨ra ++ rb, ?_, ?_⟩
  · intro r hr
    rcases List.mem_append.mp hr with h | h
    · exact ha1 r h
    · exact hb1 r h
  · rw [List.flatMap_append, ha2, hb2]

theorem andThen_complete {α β : Type} (r : Run α) (f : α → Run β)
    (hr : ReturnedOrEndExceeds r.res → CompleteRecords r.out)
    (hf : ∀ a, ReturnedOrEndExceeds (f a).res → CompleteRecords (f a).out) :
    ReturnedOrEndExceeds (r.andThen f).res → CompleteRecords (r.andThen f).out := by
  intro h
  unfold Run.andThen at h ⊢
  cases hres : r.res with
  | returned a =>
    rw [hres] at h
    simp only at h ⊢
    exact completeRecords_append (hr (Or.inl ⟨a, hres⟩)) (hf a h)
  | stopped why =>
    rw [hres] at h
    simp only at h ⊢
    apply hr
    rw [hres]
    rcases h with ⟨b, hb⟩ | ⟨e, len, name, hb⟩
    · cases hb
    · simp only [Status.stopped.injEq] at hb
      exact Or.inr ⟨e, len, name, by rw [hb]⟩

theorem print_record_complete (e : interval_record) (o : Option (List Char))
    (body : List Char) :
    ReturnedOrEndExceeds (print_record e o body).res →
      CompleteRecords (print_record e o body).out := by
  rintro (⟨e1, h⟩ | ⟨a, b, c, h⟩)
  · exact ⟨[(e, o, body)], fun r hr => by
      rw [List.mem_singleton] at hr; subst hr; exact ⟨e1, h⟩, by simp⟩
  · rcases print_record_stops e o body _ h with hc | ⟨t, ht⟩
    · have : print_record e o body = ⟨[], .stopped (.end_exceeds a b c)⟩ := by
        simp [print_record, hc]
      rw [this]
      exact completeRecords_nil
    · cases ht

theorem print_fasta_loop_complete (given_index : Nat) (body : List Char) :
    ∀ (n : Nat) (T : List interval_record),
      ReturnedOrEndExceeds (print_fasta_loop given_index body n T).res →
        CompleteRecords (print_fasta_loop given_index body n T).out := by
  intro n
  induction n with
  | zero => intro T _; exact completeRecords_nil
  | succ n ih =>
    intro T
    simp only [print_fasta_loop]
    split
    · split
      · exact andThen_complete _ _ (print_record_complete _ _ _) (fun e1 => ih _)
      · intro _; exact completeRecords_nil
    · intro _; exact completeRecords_nil

theorem print_fasta_complete (T : List interval_record) (given_index : Nat)
    (fasta : Option (List Char)) (defline : List Char) :
    ReturnedOrEndExceeds (print_fasta T given_index fasta defline).res →
      CompleteRecords (print_fasta T given_index fasta defline).out := by
  unfold print_fasta
  cases fasta with
  | none => intro _; exact completeRecords_nil
  | some body => exact print_fasta_loop_complete given_index body _ T

theorem process_line_complete (s : scan_state) (descriptions : List Char) :
    ReturnedOrEndExceeds (process_line s descriptions).res →
      CompleteRecords (process_line s descriptions).out := by
  unfold process_line
  split
  · intro _; exact completeRecords_nil
  · split
    · apply andThen_complete
      · split
        · apply andThen_complete
          · exact print_fasta_complete _ _ _ _
          · intro _ _; exact completeRecords_nil
        · intro _; exact completeRecords_nil
      · intro s1
        split <;> (intro _; exact completeRecords_nil)
    · split <;> (intro _; exact completeRecords_nil)

theorem process_lines_complete :
    ∀ (lines : List (List Char)) (s : scan_state),
      ReturnedOrEndExceeds (process_lines lines s).res →
        CompleteRecords (process_lines lines s).out := by
  intro lines
  induction lines with
  | nil => intro s _; exact completeRecords_nil
  | cons l rest ih =>
    intro s
    simp only [process_lines]
    exact andThen_complete _ _ (process_line_complete s l) (fun s1 => ih s1)

theorem process_fasta_complete (T : List interval_record) (file : List Char) :
    ReturnedOrEndExceeds (process_fasta T file).res →
      CompleteRecords (process_fasta T file).out := by
  unfold process_fasta
  apply andThen_complete
  · exact process_lines_complete _ _
  · intro s
    split
    · exact print_fasta_complete _ _ _ _
    · intro _; exact completeRecords_nil

theorem main_complete (interval_list fa_file : List Char) :
    ReturnedOrEndExceeds (main interval_list fa_file).res →
      CompleteRecords (main interval_list fa_file).out := by
  unfold main
  split
  · intro _; exact completeRecords_nil
  · split
    · apply andThen_complete
      · exact process_fasta_complete _ _
      · intro _ _; exact completeRecords_nil
    · intro _; exact completeRecords_nil

theorem print_record_end_exceeds_silent (e : interval_record) (o : Option (List Char))
    (body : List Char) (a b : Int) (c : List Char)
    (h : (print_record e o body).res = .stopped (.end_exceeds a b c)) :
    (print_record e o body).out = [] ∧ a = e.end_ ∧ b = body.length ∧ a > b := by
  rcases print_record_stops e o body _ h with hc | ⟨t, ht⟩
  · have hout : print_record e o body = ⟨[], .stopped (.end_exceeds a b c)⟩ := by
      simp [print_record, hc]
    refine ⟨by rw [hout], ?_⟩
    unfold check_interval at hc
    split at hc
    · split at hc
      · simp at hc
      · split at hc <;> simp at hc
    · split at hc
      · rename_i hgt
        simp only [Status.stopped.injEq, Failure.end_exceeds.injEq] at hc
        obtain ⟨h1, h2, _⟩ := hc
        subst h1 h2
        exact ⟨rfl, rfl, hgt⟩
      · simp at hc
  · cases ht

/-! ## The passes of a run and its output -/

theorem traced_nil_returned {α : Type} (a : α) : Traced [] (⟨[], .returned a⟩ : Run α) :=
  ⟨rfl, fun _ c hc => by simp at hc, fun e len name h => by simp at h⟩

theorem traced_nil_stopped {α : Type} (why : Failure)
    (hw : ∀ e len name, why ≠ .end_exceeds e len name) :
    Traced [] (⟨[], .stopped why⟩ : Run α) :=
  ⟨rfl, fun _ c hc => by simp at hc, fun e len name h => by
    simp only [Status.stopped.injEq] at h
    exact absurd h (hw e len name)⟩

theorem traced_andThen {α β : Type} (r : Run α) (f : α → Run β)
    (cr : List record_call) (cf : α → List record_call)
    (hr : Traced cr r) (hf : ∀ a, r.res = .returned a → Traced (cf a) (f a)) :
    Traced (cr ++ calls_after r.res cf) (r.andThen f) := by
  obtain ⟨r1, r2, r3⟩ := hr
  unfold Run.andThen calls_after
  cases hres : r.res with
  | returned a =>
    obtain ⟨f1, f2, f3⟩ := hf a hres
    simp only
    refine ⟨?_, ?_, ?_⟩
    · rw [List.flatMap_append, r1, f1]
    · intro hret c hc
      rcases List.mem_append.mp hc with h | h
      · exact r2 ⟨a, hres⟩ c h
      · exact f2 hret c h
    · intro e len name hst
      obtain ⟨rs, c, h1, h2, h3⟩ := f3 e len name hst
      refine ⟨cr ++ rs, c, by rw [h1, List.append_assoc], ?_, h3⟩
      intro d hd
      rcases List.mem_append.mp hd with h | h
      · exact r2 ⟨a, hres⟩ d h
      · exact h2 d h
  | stopped why =>
    simp only [List.append_nil]
    refine ⟨r1, ?_, ?_⟩
    · rintro ⟨b, hb⟩
      cases hb
    · intro e len name hst
      simp only [Status.stopped.injEq] at hst
      exact r3 e len name (by rw [hres, hst])

theorem traced_call (c : record_call) : Traced [c] (run_call c) := by
  refine ⟨by simp, ?_, ?_⟩
  · rintro ⟨a, ha⟩ d hd
    rw [List.mem_singleton] at hd
    subst hd
    exact ⟨a, ha⟩
  · intro e len name h
    exact ⟨[], c, rfl, fun d hd => by simp at hd, h⟩

theorem print_fasta_loop_traced (given_index : Nat) (body : List Char) :
    ∀ (n : Nat) (T : List interval_record),
      Traced (print_fasta_loop_calls given_index body n T)
        (print_fasta_loop given_index body n T) := by
  intro n
  induction n with
  | zero => intro T; exact traced_nil_returned T
  | succ n ih =>
    intro T
    simp only [print_fasta_loop, print_fasta_loop_calls]
    split
    · rename_i e g _ _
      split
      · exact traced_andThen (print_record e g.opttok body) _ [(e, g.opttok, body)] _
          (traced_call (e, g.opttok, body)) (fun e1 _ => ih _)
      · exact traced_nil_returned T
    · exact traced_nil_returned T

theorem print_fasta_traced (T : List interval_record) (given_index : Nat)
    (fasta : Option (List Char)) (defline : List Char) :
    Traced (print_fasta_calls T given_index fasta) (print_fasta T given_index fasta defline) := by
  unfold print_fasta print_fasta_calls
  cases fasta with
  | none => exact traced_nil_stopped _ (fun e len name h => by cases h)
  | some body => exact print_fasta_loop_traced given_index body _ T

theorem calls_after_nil {α : Type} (res : Status α) :
    calls_after res (fun _ => ([] : List record_call)) = [] := by
  cases res <;> rfl

theorem process_line_traced (s : scan_state) (descriptions : List Char) :
    Traced (process_line_calls s descriptions) (process_line s descriptions) := by
  unfold process_line process_line_calls
  split
  · exact traced_nil_returned s
  · split
    · have key : ∀ (r : Run scan_state) (cr : List record_call) (f : scan_state → Run scan_state),
          Traced cr r → (∀ a, Traced [] (f a)) → Traced cr (r.andThen f) := by
        intro r cr f h1 h2
        have := traced_andThen r f cr (fun _ => []) h1 (fun a _ => h2 a)
        rw [calls_after_nil, List.append_nil] at this
        exact this
      apply key
      · split
        · have := traced_andThen (print_fasta s.interval_data s.interval_index.toNat s.fasta
            s.defline) (fun interval_data => (⟨[], .returned { s with
              interval_data := interval_data, fasta := s.fasta.map (fun _ => []) }⟩ :
                Run scan_state))
            _ (fun _ => []) (print_fasta_traced _ _ _ _) (fun a _ => traced_nil_returned _)
          rw [calls_after_nil, List.append_nil] at this
          exact this
        · exact traced_nil_returned s
      · intro s1
        split
        · exact traced_nil_stopped _ (fun e len name h => by cases h)
        · exact traced_nil_returned _
    · split
      · exact traced_nil_returned _
      · exact traced_nil_returned _

theorem process_lines_traced :
    ∀ (lines : List (List Char)) (s : scan_state),
      Traced (process_lines_calls lines s) (process_lines lines s) := by
  intro lines
  induction lines with
  | nil => intro s; exact traced_nil_returned s
  | cons l rest ih =>
    intro s
    simp only [process_lines, process_lines_calls]
    exact traced_andThen _ _ _ _ (process_line_traced s l) (fun s1 _ => ih s1)

theorem process_fasta_traced (T : List interval_record) (file : List Char) :
    Traced (process_fasta_calls T file) (process_fasta T file) := by
  unfold process_fasta process_fasta_calls
  apply traced_andThen _ _ _ _ (process_lines_traced _ _)
  intro s _
  split
  · exact print_fasta_traced _ _ _ _
  · exact traced_nil_returned _

theorem read_pieces_not_end_exceeds (name : List Char) (interval : Nat) (np : Int) :
    ∀ (k p : Nat) (tokens : List (List Char)) (ps pe : List Int) (e len : Int)
      (nm : List Char),
      read_pieces name interval np k p tokens ps pe ≠ .stopped (.end_exceeds e len nm) := by
  intro k
  induction k with
  | zero => intro p tokens ps pe e len nm; simp [read_pieces]
  | succ k ih =>
    intro p tokens ps pe e len nm
    cases tokens with
    | nil => simp [read_pieces]
    | cons t1 ts =>
      cases ts with
      | nil =>
        simp only [read_pieces]
        split_ifs <;> simp
      | cons t2 ts =>
        simp only [read_pieces]
        split_ifs
        · simp
        · simp
        · simp
        · simp
        · exact ih _ _ _ _ _ _ _

theorem read_interval_line_not_end_exceeds (interval_count : Nat) (descriptions : List Char)
    (e len : Int) (nm : List Char) :
    read_interval_line interval_count descriptions ≠ .stopped (.end_exceeds e len nm) := by
  unfold read_interval_line
  cases strtok_all descriptions [] with
  | nil => simp
  | cons name tokens =>
    cases tokens with
    | nil => simp
    | cons token tokens =>
      simp only
      split_ifs
      · simp
      · simp
      · cases hrp : read_pieces name (interval_count + 1) (atoi token) (atoi token).toNat 0
            tokens [] [] with
        | stopped why =>
          simp only
          intro h
          simp only [Status.stopped.injEq] at h
          rw [h] at hrp
          exact read_pieces_not_end_exceeds _ _ _ _ _ _ _ _ _ _ _ hrp
        | returned v =>
          obtain ⟨ps, pe, rest⟩ := v
          simp only
          cases rest with
          | nil => simp
          | cons st rest1 =>
            cases rest1 with
            | nil => simp
            | cons o rest2 =>
              cases rest2 <;> simp

theorem read_intervals_loop_not_end_exceeds (e len : Int) (nm : List Char) :
    ∀ (lines : List (List Char)) (interval_data : List interval_record),
      read_intervals_loop lines interval_data ≠ .stopped (.end_exceeds e len nm) := by
  intro lines
  induction lines with
  | nil => intro T; simp [read_intervals_loop]
  | cons l rest ih =>
    intro T
    simp only [read_intervals_loop]
    cases hl : read_interval_line T.length l with
    | stopped why =>
      simp only
      intro h
      simp only [Status.stopped.injEq] at h
      rw [h] at hl
      exact read_interval_line_not_end_exceeds _ _ _ _ _ hl
    | returned r => exact ih _

theorem main_traced (interval_list fa_file : List Char) :
    Traced (main_calls interval_list fa_file) (main interval_list fa_file) := by
  unfold main main_calls
  cases hr : read_intervals interval_list with
  | stopped why =>
    simp only
    refine ⟨rfl, fun _ c hc => by simp at hc, ?_⟩
    intro e len name h
    simp only [Status.stopped.injEq] at h
    rw [h] at hr
    exact absurd hr (read_intervals_loop_not_end_exceeds e len name _ _)
  | returned T =>
    simp only
    split
    · have := traced_andThen (process_fasta (qsort compare_entries T) fa_file)
        (fun _ => (⟨[], .returned ()⟩ : Run Unit)) _ (fun _ => [])
        (process_fasta_traced _ _) (fun a _ => traced_nil_returned _)
      rw [calls_after_nil, List.append_nil] at this
      exact this
    · exact traced_nil_returned ()

theorem print_record_shape (e e1 : interval_record) (o : Option (List Char))
    (body : List Char) (h : (print_record e o body).res = .returned e1) :
    check_interval e body.length = .returned e1 ∧
    (∃ count, (print_sequence e1 body).res = .returned count) ∧
    (print_record e o body).out =
      print_defline e1 o body.length ++ (print_sequence e1 body).out := by
  unfold print_record at h ⊢
  cases hc : check_interval e body.length with
  | stopped why => rw [hc] at h; simp at h
  | returned e2 =>
    rw [hc] at h
    simp only [Run.andThen] at h ⊢
    cases hs : (print_sequence e2 body).res with
    | stopped why => rw [hs] at h; simp at h
    | returned count =>
      rw [hs] at h
      simp only [Status.returned.injEq] at h
      subst h
      simp [hs]

theorem print_record_end_exceeds_eq (r : interval_record) (o : Option (List Char))
    (body : List Char) (e len : Int) (name : List Char)
    (h : (print_record r o body).res = .stopped (.end_exceeds e len name)) :
    print_record r o body = ⟨[], .stopped (.end_exceeds e len name)⟩ ∧
    r.name = name ∧ r.end_ = e ∧ (body.length : Int) = len ∧ len < e := by
  rcases print_record_stops r o body _ h with hc | ⟨t, ht⟩
  · have hout : print_record r o body = ⟨[], .stopped (.end_exceeds e len name)⟩ := by
      simp [print_record, hc]
    refine ⟨hout, ?_⟩
    unfold check_interval at hc
    split at hc
    · split at hc
      · simp at hc
      · split at hc <;> simp at hc
    · split at hc
      · rename_i hgt
        simp only [Status.stopped.injEq, Failure.end_exceeds.injEq] at hc
        obtain ⟨h1, h2, h3⟩ := hc
        subst h1 h2 h3
        exact ⟨rfl, rfl, rfl, hgt⟩
      · simp at hc
  · cases ht


/-- Claim C14, amended: when the run stops because a request's end exceeds the length of
its source sequence, the passes through the loop of `print_fasta` that the run made are
some passes `rs` followed by the pass of the offending request.  That last pass wrote
nothing (no defline, no sequence character) and is the one the error names.  Every pass
of `rs` ran to its end and wrote a complete record, its defline and all its sequence
lines, and the output of the run is exactly these records, in order: they stay in the
output. -/
theorem out_of_range_keeps_earlier_records (interval_list fa_file out : List Char)
    (e len : Int) (name : List Char)
    (h : main interval_list fa_file = ⟨out, .stopped (.end_exceeds e len name)⟩) :
    ∃ (rs : List record_call) (r : interval_record) (o : Option (List Char))
      (body : List Char),
      main_calls interval_list fa_file = rs ++ [(r, o, body)] ∧
      print_record r o body = ⟨[], .stopped (.end_exceeds e len name)⟩ ∧
      r.name = name ∧ r.end_ = e ∧ (body.length : Int) = len ∧ len < e ∧
      (∀ c ∈ rs, ∃ e1 count, check_interval c.1 c.2.2.length = .returned e1 ∧
        print_sequence e1 c.2.2 = ⟨(print_sequence e1 c.2.2).out, .returned count⟩ ∧
        print_record c.1 c.2.1 c.2.2 =
          ⟨print_defline e1 c.2.1 c.2.2.length ++ (print_sequence e1 c.2.2).out,
            .returned e1⟩) ∧
      out = rs.flatMap (fun c => (print_record c.1 c.2.1 c.2.2).out) := by
  obtain ⟨t1, _, t3⟩ := main_traced interval_list fa_file
  rw [h] at t1 t3
  obtain ⟨rs, c, hc1, hc2, hc3⟩ := t3 e len name rfl
  obtain ⟨r, o, body⟩ := c
  obtain ⟨p1, p2, p3, p4, p5⟩ := print_record_end_exceeds_eq r o body e len name hc3
  refine ⟨rs, r, o, body, hc1, p1, p2, p3, p4, p5, ?_, ?_⟩
  · intro d hd
    obtain ⟨e1, he1⟩ := hc2 d hd
    obtain ⟨q1, ⟨count, q2⟩, q3⟩ := print_record_shape d.1 e1 d.2.1 d.2.2 he1
    refine ⟨e1, count, q1, ?_, ?_⟩
    · rw [← q2]
    · have he2 : (print_record d.1 d.2.1 d.2.2).res = .returned e1 := he1
      rw [← q3, ← he2]
  · have hlast : (run_call (r, o, body)).out = [] := by
      have : run_call (r, o, body) = print_record r o body := rfl
      rw [this, p1]
    simp only at t1
    rw [t1, hc1, List.flatMap_append]
    simp only [List.flatMap_cons, List.flatMap_nil, List.append_nil, hlast]
    rfl

/-- Witness of claim C14: the request for `a` is written at the first source record, the
request `b 1 1 2 +` at the second, then the run stops at the request `b 1 1 9 +` of the
same source record, whose end 9 exceeds the length 4, and writes nothing for it. -/
theorem out_of_range_keeps_earlier_records_witness :
    main "a 1 1 2 +\nb 1 1 9 +\nb 1 1 2 +\n".toList ">a\nACGT\n>b\nACGT\n".toList =
      ⟨">a:<1_2:+\nAC\n>b:<1_2:+\nAC\n".toList, .stopped (.end_exceeds 9 4 "b".toList)⟩ ∧
    main_calls "a 1 1 2 +\nb 1 1 9 +\nb 1 1 2 +\n".toList ">a\nACGT\n>b\nACGT\n".toList =
      [(a_entry, none, "ACGT".toList), (b_short_entry, none, "ACGT".toList),
        (b_entry, none, "ACGT".toList)] ∧
    ∃ (rs : List record_call) (r : interval_record) (o : Option (List Char))
      (body : List Char),
      main_calls "a 1 1 2 +\nb 1 1 9 +\nb 1 1 2 +\n".toList ">a\nACGT\n>b\nACGT\n".toList =
        rs ++ [(r, o, body)] ∧
      print_record r o body = ⟨[], .stopped (.end_exceeds 9 4 "b".toList)⟩ ∧
      r.name = "b".toList ∧ r.end_ = 9 ∧ (body.length : Int) = 4 ∧ (4 : Int) < 9 ∧
      (∀ c ∈ rs, ∃ e1 count, check_interval c.1 c.2.2.length = .returned e1 ∧
        print_sequence e1 c.2.2 = ⟨(print_sequence e1 c.2.2).out, .returned count⟩ ∧
        print_record c.1 c.2.1 c.2.2 =
          ⟨print_defline e1 c.2.1 c.2.2.length ++ (print_sequence e1 c.2.2).out,
            .returned e1⟩) ∧
      ">a:<1_2:+\nAC\n>b:<1_2:+\nAC\n".toList =
        rs.flatMap (fun c => (print_record c.1 c.2.1 c.2.2).out) :=
  ⟨by decide, by decide,
    out_of_range_keeps_earlier_records "a 1 1 2 +\nb 1 1 9 +\nb 1 1 2 +\n".toList
      ">a\nACGT\n>b\nACGT\n".toList ">a:<1_2:+\nAC\n>b:<1_2:+\nAC\n".toList 9 4 "b".toList
      (by decide)⟩

/-- Claim C14 as stated fails: the run stops because the end 9 of the request for `b`
exceeds the length 4 of its source sequence, and the output is not empty: it holds the
record of the request for `a`, rendered at the source record before. -/
theorem out_of_range_output_counterexample :
    main "a 1 1 2 +\nb 1 1 9 +\n".toList ">a\nACGT\n>b\nACGT\n".toList =
      ⟨">a:<1_2:+\nAC\n".toList, .stopped (.end_exceeds 9 4 "b".toList)⟩ ∧
    (main "a 1 1 2 +\nb 1 1 9 +\n".toList ">a\nACGT\n>b\nACGT\n".toList).out ≠ [] := by
  constructor <;> decide

/-! ## compare_entries -/

theorem strcmp_lt_iff_bytes_lt (a b : List Char) : strcmp a b < 0 ↔ bytes_lt a b := by
  induction a generalizing b with
  | nil => cases b <;> simp [strcmp, bytes_lt]
  | cons x xs ih =>
    cases b with
    | nil => simp [strcmp, bytes_lt]
    | cons y ys =>
      simp only [strcmp, bytes_lt]
      by_cases hxy : x = y
      · subst hxy
        simp only [if_true, lt_irrefl, true_and, false_or]
        exact ih ys
      · simp only [hxy, if_false, false_and, or_false]
        omega

theorem bytes_lt_irrefl (a : List Char) : ¬ bytes_lt a a := by
  rw [← strcmp_lt_iff_bytes_lt, strcmp_self]
  decide

theorem compare_entries_of_ne (a b : interval_record) (h : strcmp a.name b.name ≠ 0) :
    compare_entries a b = strcmp a.name b.name := by
  simp [compare_entries, h]

theorem compare_entries_of_eq (a b : interval_record) (h : strcmp a.name b.name = 0) :
    compare_entries a b =
      if a.start < b.start then -1
      else if a.start > b.start then 1
      else if a.end_ < b.end_ then -1
      else if a.end_ > b.end_ then 1
      else if a.strand < b.strand then -1
      else if a.strand > b.strand then 1
      else 0 := by
  simp only [compare_entries, h, ne_eq, not_true_eq_false, if_false]

theorem compare_entries_le_iff_of_eq (a b : interval_record) (h : strcmp a.name b.name = 0) :
    compare_entries a b ≤ 0 ↔
      (a.start < b.start ∨
        (a.start = b.start ∧
          (a.end_ < b.end_ ∨ (a.end_ = b.end_ ∧ a.strand ≤ b.strand)))) := by
  rw [compare_entries_of_eq a b h]
  split_ifs <;> omega

theorem compare_entries_neg_iff (a b : interval_record) :
    compare_entries a b < 0 ↔ key_lt a b := by
  unfold key_lt
  by_cases h : strcmp a.name b.name = 0
  · have hn : a.name = b.name := strcmp_eq_zero.mp h
    have hb : ¬ bytes_lt a.name b.name := by rw [hn]; exact bytes_lt_irrefl _
    rw [compare_entries_of_eq a b h]
    simp only [hb, bytes_lt_irrefl, false_or, hn, true_and]
    split_ifs <;> omega
  · have hn : ¬ a.name = b.name := fun e => h (strcmp_eq_zero.mpr e)
    rw [compare_entries_of_ne a b h, strcmp_lt_iff_bytes_lt]
    simp [hn]

theorem compare_entries_zero_iff (a b : interval_record) :
    compare_entries a b = 0 ↔ key_eq a b := by
  unfold key_eq
  by_cases h : strcmp a.name b.name = 0
  · have hn : a.name = b.name := strcmp_eq_zero.mp h
    rw [compare_entries_of_eq a b h]
    simp only [hn, true_and]
    split_ifs <;> (try simp only [false_iff, true_iff, iff_false, iff_true]) <;> omega
  · have hn : ¬ a.name = b.name := fun e => h (strcmp_eq_zero.mpr e)
    rw [compare_entries_of_ne a b h]
    simp [hn, h]

theorem compare_entries_antisymm (a b : interval_record) :
    compare_entries a b < 0 ↔ 0 < compare_entries b a := by
  by_cases h : strcmp a.name b.name = 0
  · have hn : a.name = b.name := strcmp_eq_zero.mp h
    have h2 : strcmp b.name a.name = 0 := by rw [hn, strcmp_self]
    rw [compare_entries_of_eq a b h, compare_entries_of_eq b a h2]
    split_ifs <;> (try simp only [false_iff, true_iff, iff_false, iff_true]) <;> omega
  · have h2 : strcmp b.name a.name ≠ 0 := by
      intro e
      exact h (strcmp_eq_zero.mpr (strcmp_eq_zero.mp e).symm)
    rw [compare_entries_of_ne a b h, compare_entries_of_ne b a h2]
    exact strcmp_antisymm _ _

theorem compare_entries_pos_iff (a b : interval_record) :
    0 < compare_entries a b ↔ key_lt b a := by
  rw [← compare_entries_antisymm, compare_entries_neg_iff]

theorem compare_entries_le_trans (a b c : interval_record)
    (h1 : compare_entries a b ≤ 0) (h2 : compare_entries b c ≤ 0) :
    compare_entries a c ≤ 0 := by
  by_cases hab : strcmp a.name b.name = 0
  · have hn : a.name = b.name := strcmp_eq_zero.mp hab
    by_cases hbc : strcmp b.name c.name = 0
    · have hn2 : b.name = c.name := strcmp_eq_zero.mp hbc
      have hac : strcmp a.name c.name = 0 := by rw [hn, hn2, strcmp_self]
      rw [compare_entries_le_iff_of_eq a b hab] at h1
      rw [compare_entries_le_iff_of_eq b c hbc] at h2
      rw [compare_entries_le_iff_of_eq a c hac]
      omega
    · rw [compare_entries_of_ne b c hbc] at h2
      have hac : strcmp a.name c.name ≠ 0 := by rw [hn]; exact hbc
      rw [compare_entries_of_ne a c hac, hn]
      exact h2
  · rw [compare_entries_of_ne a b hab] at h1
    have hlt : strcmp a.name b.name < 0 := by omega
    by_cases hbc : strcmp b.name c.name = 0
    · have hn2 : b.name = c.name := strcmp_eq_zero.mp hbc
      have hac : strcmp a.name c.name ≠ 0 := by rw [← hn2]; exact hab
      rw [compare_entries_of_ne a c hac, ← hn2]
      exact h1
    · rw [compare_entries_of_ne b c hbc] at h2
      have := strcmp_lt_of_lt_of_le hlt h2
      have hac : strcmp a.name c.name ≠ 0 := by omega
      rw [compare_entries_of_ne a c hac]
      omega

theorem compare_entries_total (a b : interval_record) :
    compare_entries a b ≤ 0 ∨ compare_entries b a ≤ 0 := by
  by_cases h : compare_entries a b ≤ 0
  · exact Or.inl h
  · right
    have := (compare_entries_antisymm b a).mpr (by omega)
    omega

theorem mem_qsort_insert {α : Type} (compar : α → α → Int) (x z : α) :
    ∀ l : List α, z ∈ qsort_insert compar x l → z = x ∨ z ∈ l := by
  intro l
  induction l with
  | nil => intro h; simp [qsort_insert] at h; exact Or.inl h
  | cons y ys ih =>
    intro h
    simp only [qsort_insert] at h
    split at h
    · rcases List.mem_cons.mp h with h1 | h1
      · exact Or.inl h1
      · exact Or.inr h1
    · rcases List.mem_cons.mp h with h1 | h1
      · exact Or.inr (by rw [h1]; exact List.mem_cons_self _ _)
      · rcases ih h1 with h2 | h2
        · exact Or.inl h2
        · exact Or.inr (List.mem_cons_of_mem _ h2)

theorem qsort_insert_sorted (x : interval_record) :
    ∀ l : List interval_record, l.Pairwise (fun a b => compare_entries a b ≤ 0) →
      (qsort_insert compare_entries x l).Pairwise (fun a b => compare_entries a b ≤ 0) := by
  intro l
  induction l with
  | nil => intro _; simp [qsort_insert]
  | cons y ys ih =>
    intro hs
    obtain ⟨hy, hys⟩ := List.pairwise_cons.mp hs
    simp only [qsort_insert]
    split
    · rename_i hxy
      refine List.pairwise_cons.mpr ⟨?_, hs⟩
      intro z hz
      rcases List.mem_cons.mp hz with h1 | h1
      · rw [h1]; exact hxy
      · exact compare_entries_le_trans x y z hxy (hy z h1)
    · rename_i hxy
      refine List.pairwise_cons.mpr ⟨?_, ih hys⟩
      intro z hz
      rcases mem_qsort_insert compare_entries x z ys hz with h1 | h1
      · rw [h1]
        rcases compare_entries_total x y with h2 | h2
        · exact absurd h2 hxy
        · exact h2
      · exact hy z h1

theorem qsort_insert_perm {α : Type} (compar : α → α → Int) (x : α) :
    ∀ l : List α, (qsort_insert compar x l).Perm (x :: l) := by
  intro l
  induction l with
  | nil => simp [qsort_insert]
  | cons y ys ih =>
    simp only [qsort_insert]
    split
    · exact List.Perm.refl _
    · exact (List.Perm.cons y ih).trans (List.Perm.swap x y ys)

theorem qsort_sorted_perm :
    ∀ t : List interval_record,
      (qsort compare_entries t).Pairwise (fun a b => compare_entries a b ≤ 0) ∧
      (qsort compare_entries t).Perm t := by
  intro t
  induction t with
  | nil => simp [qsort]
  | cons x xs ih =>
    have e : qsort compare_entries (x :: xs) =
        qsort_insert compare_entries x (qsort compare_entries xs) := rfl
    rw [e]
    exact ⟨qsort_insert_sorted x _ ih.1,
      (qsort_insert_perm compare_entries x _).trans (List.Perm.cons x ih.2)⟩

/-- Claim C15: `compare_entries` is negative, zero or positive exactly as the key
`(name, span_start, span_end, strand)` of its first argument is lexicographically below,
equal to or above that of the second, names in bytewise order and PLUS before MINUS; it is
antisymmetric and transitive, and the table `qsort` makes with it is a rearrangement of the
input that ascends in the key. -/
theorem compare_entries_key_order (a b c : interval_record) (t : List interval_record) :
    (compare_entries a b < 0 ↔ key_lt a b) ∧
    (compare_entries a b = 0 ↔ key_eq a b) ∧
    (0 < compare_entries a b ↔ key_lt b a) ∧
    (compare_entries a b < 0 ↔ 0 < compare_entries b a) ∧
    (compare_entries a b = 0 ↔ compare_entries b a = 0) ∧
    (compare_entries a b ≤ 0 → compare_entries b c ≤ 0 → compare_entries a c ≤ 0) ∧
    (compare_entries a b < 0 → compare_entries b c < 0 → compare_entries a c < 0) ∧
    (qsort compare_entries t).Perm t ∧
    (qsort compare_entries t).Pairwise (fun x y => key_lt x y ∨ key_eq x y) := by
  refine ⟨compare_entries_neg_iff a b, compare_entries_zero_iff a b,
    compare_entries_pos_iff a b, compare_entries_antisymm a b, ?_,
    compare_entries_le_trans a b c, ?_, (qsort_sorted_perm t).2, ?_⟩
  · constructor
    · intro h
      have h1 := compare_entries_antisymm a b
      have h2 := compare_entries_antisymm b a
      omega
    · intro h
      have h1 := compare_entries_antisymm a b
      have h2 := compare_entries_antisymm b a
      omega
  · intro h1 h2
    have h3 := compare_entries_le_trans a b c (le_of_lt h1) (le_of_lt h2)
    rcases lt_or_eq_of_le h3 with h | h
    · exact h
    · exfalso
      have h4 : 0 < compare_entries c b := (compare_entries_antisymm b c).mp h2
      have h5 : compare_entries c a = 0 := by
        have k1 := compare_entries_antisymm a c
        have k2 := compare_entries_antisymm c a
        omega
      have h6 := compare_entries_le_trans c a b (le_of_eq h5) (le_of_lt h1)
      omega
  · refine List.Pairwise.imp ?_ (qsort_sorted_perm t).1
    intro x y hxy
    rcases lt_or_eq_of_le hxy with h | h
    · exact Or.inl ((compare_entries_neg_iff x y).mp h)
    · exact Or.inr ((compare_entries_zero_iff x y).mp h)

theorem check_interval_frame (e e1 : interval_record) (len : Int)
    (h : check_interval e len = .returned e1) :
    e1.name = e.name ∧ e1.npieces = e.npieces ∧ e1.start = e.start ∧ e1.end_ = e.end_ ∧
    e1.strand = e.strand ∧ e1.opttok = e.opttok ∧
    (slot e.pstartA 0 ≠ UNKNOWN → e1 = e) ∧
    (slot e.pstartA 0 = UNKNOWN →
      e1 = { e with pstartA := e.pstartA.set 0 1, pendA := e.pendA.set 0 len }) := by
  unfold check_interval at h
  split at h
  · rename_i hu
    split at h
    · simp at h
    · split at h
      · simp at h
      · simp only [Status.returned.injEq] at h
        subst h
        exact ⟨rfl, rfl, rfl, rfl, rfl, rfl, fun hne => absurd hu hne, fun _ => rfl⟩
  · rename_i hu
    split at h
    · simp at h
    · simp only [Status.returned.injEq] at h
      subst h
      exact ⟨rfl, rfl, rfl, rfl, rfl, rfl, fun _ => rfl, fun he => absurd he hu⟩

theorem print_record_returned (e e1 : interval_record) (o : Option (List Char))
    (body : List Char) (h : (print_record e o body).res = .returned e1) :
    check_interval e body.length = .returned e1 := by
  unfold print_record at h
  cases hc : check_interval e body.length with
  | stopped why => rw [hc] at h; simp at h
  | returned e2 =>
    rw [hc] at h
    simp only [Run.andThen] at h
    split at h
    · simp only [Status.returned.injEq] at h
      rw [h]
    · simp at h

/-- Claim C16 fails on the code: the call of `print_fasta` for the whole-sequence entry
`s` and the body `ACGT` returns a table whose entry has `pstartA[0] = 1` and
`pendA[0] = 4` where the table before the call had `UNKNOWN` in both slots (lines
490-491), while `start` and `end` stay `UNKNOWN`.  What the loop body does leave
unchanged: every other field, and every entry whose first start is not `UNKNOWN`. -/
theorem print_fasta_writes_table :
    print_fasta [s_entry] 0 (some "ACGT".toList) [] =
      ⟨">s:<1_>4:+\nACGT\n".toList,
        .returned [{ s_entry with pstartA := [1], pendA := [4] }]⟩ ∧
    (print_fasta [s_entry] 0 (some "ACGT".toList) []).res ≠ .returned [s_entry] ∧
    slot s_entry.pstartA 0 = UNKNOWN ∧ slot s_entry.pendA 0 = UNKNOWN ∧
    s_entry.start = UNKNOWN ∧ s_entry.end_ = UNKNOWN ∧
    ∀ (e e1 : interval_record) (o : Option (List Char)) (body : List Char),
      (print_record e o body).res = .returned e1 →
        e1.name = e.name ∧ e1.npieces = e.npieces ∧ e1.start = e.start ∧
        e1.end_ = e.end_ ∧ e1.strand = e.strand ∧ e1.opttok = e.opttok ∧
        (slot e.pstartA 0 ≠ UNKNOWN → e1 = e) ∧
        (slot e.pstartA 0 = UNKNOWN →
          e1 = { e with pstartA := e.pstartA.set 0 1,
                        pendA := e.pendA.set 0 (body.length : Int) }) := by
  refine ⟨by decide, by decide, by decide, by decide, by decide, by decide, ?_⟩
  intro e e1 o body h
  exact check_interval_frame e e1 body.length (print_record_returned e e1 o body h)

/-! ## The round trip over complement and reversal -/

theorem base_complement_twice (c : Char) :
    base_complement (base_complement c) = c ↔ c ∈ base_letters := by
  constructor
  · intro h
    by_contra hmem
    simp only [base_letters, List.mem_cons, List.mem_singleton, List.not_mem_nil, or_false,
      not_or] at hmem
    obtain ⟨hA, hC, hG, hT, ha, hc, hg, ht, hN⟩ := hmem
    have h1 : base_complement c = 'N' := by
      rw [← complement_eq]
      simp only [complement, hA, hC, hG, hT, ha, hc, hg, ht, if_false]
    rw [h1] at h
    exact hN h.symm
  · intro hmem
    simp only [base_letters, List.mem_cons, List.mem_singleton, List.not_mem_nil,
      or_false] at hmem
    rcases hmem with h | h | h | h | h | h | h | h | h <;> (subst h; rfl)

theorem map_eq_self_iff {α : Type} (f : α → α) :
    ∀ l : List α, l.map f = l ↔ ∀ c ∈ l, f c = c := by
  intro l
  induction l with
  | nil => simp
  | cons x xs ih =>
    simp only [List.map_cons, List.cons.injEq, ih, List.mem_cons, forall_eq_or_imp]

theorem round_trip_eq (e : interval_record) (body : List Char)
    (ho : StrictlyOrdered e body.length) :
    (((print_sequence { e with strand := MINUS } body).out.filter
        (fun c => decide (c ≠ '\n'))).map base_complement).reverse =
      (plus_sequence e body).map (fun c => base_complement (base_complement c)) := by
  have hm : PiecesInRange { e with strand := MINUS } body.length :=
    strictlyOrdered_inRange e _ ho
  have am : assembled { e with strand := MINUS } body =
      reverse_complement (plus_sequence e body) := by
    simp [assembled, plus_sequence, PLUS, MINUS]
  rw [print_sequence_assembled _ body hm, am]
  simp only
  rw [filter_wrap_lines, filter_of_no_newline _ (newline_not_mem_reverse_complement _)]
  simp [reverse_complement, List.map_reverse]

/-- Claim C17, amended: for a source body and strictly ordered in-range pieces, the
Minus-strand output, complemented again and reversed, is the Plus-strand sequence with
every character complemented twice; it is the Plus-strand sequence, character for
character, exactly when every character of the region is one of A, C, G, T, a, c, g, t,
N (any other character comes back as N). -/
theorem round_trip_on_bases (e : interval_record) (body : List Char)
    (ho : StrictlyOrdered e body.length) :
    (((print_sequence { e with strand := MINUS } body).out.filter
        (fun c => decide (c ≠ '\n'))).map base_complement).reverse =
      (plus_sequence e body).map (fun c => base_complement (base_complement c)) ∧
    ((((print_sequence { e with strand := MINUS } body).out.filter
        (fun c => decide (c ≠ '\n'))).map base_complement).reverse = plus_sequence e body ↔
      ∀ c ∈ plus_sequence e body, c ∈ base_letters) ∧
    ((∀ c ∈ plus_sequence e body, c ∈ base_letters) →
      (print_sequence { e with strand := PLUS } body).out.filter
        (fun c => decide (c ≠ '\n')) = plus_sequence e body) := by
  have h1 := round_trip_eq e body ho
  refine ⟨h1, ?_, ?_⟩
  · rw [h1, map_eq_self_iff]
    constructor
    · intro h c hc
      exact (base_complement_twice c).mp (h c hc)
    · intro h c hc
      exact (base_complement_twice c).mpr (h c hc)
  · intro hb
    have hp : PiecesInRange { e with strand := PLUS } body.length :=
      strictlyOrdered_inRange e _ ho
    have ap : assembled { e with strand := PLUS } body = plus_sequence e body := by
      simp [assembled, plus_sequence]
    rw [print_sequence_assembled _ body hp, ap]
    simp only
    rw [filter_wrap_lines]
    apply filter_of_no_newline
    intro hnl
    exact absurd (hb _ hnl) (by decide)

/-- Witness of claim C17: the pieces 10..20 and 30..40 of `seqA`. -/
theorem round_trip_on_bases_witness :
    StrictlyOrdered seqA_entry seqA_body.length ∧
    (((print_sequence { seqA_entry with strand := MINUS } seqA_body).out.filter
        (fun c => decide (c ≠ '\n'))).map base_complement).reverse =
      "AAAAAAAAAAACCCCCCCCCCC".toList ∧
    ((((print_sequence { seqA_entry with strand := MINUS } seqA_body).out.filter
        (fun c => decide (c ≠ '\n'))).map base_complement).reverse =
      (plus_sequence seqA_entry seqA_body).map
        (fun c => base_complement (base_complement c)) ∧
    ((((print_sequence { seqA_entry with strand := MINUS } seqA_body).out.filter
        (fun c => decide (c ≠ '\n'))).map base_complement).reverse =
        plus_sequence seqA_entry seqA_body ↔
      ∀ c ∈ plus_sequence seqA_entry seqA_body, c ∈ base_letters) ∧
    ((∀ c ∈ plus_sequence seqA_entry seqA_body, c ∈ base_letters) →
      (print_sequence { seqA_entry with strand := PLUS } seqA_body).out.filter
        (fun c => decide (c ≠ '\n')) = plus_sequence seqA_entry seqA_body)) :=
  ⟨by decide, by decide, round_trip_on_bases seqA_entry seqA_body (by decide)⟩

/-- Claim C17 as stated fails: for the body `X` and the region 1..1 the Minus-strand
output is `N`; complemented again and reversed it is `N`, not the Plus-strand slice
`X`. -/
theorem round_trip_counterexample :
    StrictlyOrdered x_entry ("X".toList.length : Int) ∧
    (print_sequence x_entry "X".toList).out = "N\n".toList ∧
    (print_sequence { x_entry with strand := PLUS } "X".toList).out = "X\n".toList ∧
    (((print_sequence x_entry "X".toList).out.filter
        (fun c => decide (c ≠ '\n'))).map base_complement).reverse = "N".toList ∧
    (((print_sequence x_entry "X".toList).out.filter
        (fun c => decide (c ≠ '\n'))).map base_complement).reverse ≠
      plus_sequence x_entry "X".toList := by
  refine ⟨?_, ?_, ?_, ?_, ?_⟩ <;> decide

theorem read_pieces_append (name : List Char) (interval : Nat) (np : Int) :
    ∀ (k p : Nat) (coords rest : List (List Char)) (ps pe : List Int),
      coords.length = 2 * k →
      read_pieces name interval np k p (coords ++ rest) ps pe =
        match read_pieces name interval np k p coords ps pe with
        | .returned (a, b, _) => .returned (a, b, rest)
        | .stopped why => .stopped why := by
  intro k
  induction k with
  | zero =>
    intro p coords rest ps pe hl
    have : coords = [] := List.length_eq_zero.mp (by omega)
    subst this
    simp [read_pieces]
  | succ k ih =>
    intro p coords rest ps pe hl
    cases coords with
    | nil => simp only [List.length_nil] at hl; omega
    | cons t1 cs =>
      cases cs with
      | nil => simp only [List.length_cons, List.length_nil] at hl; omega
      | cons t2 cs =>
        have hl2 : cs.length = 2 * k := by simp only [List.length_cons] at hl; omega
        simp only [List.cons_append, read_pieces]
        by_cases c1 : np > 1 ∧ atoi t1 < 1
        · simp [c1]
        · simp only [c1, if_false]
          by_cases c2 : atoi t2 < 1
          · simp [c2]
          · simp only [c2, if_false]
            by_cases c3 : atoi t1 > atoi t2
            · simp [c3]
            · simp only [c3, if_false]
              by_cases c4 : p > 0 ∧ slot pe (p - 1) ≥ atoi t1
              · simp [c4]
              · simp only [c4, if_false]
                exact ih (p + 1) cs rest _ _ hl2

theorem read_interval_line_strand_token (interval_count : Nat)
    (d1 d2 name np_tok st1 st2 : List Char) (coords suffix : List (List Char))
    (e : interval_record)
    (h1 : strtok_all d1 [] = name :: np_tok :: (coords ++ st1 :: suffix))
    (h2 : strtok_all d2 [] = name :: np_tok :: (coords ++ st2 :: suffix))
    (hl : coords.length = 2 * (atoi np_tok).toNat)
    (h : read_interval_line interval_count d1 = .returned e) :
    read_interval_line interval_count d2 =
      .returned { e with strand := if st2 = ['+'] then PLUS else MINUS } := by
  unfold read_interval_line at h ⊢
  rw [h1] at h
  rw [h2]
  simp only at h ⊢
  by_cases c1 : atoi np_tok < 1
  · simp [c1] at h
  · simp only [c1, if_false] at h ⊢
    by_cases c2 : atoi np_tok > MAXPIECES
    · simp [c2] at h
    · simp only [c2, if_false] at h ⊢
      rw [read_pieces_append name _ _ _ 0 coords (st1 :: suffix) [] [] hl] at h
      rw [read_pieces_append name _ _ _ 0 coords (st2 :: suffix) [] [] hl]
      cases hrp : read_pieces name (interval_count + 1) (atoi np_tok) (atoi np_tok).toNat 0
          coords [] [] with
      | stopped why => rw [hrp] at h; simp at h
      | returned r =>
        obtain ⟨ps, pe, rest⟩ := r
        rw [hrp] at h
        simp only at h ⊢
        have hst : (strcmp st2 ['+'] = 0) = (st2 = ['+']) := propext strcmp_eq_zero
        cases suffix with
        | nil =>
          simp only [Status.returned.injEq] at h
          subst h
          simp only [hst]
        | cons o rest2 =>
          cases rest2 with
          | nil =>
            simp only [Status.returned.injEq] at h
            subst h
            simp only [hst]
          | cons x xs => simp at h

/-- Claim C18: for an accepted explicit-coordinate line the strand token is the token after
the pieces; the stored strand is PLUS exactly when that token is the one-character string
`+`, and MINUS for every other token; and the same line with any other token in the place
of the strand token is accepted too, with the strand that token gives. -/
theorem strand_plus_iff (interval_count : Nat) (descriptions name np_tok : List Char)
    (toks : List (List Char)) (e : interval_record)
    (htok : strtok_all descriptions [] = name :: np_tok :: toks)
    (h : read_interval_line interval_count descriptions = .returned e) :
    (∃ strand_tok, toks[2 * e.npieces.toNat]? = some strand_tok ∧
      (e.strand = PLUS ↔ strand_tok = ['+']) ∧
      (strand_tok ≠ ['+'] → e.strand = MINUS) ∧
      (strand_tok = ['+'] → e.strand = PLUS)) ∧
    (∀ (d2 st1 st2 : List Char) (coords suffix : List (List Char)),
      toks = coords ++ st1 :: suffix → coords.length = 2 * e.npieces.toNat →
      strtok_all d2 [] = name :: np_tok :: (coords ++ st2 :: suffix) →
      read_interval_line interval_count d2 =
        .returned { e with strand := if st2 = ['+'] then PLUS else MINUS }) := by
  obtain ⟨_, t2, _, t4, _, t6, _⟩ :=
    read_interval_line_tokens interval_count descriptions name np_tok toks e htok h
  constructor
  · refine ⟨toks[2 * e.npieces.toNat], List.getElem?_eq_getElem t4, ?_⟩
    have hg : toks.getD (2 * e.npieces.toNat) [] = toks[2 * e.npieces.toNat] := by
      simp [List.getD_eq_getElem?_getD, List.getElem?_eq_getElem t4]
    rw [hg] at t6
    by_cases hs : toks[2 * e.npieces.toNat] = ['+']
    · have hz : strcmp toks[2 * e.npieces.toNat] ['+'] = 0 := strcmp_eq_zero.mpr hs
      rw [hz] at t6
      simp only [if_true] at t6
      exact ⟨⟨fun _ => hs, fun _ => t6⟩, fun hne => absurd hs hne, fun _ => t6⟩
    · have hz : ¬ strcmp toks[2 * e.npieces.toNat] ['+'] = 0 := fun hz =>
        hs (strcmp_eq_zero.mp hz)
      simp only [hz, if_false] at t6
      refine ⟨⟨fun hp => ?_, fun hp => absurd hp hs⟩, fun _ => t6, fun hp => absurd hp hs⟩
      rw [t6] at hp
      exact absurd hp (by decide)
  · intro d2 st1 st2 coords suffix htoks hl h2
    subst htoks
    exact read_interval_line_strand_token interval_count descriptions d2 name np_tok st1 st2
      coords suffix e htok h2 (by rw [hl, t2]) h

/-- Witness of claim C18: the strand tokens `+`, `-`, `++`, `plus` and `7`. -/
theorem strand_plus_iff_witness :
    read_interval_line 0 "s 1 2 3 +\n".toList = .returned (strand_entry PLUS) ∧
    read_interval_line 0 "s 1 2 3 -\n".toList = .returned (strand_entry MINUS) ∧
    read_interval_line 0 "s 1 2 3 ++\n".toList = .returned (strand_entry MINUS) ∧
    read_interval_line 0 "s 1 2 3 plus\n".toList = .returned (strand_entry MINUS) ∧
    read_interval_line 0 "s 1 2 3 7\n".toList = .returned (strand_entry MINUS) ∧
    strtok_all "s 1 2 3 ++\n".toList [] =
      "s".toList :: "1".toList :: ["2".toList, "3".toList, "++".toList] ∧
    ((∃ strand_tok,
      ["2".toList, "3".toList, "++".toList][2 * (strand_entry MINUS).npieces.toNat]? =
        some strand_tok ∧
      ((strand_entry MINUS).strand = PLUS ↔ strand_tok = ['+']) ∧
      (strand_tok ≠ ['+'] → (strand_entry MINUS).strand = MINUS) ∧
      (strand_tok = ['+'] → (strand_entry MINUS).strand = PLUS)) ∧
    (∀ (d2 st1 st2 : List Char) (coords suffix : List (List Char)),
      ["2".toList, "3".toList, "++".toList] = coords ++ st1 :: suffix →
      coords.length = 2 * (strand_entry MINUS).npieces.toNat →
      strtok_all d2 [] = "s".toList :: "1".toList :: (coords ++ st2 :: suffix) →
      read_interval_line 0 d2 =
        .returned { strand_entry MINUS with strand := if st2 = ['+'] then PLUS else MINUS })) :=
  ⟨by decide, by decide, by decide, by decide, by decide, by decide,
    strand_plus_iff 0 "s 1 2 3 ++\n".toList "s".toList "1".toList
      ["2".toList, "3".toList, "++".toList] (strand_entry MINUS) (by decide) (by decide)⟩

/-- Claim C19 fails on the code: when the last line of the FASTA stream has no newline,
line 415 still cuts its last character; for the record `s` with the single body line
`ACGT` the body handed to `print_fasta` is `ACG`. -/
theorem last_line_loses_character :
    fgets_all MAXLINELEN ">s\nACGT".toList [] = [">s\n".toList, "ACGT".toList] ∧
    (process_lines (fgets_all MAXLINELEN ">s\nACGT".toList [])
        { interval_data := [s_entry], interval_index := UNKNOWN, fasta := none,
          defline := [] }).res =
      .returned { interval_data := [s_entry], interval_index := 0,
                  fasta := some "ACG".toList, defline := ">s\n".toList } ∧
    main "s\n".toList ">s\nACGT".toList = ⟨">s:<1_>3:+\nACG\n".toList, .returned ()⟩ ∧
    main "s\n".toList ">s\nACGT\n".toList = ⟨">s:<1_>4:+\nACGT\n".toList, .returned ()⟩ := by
  refine ⟨?_, ?_, ?_, ?_⟩ <;> decide

/-- Claim C20: for an entry with more than one piece that `read_intervals` accepted and a
body at least as long as the entry's last piece end, every position `temp` between
`start - 1` and `end - 1` of a piece lies in `[0, len(body))`, and `print_fasta` renders
the entry to its end on the strand it has: no read of `given_fasta[temp]` falls outside
the body. -/
theorem multi_piece_reads_in_range (interval_count : Nat) (descriptions : List Char)
    (e : interval_record) (o : Option (List Char)) (body : List Char)
    (h : read_interval_line interval_count descriptions = .returned e)
    (hmulti : 1 < e.npieces)
    (hlen : slot e.pendA (e.npieces.toNat - 1) ≤ (body.length : Int)) :
    (∀ p, p < e.npieces.toNat → ∀ temp : Int,
      slot e.pstartA p - 1 ≤ temp → temp ≤ slot e.pendA p - 1 →
        0 ≤ temp ∧ temp < (body.length : Int)) ∧
    print_record e o body =
      ⟨print_defline e o body.length ++ wrap_lines (assembled e body), .returned e⟩ ∧
    (∀ temp, (print_record e o body).res ≠ .stopped (.outside_read temp)) ∧
    (∀ temp, (print_record { e with strand := PLUS } o body).res ≠
      .stopped (.outside_read temp)) ∧
    (∀ temp, (print_record { e with strand := MINUS } o body).res ≠
      .stopped (.outside_read temp)) := by
  rcases read_interval_line_inv interval_count descriptions e h with
    ⟨h1, _⟩ | ⟨_, _, h3, _, _, h6, h7⟩
  · rw [h1] at hmulti
    exact absurd hmulti (by decide)
  · have hr : PiecesInRange e body.length := by
      intro p hp
      have hv := (h7.1 p (by omega)).2.2 hmulti
      have hm := piecesValid_mono _ _ _ h7 (e.npieces.toNat - 1) p (by omega) (by omega)
      exact ⟨hv, by omega⟩
    have hk : ¬ (slot e.pstartA 0 = UNKNOWN) := by
      intro hu
      have := (hr 0 (by omega)).1
      rw [hu] at this
      exact absurd this (by decide)
    have hend : ¬ (e.end_ > (body.length : Int)) := by rw [h6]; omega
    have hrec : ∀ (s : Int), print_record { e with strand := s } o body =
        ⟨print_defline { e with strand := s } o body.length ++
          wrap_lines (assembled { e with strand := s } body),
          .returned { e with strand := s }⟩ := by
      intro s
      apply print_record_of_check
      · simp [check_interval, hk, hend]
      · exact hr
    have hself : print_record e o body =
        ⟨print_defline e o body.length ++ wrap_lines (assembled e body), .returned e⟩ :=
      hrec e.strand
    refine ⟨?_, hself, ?_, ?_, ?_⟩
    · intro p hp temp ht1 ht2
      obtain ⟨a1, a2⟩ := hr p hp
      constructor <;> omega
    · intro temp hc
      rw [hself] at hc
      cases hc
    · intro temp hc
      rw [hrec PLUS] at hc
      cases hc
    · intro temp hc
      rw [hrec MINUS] at hc
      cases hc

/-- Witness of claim C20: the entry of the line `seqA 2 10 20 30 40 +` on the body of 100
characters. -/
theorem multi_piece_reads_in_range_witness :
    (read_interval_line 0 "seqA 2 10 20 30 40 +\n".toList = .returned seqA_entry ∧
      1 < seqA_entry.npieces ∧
      slot seqA_entry.pendA (seqA_entry.npieces.toNat - 1) ≤ (seqA_body.length : Int)) ∧
    ((∀ p, p < seqA_entry.npieces.toNat → ∀ temp : Int,
      slot seqA_entry.pstartA p - 1 ≤ temp → temp ≤ slot seqA_entry.pendA p - 1 →
        0 ≤ temp ∧ temp < (seqA_body.length : Int)) ∧
    print_record seqA_entry none seqA_body =
      ⟨print_defline seqA_entry none seqA_body.length ++
        wrap_lines (assembled seqA_entry seqA_body), .returned seqA_entry⟩ ∧
    (∀ temp, (print_record seqA_entry none seqA_body).res ≠ .stopped (.outside_read temp)) ∧
    (∀ temp, (print_record { seqA_entry with strand := PLUS } none seqA_body).res ≠
      .stopped (.outside_read temp)) ∧
    (∀ temp, (print_record { seqA_entry with strand := MINUS } none seqA_body).res ≠
      .stopped (.outside_read temp))) :=
  ⟨⟨by decide, by decide, by decide⟩,
    multi_piece_reads_in_range 0 "seqA 2 10 20 30 40 +\n".toList seqA_entry none seqA_body
      (by decide) (by decide) (by decide)⟩

/-! ## Termination of find_index -/

theorem find_index_loop_body (t : List interval_record) (q : List Char) (fuel : Nat)
    (left right : Int) :
    find_index_loop t q (fuel + 1) left right =
      if left ≤ right then
        match find_index_body t q left right with
        | .returned v => v
        | .next l r => find_index_loop t q fuel l r
      else some UNKNOWN := by
  simp only [find_index_loop, find_index_body]
  by_cases hlr : left ≤ right
  · simp only [hlr, if_true]
    by_cases h0 : (left + right) / 2 < 0
    · simp only [h0, if_true]
    · simp only [h0, if_false]
      cases t[((left + right) / 2).toNat]? with
      | none => rfl
      | some e =>
        simp only []
        by_cases h1 : strcmp q e.name = 0
        · simp only [h1, if_true]
        · simp only [h1, if_false]
          by_cases h2 : strcmp q e.name < 0
          · simp only [h2, if_true]
          · simp only [h2, if_false]
  · simp only [hlr, if_false]

theorem scan_back_returns (t : List interval_record) (q : List Char) :
    ∀ k : Nat, k ≤ t.length → ∃ r : Nat, scan_back t q k = some (r : Int) ∧ r ≤ k := by
  intro k
  induction k with
  | zero => intro _; exact ⟨0, rfl, le_refl _⟩
  | succ k ih =>
    intro hk
    have hk2 : k < t.length := by omega
    simp only [scan_back, List.getElem?_eq_getElem hk2]
    by_cases hq : strcmp q (t[k]).name = 0
    · simp only [hq, if_true]
      obtain ⟨r, h1, h2⟩ := ih (by omega)
      exact ⟨r, h1, by omega⟩
    · simp only [hq, if_false]
      exact ⟨k + 1, by simp, le_refl _⟩

theorem scan_back_loop_eq (t : List interval_record) (q : List Char) :
    ∀ (k fuel : Nat), k ≤ t.length → k < fuel →
      scan_back_loop t q fuel ((k : Int) - 1) = scan_back t q k := by
  intro k
  induction k with
  | zero =>
    intro fuel _ hf
    obtain ⟨f, rfl⟩ : ∃ f, fuel = f + 1 := ⟨fuel - 1, by omega⟩
    simp [scan_back_loop, scan_back]
  | succ k ih =>
    intro fuel hk hf
    obtain ⟨f, rfl⟩ : ∃ f, fuel = f + 1 := ⟨fuel - 1, by omega⟩
    have hk2 : k < t.length := by omega
    have e1 : ((k + 1 : Nat) : Int) - 1 = (k : Int) := by push_cast; omega
    have e2 : (0 : Int) ≤ (k : Int) := by omega
    simp only [scan_back_loop, scan_back, e1, e2, if_true, Int.toNat_ofNat,
      List.getElem?_eq_getElem hk2]
    by_cases hq : strcmp q (t[k]).name = 0
    · simp only [hq, if_true]
      exact ih f (by omega) (by omega)
    · simp only [hq, if_false]

theorem find_index_body_cases (t : List interval_record) (q : List Char)
    (left right : Int) (h0 : 0 ≤ left) (h1 : right < t.length) (hlr : left ≤ right) :
    (∃ r : Nat, find_index_body t q left right = .returned (some (r : Int)) ∧
      (r : Int) ≤ (left + right) / 2) ∨
    (∃ l r : Int, find_index_body t q left right = .next l r ∧
      r - l < right - left ∧ -1 ≤ r - l ∧ 0 ≤ l ∧ r < t.length) := by
  have hi1 : left ≤ (left + right) / 2 := by omega
  have hi2 : (left + right) / 2 ≤ right := by omega
  obtain ⟨m, hm⟩ : ∃ m : Nat, (left + right) / 2 = (m : Int) :=
    ⟨((left + right) / 2).toNat, by omega⟩
  have hmlt : m < t.length := by omega
  have hneg : ¬ ((m : Int) < 0) := by omega
  simp only [find_index_body, hm, Int.toNat_ofNat, List.getElem?_eq_getElem hmlt, hneg,
    if_false]
  by_cases hq : strcmp q (t[m]).name = 0
  · simp only [hq, if_true]
    left
    obtain ⟨r, h2, h3⟩ := scan_back_returns t q m (by omega)
    exact ⟨r, by rw [h2], by omega⟩
  · simp only [hq, if_false]
    right
    by_cases hneg2 : strcmp q (t[m]).name < 0
    · simp only [hneg2, if_true]
      exact ⟨left, (m : Int) - 1, rfl, by omega, by omega, h0, by omega⟩
    · simp only [hneg2, if_false]
      exact ⟨(m : Int) + 1, right, rfl, by omega, by omega, by omega, h1⟩

theorem find_index_loop_returns (t : List interval_record) (q : List Char) :
    ∀ (fuel : Nat) (left right : Int), 0 ≤ left → right < t.length →
      0 < fuel → right - left + 1 < fuel →
      ∃ r : Int, find_index_loop t q fuel left right = some r ∧
        (r = UNKNOWN ∨ (0 ≤ r ∧ r < t.length)) := by
  intro fuel
  induction fuel with
  | zero =>
    intro left right h0 h1 hf h2
    omega
  | succ fuel ih =>
    intro left right h0 h1 _ h2
    rw [find_index_loop_body]
    by_cases hlr : left ≤ right
    · simp only [hlr, if_true]
      rcases find_index_body_cases t q left right h0 h1 hlr with ⟨r, hr, hb⟩ | ⟨l, r, hr, a, b, c, d⟩
      · rw [hr]
        exact ⟨r, rfl, Or.inr ⟨by omega, by omega⟩⟩
      · rw [hr]
        exact ih l r c d (by omega) (by omega)
    · simp only [hlr, if_false]
      exact ⟨UNKNOWN, rfl, Or.inl rfl⟩

theorem find_index_loop_fuel_succ (t : List interval_record) (q : List Char) :
    ∀ (fuel : Nat) (left right : Int) (v : Int),
      find_index_loop t q fuel left right = some v →
      find_index_loop t q (fuel + 1) left right = some v := by
  intro fuel
  induction fuel with
  | zero => intro left right v h; simp [find_index_loop] at h
  | succ fuel ih =>
    intro left right v h
    rw [find_index_loop_body] at h ⊢
    by_cases hlr : left ≤ right
    · simp only [hlr, if_true] at h ⊢
      cases hb : find_index_body t q left right with
      | returned w => rw [hb] at h; exact h
      | next l r => rw [hb] at h; exact ih l r v h
    · simp only [hlr, if_false] at h ⊢
      exact h

theorem find_index_loop_fuel_le (t : List interval_record) (q : List Char)
    (fuel1 fuel2 : Nat) (hle : fuel1 ≤ fuel2) (left right : Int) (v : Int)
    (h : find_index_loop t q fuel1 left right = some v) :
    find_index_loop t q fuel2 left right = some v := by
  obtain ⟨d, rfl⟩ : ∃ d, fuel2 = fuel1 + d := ⟨fuel2 - fuel1, by omega⟩
  induction d with
  | zero => exact h
  | succ d ih => exact find_index_loop_fuel_succ t q (fuel1 + d) left right v (ih (by omega))

/-- Claim C21: on every table, sorted or not, the empty one included, and for every name
`find_index` returns `UNKNOWN` or an index of the table: the fuel `interval_count + 1`
is never used up, more fuel gives the same value, and no read falls outside the table.
Every pass through the body of the binary-search loop, entered with bounds inside the
table, reads inside the table and either returns or comes back with a strictly smaller
`right - left` and bounds still inside the table.  The backward scan started below an
index of the table returns an index between 0 and its start, on the C variable `index`
within `start + 1` passes.  On the table `b a b a`, not sorted, the three lookups
return. -/
theorem find_index_terminates (t : List interval_record) (q : List Char) :
    (∃ r : Int, find_index t q = some r ∧ (r = UNKNOWN ∨ (0 ≤ r ∧ r < t.length))) ∧
    (∀ fuel : Nat, t.length + 1 ≤ fuel →
      find_index_loop t q fuel 0 ((t.length : Int) - 1) = find_index t q) ∧
    (∀ (fuel : Nat) (left right : Int), 0 ≤ left → right < t.length →
      0 < fuel → right - left + 1 < fuel →
      ∃ r : Int, find_index_loop t q fuel left right = some r ∧
        (r = UNKNOWN ∨ (0 ≤ r ∧ r < t.length))) ∧
    (∀ (fuel : Nat) (left right : Int),
      find_index_loop t q (fuel + 1) left right =
        if left ≤ right then
          match find_index_body t q left right with
          | .returned v => v
          | .next l r => find_index_loop t q fuel l r
        else some UNKNOWN) ∧
    (∀ left right : Int, 0 ≤ left → right < t.length → left ≤ right →
      (0 ≤ (left + right) / 2 ∧ (left + right) / 2 < t.length ∧
        left + right ≤ 2 * (t.length : Int) - 2) ∧
      ((∃ r : Nat, find_index_body t q left right = .returned (some (r : Int)) ∧
          (r : Int) ≤ (left + right) / 2) ∨
       (∃ l r : Int, find_index_body t q left right = .next l r ∧
          r - l < right - left ∧ -1 ≤ r - l ∧ 0 ≤ l ∧ r < t.length))) ∧
    (∀ k : Nat, k ≤ t.length →
      ∃ r : Nat, scan_back t q k = some (r : Int) ∧ r ≤ k ∧
        ∀ fuel : Nat, k < fuel → scan_back_loop t q fuel ((k : Int) - 1) = some (r : Int)) ∧
    find_index [] q = some UNKNOWN ∧
    ¬ SortedByName unsorted_table ∧
    find_index unsorted_table "b".toList = some 2 ∧
    find_index unsorted_table "a".toList = some 1 ∧
    find_index unsorted_table "c".toList = some UNKNOWN := by
  obtain ⟨r, hr, hb⟩ := find_index_loop_returns t q (t.length + 1) 0 ((t.length : Int) - 1)
    (le_refl _) (by omega) (by omega) (by push_cast; omega)
  refine ⟨⟨r, hr, hb⟩, ?_, find_index_loop_returns t q, find_index_loop_body t q, ?_, ?_, ?_,
    by decide, by decide, by decide, by decide⟩
  · intro fuel hf
    have h2 : find_index t q = some r := hr
    rw [h2]
    exact find_index_loop_fuel_le t q (t.length + 1) fuel hf 0 _ r hr
  · intro left right h0 h1 hlr
    exact ⟨⟨by omega, by omega, by omega⟩, find_index_body_cases t q left right h0 h1 hlr⟩
  · intro k hk
    obtain ⟨r, h1, h2⟩ := scan_back_returns t q k hk
    refine ⟨r, h1, h2, ?_⟩
    intro fuel hf
    rw [scan_back_loop_eq t q k fuel hk hf, h1]
  · simp [find_index, find_index_loop]

end ExtractFasta
